import Mathlib

/-! The service broker (`communication/ServiceBroker.hpp`, `communication/Service.hpp`), the
concatenator (`communication/Concat.hpp`) and the workers (`communication/WorkerBase.hpp`,
`communication/WorkerSingleThreaded.hpp`, `communication/ContextBase.hpp`).

A shallow embedding of `detail::sanitize_name` and of `ServiceDirectory`
(`add_service`, `remove_service`, `list_services`, `node_type`, `clear`), together
with the part of `boost::property_tree::ptree` the directory is built on; of `Service`
(`connect`, `emit`) and `ServiceBroker` (`add_service`, `remove_service`, `get_service`,
`register_callback`, `call`, `call_combine`); of `ConcatImpl` with the default policies of
`Concat`; and of the deferred configuration of `ContextBaseT` and `WorkerBaseT`, the
constructor and destructor of `WorkerBaseT`, and the loop of `WorkerSingleThreadedT`.

* `std::string` is embedded as `List Char`.
* A `ptree` is its data and the list of its keyed children in insertion order; `find` takes
  the first child with a key, `ordered_begin()` iterates the children in the order of the
  keys.  A path is read with `string_path::reduce()`; the functions of the tree are stated on
  the list of fragments this gives (`fragments_reduce`, `walk_keys_reduce`).
* A reference into the tree that the code mutates is embedded as an update at the path that
  led to it (`update_path`, `force_path`).
* `BOOST_ASSERT` depends on the build: the flag `ndebug` says whether assertions are compiled
  out.  A failed assertion is an outcome of its own.
* The walk of `list_services` is embedded with its stacks, as a step function run for a
  bounded number of turns; `walk_loop_finishes` shows that the bound is never reached.
* The signals that services share through a `std::shared_ptr` live in a `Heap`; the handle
  of a service holds the address of its signal.  A subscriber is a function of the arguments
  that returns a value or throws; what it does besides is seen as the log of the
  invocations.
* The map `services_` and the store `data_` are lists of keyed entries with no key twice.
* The functions for the member functions of a worker or a context are whole calls.  In the
  step relations of the threads a call of `set_configuration` whose `try_lock` fails takes
  two steps, the second being the store `configuration_changed_ = true`; the mutex
  `configuration_mtx_` is held across steps only by a running task, and `try_lock` succeeds
  whenever the mutex is free.
-/

/-- A `std::string`, as the list of its characters. -/
abbrev Str := List Char

/-! ## `detail::sanitize_name` -/

namespace detail

/-- The copy loop of `sanitize_name` (`for (; it != name.end(); ++it)`): the first argument is
the flag `found`, the second the characters from `it` on, the result the characters written
through `dst_it`.  `dst_it` never runs ahead of `it`, so the in-place writes do not change what
the loop reads. -/
def sanitize_loop : Bool → Str → Str
  | _, [] => []
  | found, c :: cs =>
    if found = false ∨ c ≠ '.' then c :: sanitize_loop false cs
    else sanitize_loop true cs

/-- The function `detail::sanitize_name`: the early return on the empty string, the copy loop started with
`found = true`, one trailing `'.'` dropped from what was written
(`dst_it != name.begin() && *std::prev(dst_it) == '.'`), then `erase(dst_it, end)`. -/
def sanitize_name (name : Str) : Str :=
  if name = [] then name
  else
    let out := sanitize_loop true name
    if out.getLast? = some '.' then out.dropLast else out

end detail

/-! ## The fragment of `boost::property_tree::ptree` used by the directory -/

/-- A `ptree`: the node's own data and its children, keyed, in the order in which they were
inserted (the sequenced index). -/
inductive PTree where
  | node (data : Str) (children : List (Str × PTree))

namespace PTree

/-- The function `ptree::data()`. -/
def data : PTree → Str
  | node d _ => d

/-- The children of the node, in insertion order. -/
def children : PTree → List (Str × PTree)
  | node _ cs => cs

/-- A default-constructed `ptree`: empty data, no children. -/
def empty : PTree := node [] []

mutual
/-- Number of nodes of a tree. -/
def size : PTree → Nat
  | node _ cs => 1 + sizeList cs
/-- Number of nodes of a list of children. -/
def sizeList : List (Str × PTree) → Nat
  | [] => 0
  | (_, t) :: r => size t + sizeList r
end

/-- The function `string_path::reduce()` on the unread part of a path: the fragment before the next `'.'`
and the part left after it (the separator is skipped). -/
def reduce : Str → Str × Str
  | [] => ([], [])
  | c :: cs => if c = '.' then ([], cs) else (c :: (reduce cs).1, (reduce cs).2)

/-- The function `string_path::single()`: no separator is left. -/
def single (p : Str) : Bool := !p.contains '.'

/-- The path cut at every `'.'`: the fragments `force_path` and `put_child` take off a path
with `reduce()` (`force_path` while the path is not `single()`, `put_child` the last one). -/
def fragments : Str → List Str
  | [] => [[]]
  | c :: cs =>
    if c = '.' then [] :: fragments cs
    else match fragments cs with
      | [] => [[c]]
      | k :: ks => (c :: k) :: ks

/-- The assertion `BOOST_ASSERT(!p.empty())` of `force_path` / `string_path::reduce` fails on the way of
`put_child(path, _)`: the path is empty or ends with the separator. -/
def put_asserts (p : Str) : Bool := (fragments p).getLast? = some []

/-- The fragments `walk_path` takes off a path: it calls `reduce()` until the path is
`empty()`, so an empty last fragment is never taken. -/
def walk_keys (p : Str) : List Str :=
  if put_asserts p then (fragments p).dropLast else fragments p

/-- The function `ptree::find(key)` on the children of a node: the first child with this key. -/
def find (k : Str) : List (Str × PTree) → Option PTree
  | [] => none
  | (k', t) :: r => if k' = k then some t else find k r

/-- Assignment through the iterator returned by `find(key)`: the first child with this key
becomes `v`. -/
def setFirst (k : Str) (v : PTree) : List (Str × PTree) → List (Str × PTree)
  | [] => []
  | (k', t) :: r => if k' = k then (k', v) :: r else (k', t) :: setFirst k v r

/-- The function `ptree::walk_path`, on the fragments of the path. -/
def walk_path : PTree → List Str → Option PTree
  | t, [] => some t
  | t, k :: ks =>
    match find k t.children with
    | none => none
    | some c => walk_path c ks

/-- The function `ptree::get_child_optional(path)`. -/
def get_child_optional (t : PTree) (path : Str) : Option PTree :=
  walk_path t (walk_keys path)

/-- The function `ptree::get_optional<std::string>(path)`: the data of the child, when it exists. -/
def get_optional (t : PTree) (path : Str) : Option Str :=
  (get_child_optional t path).map data

/-- A mutation `f` made through the reference that `walk_path` returns; the tree is unchanged
when the path leads nowhere. -/
def update_path : List Str → (PTree → PTree) → PTree → PTree
  | [], f, t => f t
  | k :: ks, f, t =>
    match find k t.children with
    | none => t
    | some c => node t.data (setFirst k (update_path ks f c) t.children)

/-- The function `ptree::force_path`, followed by a mutation `f` of the parent it returns: every fragment
is looked up with `find` and, when missing, created with `push_back` of an empty tree. -/
def force_path : List Str → (PTree → PTree) → PTree → PTree
  | [], f, t => f t
  | k :: ks, f, t =>
    match find k t.children with
    | none => node t.data (t.children ++ [(k, force_path ks f empty)])
    | some c => node t.data (setFirst k (force_path ks f c) t.children)

/-- The last step of `put_child`, on the parent: replace the child named `k` when there is
one, `push_back` otherwise. -/
def set_child (k : Str) (v : PTree) (parent : PTree) : PTree :=
  match find k parent.children with
  | none => node parent.data (parent.children ++ [(k, v)])
  | some _ => node parent.data (setFirst k v parent.children)

/-- The function `ptree::put_child(path, value)` with the assertions compiled out. -/
def put_child (t : PTree) (path : Str) (v : PTree) : PTree :=
  force_path (fragments path).dropLast (set_child ((fragments path).getLastD []) v) t

/-- The function `ptree::put_value(value)`: only the data of the node changes. -/
def put_value (v : Str) (t : PTree) : PTree := node v t.children

/-- The function `ptree::put(path, value)`: `put_value` on the child when `get_child_optional` finds it,
else `put_child(path, ptree())` and `put_value` on the new child.  `ndebug = false` is a build
with `BOOST_ASSERT` active; the result is then `none` when an assertion of `put_child` fails. -/
def put (ndebug : Bool) (t : PTree) (path : Str) (v : Str) : Option PTree :=
  match get_child_optional t path with
  | some _ => some (update_path (walk_keys path) (put_value v) t)
  | none =>
    if ndebug = false ∧ put_asserts path = true then none
    else some (put_child t path (put_value v empty))

/-- The function `ptree::clear()`: data and children are dropped. -/
def clear (_ : PTree) : PTree := empty

/-- The order `std::less<std::string>`, the comparison of the ordered index of the children. -/
def str_less : Str → Str → Bool
  | _, [] => false
  | [], _ :: _ => true
  | a :: as, b :: bs =>
    if a.toNat < b.toNat then true
    else if b.toNat < a.toNat then false
    else str_less as bs

/-- Insertion of one child into the ordered (non-unique) index: after every child whose key
is not greater. -/
def ordered_insert {α : Type} (x : Str × α) : List (Str × α) → List (Str × α)
  | [] => [x]
  | y :: r => if str_less x.1 y.1 then x :: y :: r else y :: ordered_insert x r

/-- The children from `ordered_begin()` to `not_found()`: the ordered index, filled in
insertion order. -/
def ordered {α : Type} (cs : List (Str × α)) : List (Str × α) :=
  cs.foldl (fun acc x => ordered_insert x acc) []

end PTree

/-! ## `ServiceDirectory` -/

/-- The marker `"service"` of a service node. -/
def service_mark : Str := "service".toList

/-- The marker `"deleted"` of a removed node. -/
def deleted_mark : Str := "deleted".toList

/-- The enumeration `ServiceDirectory::NodeType`. -/
inductive NodeType where
  | Group
  | Service
  deriving DecidableEq, Repr

/-- How a call ends: it returns, it throws `broker_error(what)`, or a `BOOST_ASSERT` of the
property tree fails. -/
inductive Outcome where
  | ok
  | broker_error (what : String)
  | assertion_failed
  deriving DecidableEq, Repr

/-- The class `ServiceDirectory`: its only member is the property tree. -/
structure ServiceDirectory where
  tree : PTree

/-- The state of the walk of `list_services`. -/
structure WalkState where
  /-- The range from `it` to `it_end`. -/
  it : List (Str × PTree)
  /-- The stack `iterator_stack`: each saved pair `(it, it_end)`, as the range between the
  two. -/
  iterator_stack : List (List (Str × PTree))
  /-- The stack `name_stack`. -/
  name_stack : List Str
  /-- The vector `result`. -/
  result : List Str

namespace ServiceDirectory

/-- A default-constructed directory. -/
def init : ServiceDirectory := ⟨PTree.empty⟩

/-- The function `ServiceDirectory::node_type`. -/
def node_type (d : ServiceDirectory) (raw_name : Str) : Option NodeType :=
  match PTree.get_optional d.tree (detail.sanitize_name raw_name) with
  | some node =>
    if node ≠ deleted_mark then
      (if node = [] then some NodeType.Group else some NodeType.Service)
    else none
  | none => none

/-- The function `ServiceDirectory::add_service`: the outcome and the directory afterwards. -/
def add_service (ndebug : Bool) (d : ServiceDirectory) (raw_name : Str) :
    Outcome × ServiceDirectory :=
  let name := detail.sanitize_name raw_name
  if name = [] then (Outcome.broker_error "Service must have a name", d)
  else
    match node_type d name with
    | some node_t =>
      if node_t = NodeType.Group then
        (Outcome.broker_error "Group with this name already exists.", d)
      else (Outcome.broker_error "Service with this name already exists.", d)
    | none =>
      match PTree.put ndebug d.tree name service_mark with
      | some t => (Outcome.ok, ⟨t⟩)
      | none => (Outcome.assertion_failed, d)

/-- The function `ServiceDirectory::remove_service`. -/
def remove_service (d : ServiceDirectory) (raw_name : Str) : ServiceDirectory :=
  match PTree.get_child_optional d.tree (detail.sanitize_name raw_name) with
  | some _ =>
    ⟨PTree.update_path (PTree.walk_keys (detail.sanitize_name raw_name))
      (fun node => PTree.put_value deleted_mark (PTree.clear node)) d.tree⟩
  | none => d

/-- One turn of the walk of `list_services`: one pass through the body of the inner `while`
when `it != it_end`, else the pop of the stacks; `none` is the `break`. -/
def walk_step (s : WalkState) : Option WalkState :=
  match s.it with
  | (k, c) :: rest =>
    if c.data = service_mark then
      some { s with result := s.result ++ [s.name_stack.headD [] ++ k], it := rest }
    else
      some { it := PTree.ordered c.children
             iterator_stack := s.it :: s.iterator_stack
             name_stack := (s.name_stack.headD [] ++ k ++ ['.']) :: s.name_stack
             result := s.result }
  | [] =>
    match s.iterator_stack with
    | saved :: stack =>
      some { it := saved.tail
             iterator_stack := stack
             name_stack := s.name_stack.tail
             result := s.result }
    | [] => none

/-- The loop `while (true)` of `list_services`, for at most the given number of turns; `none`
when the walk has not reached its `break` by then. -/
def walk_loop : Nat → WalkState → Option (List Str)
  | 0, _ => none
  | n + 1, s =>
    match walk_step s with
    | none => some s.result
    | some s' => walk_loop n s'

/-- The first entry of `name_stack` (`name == "" ? "" : name + "."`): empty for the root, else
the name of the group and a `'.'`. -/
def stack_base (name : Str) : Str := if name = [] then [] else name ++ ['.']

/-- The function `ServiceDirectory::list_services`.  The walk gets two turns for every node
below the selected one, which is enough for it to finish (`walk_loop_finishes`). -/
def list_services (d : ServiceDirectory) (raw_name : Str) : List Str :=
  let name := detail.sanitize_name raw_name
  match PTree.get_child_optional d.tree name with
  | none => []
  | some node =>
    if node.data = service_mark then [name]
    else
      (walk_loop (2 * node.size)
        { it := PTree.ordered node.children
          iterator_stack := []
          name_stack := [stack_base name]
          result := [] }).getD []

/-- The function `ServiceDirectory::clear`. -/
def clear (d : ServiceDirectory) : ServiceDirectory := ⟨PTree.clear d.tree⟩

end ServiceDirectory

/-- The calls that change a directory. -/
inductive Call where
  | add_service (raw_name : Str)
  | remove_service (raw_name : Str)
  | clear

namespace ServiceDirectory

/-- One call on a directory: its outcome and the directory afterwards. -/
def call (ndebug : Bool) (d : ServiceDirectory) : Call → Outcome × ServiceDirectory
  | Call.add_service raw_name => add_service ndebug d raw_name
  | Call.remove_service raw_name => (Outcome.ok, remove_service d raw_name)
  | Call.clear => (Outcome.ok, clear d)

/-- A sequence of calls, a thrown `broker_error` being caught by the caller: the outcomes, in
order, and the directory at the end.  A failed assertion ends the program: no later call is
made. -/
def run (ndebug : Bool) (d : ServiceDirectory) : List Call → List Outcome × ServiceDirectory
  | [] => ([], d)
  | c :: cs =>
    match call ndebug d c with
    | (Outcome.assertion_failed, d') => ([Outcome.assertion_failed], d')
    | (o, d') => (o :: (run ndebug d' cs).1, (run ndebug d' cs).2)

end ServiceDirectory

/-! ## Names used to state the properties -/

/-- A path segment of a normalized name: not empty, without `'.'`. -/
def is_key (k : Str) : Prop := k ≠ [] ∧ '.' ∉ k

/-- The dotted name of a list of segments. -/
def join_path : List Str → Str
  | [] => []
  | [k] => k
  | k :: k' :: ks => k ++ '.' :: join_path (k' :: ks)

instance (k : Str) : Decidable (is_key k) := by
  unfold is_key; infer_instance

mutual
/-- The pre-order walk below a group in the words of the specification: the names found below
each child, the children taken in the order of their keys. -/
def preorder_spec (pre : Str) : PTree → List Str
  | PTree.node _ cs => (PTree.ordered (child_names pre cs)).flatMap Prod.snd
/-- For every child its key and the names it gives: a service its full name, a group the
names below it. -/
def child_names (pre : Str) : List (Str × PTree) → List (Str × List Str)
  | [] => []
  | (k, c) :: r =>
    (k, if c.data = service_mark then [pre ++ k] else preorder_spec (pre ++ k ++ ['.']) c)
      :: child_names pre r
end

/-- The names one child gives to the walk. -/
def names_of (pre : Str) (kc : Str × PTree) : List Str :=
  if kc.2.data = service_mark then [pre ++ kc.1] else preorder_spec (pre ++ kc.1 ++ ['.']) kc.2

/-- A service leaf with the given key. -/
def leaf (k : Str) : Str × PTree := (k, PTree.node service_mark [])

/-- The tree that holds `node` at the end of the chain of groups `g`. -/
def spine : List Str → PTree → PTree
  | [], node => node
  | k :: g, node => PTree.node [] [(k, spine g node)]

/-! ## `Service` and its dispatcher (`communication/Service.hpp`)

The dispatcher is a `boost::signals2::signal` with the default combiner
`optional_last_value`.  Values of all C++ types are embedded in one type `Value`; the
template arguments of a service are kept as its `Signature`.  A subscriber is embedded as a
function from its arguments to what the invocation does: it returns a value, or it throws. -/

/-- A value passed to or returned by a subscriber. -/
inductive Value where
  | unit
  | int (i : Int)
  | str (s : String)
  deriving DecidableEq, Repr

/-- The template arguments `<ResultType, Args...>` of a service, by the names of the types. -/
structure Signature where
  result : String
  args : List String
  deriving DecidableEq, Repr

/-- What one invocation of a callable does: it returns a value, or it throws an exception
(`what` names the exception). -/
inductive Reply where
  | value (v : Value)
  | throws (what : String)
  deriving DecidableEq, Repr

/-- A callable handed to `register_callback` or `connect`.  Its signature is what
`utils::function_traits<decltype(callback)>` (`detail/traits.hpp`) reads off its type. -/
structure Callback where
  signature : Signature
  fn : List Value → Reply

/-- A slot of a signal: the connection that `connect` returned for it, and the callable. -/
structure Slot where
  connection : Nat
  fn : List Value → Reply

/-- One invocation of a subscriber: its connection and the arguments it was called with. -/
abbrev Invocation := Nat × List Value

/-- The objects shared through `std::shared_ptr<signal_type>`: the slots of every signal
created so far, in the order of connection, and the number of connections made so far. -/
structure Heap where
  signals : List (List Slot)
  connections : Nat

/-- A value of `Service<ResultType, Args...>`: the name, the template arguments, and the
shared pointer `service`, as the address of the signal in the heap.  Copies are equal
values. -/
structure Service where
  name : Str
  signature : Signature
  service : Nat
  deriving DecidableEq

/-- How a call ends: it returns a value, it throws `broker_error(what)`, it throws
`boost::bad_optional_access`, an assertion fails, (assertions compiled out) it goes on
into undefined behaviour, or the exception that a subscriber threw leaves the call. -/
inductive Ending (α : Type) where
  | returned (value : α)
  | broker_error (what : String)
  | bad_optional_access
  | assertion_failed
  | undefined_behaviour
  | exception (what : String)
  deriving DecidableEq

namespace Ending

/-- An ending that is not a return, at another result type; a return gets the given value. -/
def map {α β : Type} (f : α → β) : Ending α → Ending β
  | returned v => returned (f v)
  | broker_error what => broker_error what
  | bad_optional_access => bad_optional_access
  | assertion_failed => assertion_failed
  | undefined_behaviour => undefined_behaviour
  | exception what => exception what

/-- The value a call returned; the given value when it did not return. -/
def get {α : Type} (d : α) : Ending α → α
  | returned v => v
  | _ => d

/-- The call threw a `broker_error`. -/
def is_broker_error {α : Type} : Ending α → Bool
  | broker_error _ => true
  | _ => false

end Ending

namespace Heap

/-- No signal yet. -/
def init : Heap := ⟨[], 0⟩

/-- The slots of the signal at an address. -/
def slots (h : Heap) (address : Nat) : List Slot := h.signals.getD address []

/-- The constructor `Service(name)`: `service(new signal_type)` is a new signal without
slots. -/
def new_service (h : Heap) (name : Str) (signature : Signature) : Service × Heap :=
  (⟨name, signature, h.signals.length⟩, ⟨h.signals ++ [[]], h.connections⟩)

/-- The call `service->connect(callback)` on the signal at an address: the slot goes to the
back of the slots, the connection is returned. -/
def connect (h : Heap) (address : Nat) (fn : List Value → Reply) : Nat × Heap :=
  (h.connections,
    ⟨h.signals.set address (h.slots address ++ [⟨h.connections, fn⟩]), h.connections + 1⟩)

end Heap

/-- Several calls `service->connect(callback)` on the signal at an address, one after the
other: the connections they return and the heap afterwards. -/
def Heap.connect_all (h : Heap) (address : Nat) :
    List (List Value → Reply) → List Nat × Heap
  | [] => ([], h)
  | fn :: rest =>
    ((h.connect address fn).1 :: (Heap.connect_all (h.connect address fn).2 address rest).1,
      (Heap.connect_all (h.connect address fn).2 address rest).2)

/-- The loop of `optional_last_value` over the slots of a signal
(`while (first != last) { value = *first; ++first; }`): dereferencing invokes the slot.  The
second argument is `value`, the third the invocations made so far.  A slot that throws ends
the loop: the combiner catches only `boost::signals2::expired_slot`, which the slots here,
tracking no object, do not raise, and nothing else catches the exception between the slot
and the caller of the signal; so the slots behind it are not invoked. -/
def invoke_slots (args : List Value) : List Slot → Option Value → List Invocation →
    Ending (Option Value) × List Invocation
  | [], value, log => (Ending.returned value, log)
  | s :: rest, _, log =>
    match s.fn args with
    | Reply.value v => invoke_slots args rest (some v) (log ++ [(s.connection, args)])
    | Reply.throws what => (Ending.exception what, log ++ [(s.connection, args)])

namespace Service

/-- The function `Service::operator()`: the signal is invoked; a service with a result type
returns `.value()` of the optional it gets, a `Service<void, Args...>` returns nothing.  An
exception that leaves the signal leaves `operator()` too.  With the ending come the
invocations of subscribers that were made. -/
def emit (h : Heap) (s : Service) (args : List Value) : Ending Value × List Invocation :=
  match invoke_slots args (h.slots s.service) none [] with
  | (Ending.returned value, log) =>
    if s.signature.result = "void" then (Ending.returned Value.unit, log)
    else
      match value with
      | some v => (Ending.returned v, log)
      | none => (Ending.bad_optional_access, log)
  | (e, log) => (e.map (fun _ => Value.unit), log)

end Service

/-! ## `ServiceBroker` (`communication/ServiceBroker.hpp`) -/

/-- What happens after a failed `assert(it != services_.end())`: the assertion fails in a
build with assertions, and without them the end iterator is used. -/
def assert_failure {α : Type} (ndebug : Bool) : Ending α :=
  if ndebug then Ending.undefined_behaviour else Ending.assertion_failed

/-- The class `ServiceBroker`: the directory and the map `services_` from names to services
stored in `boost::any`.  The map is the list of its entries; no two entries have the same
key. -/
structure ServiceBroker where
  service_directory_ : ServiceDirectory
  services_ : List (Str × Service)

namespace ServiceBroker

/-- The call `services_.find(name)`; `none` is `services_.end()`. -/
def map_find (name : Str) : List (Str × Service) → Option Service
  | [] => none
  | (k, s) :: r => if k = name then some s else map_find name r

/-- The assignment `services_[name] = service`: the entry of the key is replaced, or a new
entry is made. -/
def map_assign (name : Str) (service : Service) : List (Str × Service) → List (Str × Service)
  | [] => [(name, service)]
  | (k, s) :: r => if k = name then (k, service) :: r else (k, s) :: map_assign name service r

/-- The call `services_.erase(it)` for the iterator that `find(name)` returned: the entry of
the key is taken out (a map has at most one). -/
def map_erase (name : Str) : List (Str × Service) → List (Str × Service)
  | [] => []
  | (k, s) :: r => if k = name then map_erase name r else (k, s) :: map_erase name r

/-- A default-constructed broker. -/
def init : ServiceBroker := ⟨ServiceDirectory.init, []⟩

/-- The function `ServiceBroker::add_service`: the directory is asked first; when it throws,
the map is not touched. -/
def add_service (ndebug : Bool) (b : ServiceBroker) (service : Service) :
    Ending Unit × ServiceBroker :=
  match ServiceDirectory.add_service ndebug b.service_directory_ service.name with
  | (Outcome.ok, d) => (Ending.returned (), ⟨d, map_assign service.name service b.services_⟩)
  | (Outcome.broker_error what, _) => (Ending.broker_error what, b)
  | (Outcome.assertion_failed, _) => (Ending.assertion_failed, b)

/-- The loop `for (const auto &name : service_names)` of `remove_service`: `find`, the
assertion, `erase`. -/
def erase_names (ndebug : Bool) : List Str → List (Str × Service) →
    Ending Unit × List (Str × Service)
  | [], m => (Ending.returned (), m)
  | name :: rest, m =>
    match map_find name m with
    | none => (assert_failure ndebug, m)
    | some _ => erase_names ndebug rest (map_erase name m)

/-- The function `ServiceBroker::remove_service`: what it returns and the broker
afterwards. -/
def remove_service (ndebug : Bool) (b : ServiceBroker) (name : Str) :
    Ending Nat × ServiceBroker :=
  let service_names := ServiceDirectory.list_services b.service_directory_ name
  match erase_names ndebug service_names b.services_ with
  | (Ending.returned _, m) =>
    (Ending.returned service_names.length,
      ⟨ServiceDirectory.remove_service b.service_directory_ name, m⟩)
  | (e, m) => (e.map (fun _ => 0), ⟨b.service_directory_, m⟩)

/-- The function `ServiceBroker::get_service<Result, Args...>`: `boost::any_cast` succeeds
when the stored service has exactly these template arguments.  The broker comes back as it
was. -/
def get_service (b : ServiceBroker) (name : Str) (signature : Signature) :
    Ending Service × ServiceBroker :=
  match map_find name b.services_ with
  | none => (Ending.broker_error "Service does not exist.", b)
  | some s =>
    if s.signature = signature then (Ending.returned s, b)
    else (Ending.broker_error "Type mismatch.", b)

/-- The function `ServiceBroker::list_services`. -/
def list_services (b : ServiceBroker) (name : Str) : List Str :=
  ServiceDirectory.list_services b.service_directory_ name

/-- The function `ServiceBroker::clear`. -/
def clear (b : ServiceBroker) : ServiceBroker :=
  ⟨ServiceDirectory.clear b.service_directory_, []⟩

/-- The function `ServiceBroker::register_callback_` with `connect`: the service stored under
the name is cast to the service type of the callback and the callback is connected to its
signal. -/
def register_callback_ (ndebug : Bool) (b : ServiceBroker) (name : Str) (callback : Callback)
    (h : Heap) : Ending Nat × Heap :=
  match map_find name b.services_ with
  | none => (assert_failure ndebug, h)
  | some s =>
    if s.signature = callback.signature then
      (Ending.returned (h.connect s.service callback.fn).1, (h.connect s.service callback.fn).2)
    else
      (Ending.broker_error
        ("Cannot register callback to service: " ++ String.mk name ++ ". Type mismatch."), h)

/-- The loop `for (const auto &name : service_names)` of `register_callback`; the third
argument is `connections`. -/
def register_names (ndebug : Bool) (b : ServiceBroker) (callback : Callback) :
    List Str → List Nat → Heap → Ending (List Nat) × Heap
  | [], connections, h => (Ending.returned connections, h)
  | name :: rest, connections, h =>
    match register_callback_ ndebug b name callback h with
    | (Ending.returned c, h') => register_names ndebug b callback rest (connections ++ [c]) h'
    | (e, h') => (e.map (fun _ => []), h')

/-- The function `ServiceBroker::register_callback`: the connections it returns and the heap
afterwards. -/
def register_callback (ndebug : Bool) (b : ServiceBroker) (name : Str) (callback : Callback)
    (h : Heap) : Ending (List Nat) × Heap :=
  let service_names := ServiceDirectory.list_services b.service_directory_ name
  if service_names = [] then
    (Ending.broker_error
      "Cannot register callback. No service or group with this name exists.", h)
  else register_names ndebug b callback service_names [] h

/-- The function `ServiceBroker::call_<ResultType, Args...>` (both overloads): the service
stored under the name is cast and emitted. -/
def call_ (ndebug : Bool) (b : ServiceBroker) (name : Str) (signature : Signature)
    (args : List Value) (h : Heap) : Ending Value × List Invocation :=
  match map_find name b.services_ with
  | none => (assert_failure ndebug, [])
  | some s =>
    if s.signature = signature then s.emit h args
    else (Ending.broker_error ("Cannot call: " ++ String.mk name ++ ". Type mismatch."), [])

/-- The loop `for (const auto &name : service_names)` of `call`: the results in the order of
the names, and the invocations of subscribers that were made. -/
def call_names (ndebug : Bool) (b : ServiceBroker) (signature : Signature) (args : List Value)
    (h : Heap) : List Str → Ending (List Value) × List Invocation
  | [] => (Ending.returned [], [])
  | name :: rest =>
    match call_ ndebug b name signature args h with
    | (Ending.returned v, log) =>
      ((call_names ndebug b signature args h rest).1.map (fun vs => v :: vs),
        log ++ (call_names ndebug b signature args h rest).2)
    | (e, log) => (e.map (fun _ => []), log)

/-- The function `ServiceBroker::call<ResultType, Args...>` for a result type that is not
`void`: the vector of results. -/
def call (ndebug : Bool) (b : ServiceBroker) (name : Str) (signature : Signature)
    (args : List Value) (h : Heap) : Ending (List Value) × List Invocation :=
  let service_names := ServiceDirectory.list_services b.service_directory_ name
  if service_names = [] then
    (Ending.broker_error "No service or group with this name exists.", [])
  else call_names ndebug b signature args h service_names

/-- The function `ServiceBroker::call<void, Args...>`: nothing is returned. -/
def call_void (ndebug : Bool) (b : ServiceBroker) (name : Str) (signature : Signature)
    (args : List Value) (h : Heap) : Ending Unit × List Invocation :=
  ((call ndebug b name signature args h).1.map (fun _ => ()),
    (call ndebug b name signature args h).2)

end ServiceBroker

/-- The calls that change a broker. -/
inductive BrokerCall where
  | add_service (service : Service)
  | remove_service (name : Str)
  | clear

namespace ServiceBroker

/-- One call on a broker; `none` when the call does not come back (a failed assertion or
undefined behaviour), else the broker afterwards, a thrown `broker_error` being caught by
the caller. -/
def step (ndebug : Bool) (b : ServiceBroker) : BrokerCall → Option ServiceBroker
  | BrokerCall.add_service service =>
    match add_service ndebug b service with
    | (Ending.returned _, b') => some b'
    | (Ending.broker_error _, b') => some b'
    | _ => none
  | BrokerCall.remove_service name =>
    match remove_service ndebug b name with
    | (Ending.returned _, b') => some b'
    | _ => none
  | BrokerCall.clear => some (clear b)

/-- A sequence of calls on a broker, as far as every call comes back. -/
def run (ndebug : Bool) (b : ServiceBroker) : List BrokerCall → Option ServiceBroker
  | [] => some b
  | c :: cs =>
    match step ndebug b c with
    | some b' => run ndebug b' cs
    | none => none

end ServiceBroker

/-! ## `ConcatImpl` (`communication/Concat.hpp`)

The values of all slot types are embedded in one type `V`.  The output queue
(`threaded_queue`, of `threadpool/ThreadedQueue.hpp`) is embedded as the list of the tuples
that wait in it, oldest first. -/

/-- The function `detail::type_occurences<S, T, Args...>::value`: how many of the types are
`S`. -/
def detail.type_occurences (s : String) : List String → Nat
  | [] => 0
  | t :: args => (if s = t then 1 else 0) + detail.type_occurences s args

/-- The function `detail::get_number_of_element_from_tuple_by_type_impl<T, N, Args...>::value`:
the position of the first type that is `T`, counted from `N`. -/
def detail.get_number_of_element_from_tuple_by_type_impl (t : String) : Nat → List String → Nat
  | n, [] => n
  | n, u :: args =>
    if u = t then n else detail.get_number_of_element_from_tuple_by_type_impl t (n + 1) args

/-- An entry of `data_`: the time of the first value, the assignment counts
(`std::array<short, narguments>`) and the tuple of values. -/
structure ConcatEntry (V : Type) where
  created_at : Nat
  counts : List Int
  values : List V

/-- The template arguments of `ConcatImpl`: the number of slots, the value-initialized
element of every slot, and the four function objects. -/
structure ConcatPolicies (V : Type) where
  narguments : Nat
  default_value : Nat → V
  index_function : V → Int
  assign_function : V → V → V
  complete_function : ConcatEntry V → Bool
  erase_function : ConcatEntry V → Bool

/-- The class `ConcatImpl`: the store `data_`, as the list of its entries with their keys (no
key twice), and `output_queue_`. -/
structure ConcatImpl (V : Type) where
  data_ : List (Int × ConcatEntry V)
  output_queue_ : List (List V)

/-- The increment `++` of a `short` count: the value wraps at the end of the range. -/
def increment_short (c : Int) : Int :=
  if c + 1 > 32767 then c + 1 - 65536 else c + 1

/-- The function `DefaultCompleteCondition::operator()`: `std::accumulate` of the counts from
`0`, compared with the number of slots as a `std::size_t`. -/
def DefaultCompleteCondition {V : Type} (narguments : Nat) (datum : ConcatEntry V) : Bool :=
  decide ((datum.counts.foldl (fun acc c => acc + c) 0) % 18446744073709551616
    = (narguments : Int))

/-- The function `DefaultAssignment::operator()`: `dst = src`. -/
def DefaultAssignment {V : Type} (_ : V) (src : V) : V := src

/-- The template `Concat<Args...>`: `ConcatImpl` with `DefaultIndex` (the function `index` of
the value types), `DefaultAssignment`, `DefaultCompleteCondition` and
`DefaultEraseCondition`, which is `DefaultCompleteCondition`. -/
def Concat {V : Type} (narguments : Nat) (default_value : Nat → V) (index : V → Int) :
    ConcatPolicies V :=
  { narguments := narguments
    default_value := default_value
    index_function := index
    assign_function := DefaultAssignment
    complete_function := DefaultCompleteCondition narguments
    erase_function := DefaultCompleteCondition narguments }

namespace ConcatImpl

/-- A default-constructed concatenator. -/
def init {V : Type} : ConcatImpl V := ⟨[], []⟩

/-- The call `data_.find(idx)`; `none` is `data_.end()`. -/
def data_find {V : Type} (idx : Int) : List (Int × ConcatEntry V) → Option (ConcatEntry V)
  | [] => none
  | (k, e) :: r => if k = idx then some e else data_find idx r

/-- The entry of a key after the mutations made through `element_it`: replaced, or inserted
when the key was not there. -/
def data_store {V : Type} (idx : Int) (datum : ConcatEntry V) :
    List (Int × ConcatEntry V) → List (Int × ConcatEntry V)
  | [] => [(idx, datum)]
  | (k, e) :: r => if k = idx then (k, datum) :: r else (k, e) :: data_store idx datum r

/-- The call `data_.erase(element_it)`: the entry of the key is taken out (a map has at most
one). -/
def data_erase {V : Type} (idx : Int) : List (Int × ConcatEntry V) → List (Int × ConcatEntry V)
  | [] => []
  | (k, e) :: r => if k = idx then data_erase idx r else (k, e) :: data_erase idx r

/-- The entry that `put` inserts for a new key: the time, counts of zero and a
value-initialized tuple. -/
def new_entry {V : Type} (p : ConcatPolicies V) (now : Nat) : ConcatEntry V :=
  { created_at := now
    counts := List.replicate p.narguments 0
    values := (List.range p.narguments).map p.default_value }

/-- The entry `element_it->second` in `put<element_idx>` after the assignment and the
increment of the count. -/
def entry_after_put {V : Type} (p : ConcatPolicies V) (now : Nat) (element_idx : Nat)
    (value : V) (c : ConcatImpl V) : ConcatEntry V :=
  let found := (data_find (p.index_function value) c.data_).getD (new_entry p now)
  { created_at := found.created_at
    counts := found.counts.set element_idx
      (increment_short (found.counts.getD element_idx 0))
    values := found.values.set element_idx
      (p.assign_function (found.values.getD element_idx (p.default_value element_idx)) value) }

/-- The function `ConcatImpl::put<element_idx>`; `now` is what the clock returns. -/
def put {V : Type} (p : ConcatPolicies V) (now : Nat) (element_idx : Nat) (value : V)
    (c : ConcatImpl V) : ConcatImpl V :=
  let datum := entry_after_put p now element_idx value c
  { data_ :=
      if p.erase_function datum then data_erase (p.index_function value) c.data_
      else data_store (p.index_function value) datum c.data_
    output_queue_ :=
      if p.complete_function datum then c.output_queue_ ++ [datum.values]
      else c.output_queue_ }

/-- The function `ConcatImpl::put(S &&value)` for a value of the type named `s`: it exists
only when the type occurs once among the slot types, and puts to the position of the type. -/
def put_by_type {V : Type} (p : ConcatPolicies V) (types : List String) (now : Nat)
    (s : String) (value : V) (c : ConcatImpl V) : Option (ConcatImpl V) :=
  if detail.type_occurences s types = 1 then
    some (put p now (detail.get_number_of_element_from_tuple_by_type_impl s 0 types) value c)
  else none

/-- The function `ConcatImpl::try_get`: the front of the output queue is taken when there is
one. -/
def try_get {V : Type} (c : ConcatImpl V) : Option (List V) × ConcatImpl V :=
  match c.output_queue_ with
  | [] => (none, c)
  | t :: q => (some t, { c with output_queue_ := q })

/-- The function `ConcatImpl::size`. -/
def size {V : Type} (c : ConcatImpl V) : Nat := c.data_.length

/-- A sequence of `put<element_idx>(value)` calls, each with the time of the clock, the
position and the value. -/
def puts {V : Type} (p : ConcatPolicies V) : List (Nat × Nat × V) → ConcatImpl V → ConcatImpl V
  | [], c => c
  | (now, element_idx, value) :: rest, c => puts p rest (put p now element_idx value c)

end ConcatImpl

/-- The value types of the tests of `Concat`: `struct A { int id; }`, `B`, `C`, a value with
the name of its type. -/
structure Item where
  type : String
  id : Int
  deriving DecidableEq, Repr

/-- The functions `int index(A const &)`, `index(B const &)`, `index(C const &)` of the
tests. -/
def Item.index (a : Item) : Int := a.id

/-- The value-initialized elements of `std::tuple<A, A, B, C>`. -/
def Item.default_value (i : Nat) : Item :=
  ⟨["A", "A", "B", "C"].getD i "", 0⟩

/-! ## The inputs of the concrete statements -/

/-- The signature of `Service<void>`. -/
def void_signature : Signature := ⟨"void", []⟩

/-- The signature of `Service<int>`. -/
def int_signature : Signature := ⟨"int", []⟩

/-- The signature of `Service<std::string>`. -/
def string_signature : Signature := ⟨"std::string", []⟩

/-- A callback `void()` that does nothing. -/
def void_callback : Callback := ⟨void_signature, fun _ => Reply.value Value.unit⟩

/-- The service `Service<void, std::string> service = {"test"}` of the tests, on a new
heap. -/
def test_service : Service :=
  (Heap.init.new_service "test".toList ⟨"void", ["std::string"]⟩).1

/-- The slot types of `Concat<A, A, B, C>`. -/
def test_types : List String := ["A", "A", "B", "C"]

/-- The values `a1`, `a2`, `b`, `c` of `TEST(ConcatTest, Concatenate)` by slot: each of the
type of its slot, with `id` 1. -/
def test_value (i : Nat) : Item := ⟨test_types.getD i "", 1⟩

/-- The counts of an entry in which exactly the slots `done` were assigned once. -/
def slot_counts (narguments : Nat) (done : List Nat) : List Int :=
  (List.range narguments).map (fun j => if j ∈ done then 1 else 0)

/-- The tuple of an entry in which exactly the slots `done` were assigned, slot `j` the value
`value j`; the other slots hold their value-initialized element. -/
def slot_values {V : Type} (narguments : Nat) (default_value : Nat → V) (value : Nat → V)
    (done : List Nat) : List V :=
  (List.range narguments).map (fun j => if j ∈ done then value j else default_value j)

/-- The state of a concatenator while the values of the key `k` come in: the output queue is
still `queue`, and the entry of `k` (a new entry while there is none) has the counts and the
values of the slots `done`. -/
def ConcatImpl.collecting {V : Type} (p : ConcatPolicies V) (k : Int) (queue : List (List V))
    (value : Nat → V) (done : List Nat) (c : ConcatImpl V) : Prop :=
  c.output_queue_ = queue
  ∧ ∀ now : Nat,
      ((ConcatImpl.data_find k c.data_).getD (ConcatImpl.new_entry p now)).counts
          = slot_counts p.narguments done
      ∧ ((ConcatImpl.data_find k c.data_).getD (ConcatImpl.new_entry p now)).values
          = slot_values p.narguments p.default_value value done

/-! ## Sequences of `put` calls on a concatenator -/

/-- The tuples that one call `put<element_idx>(value)` pushes to the output queue: what the
queue holds afterwards behind what it held before. -/
def ConcatImpl.pushed {V : Type} (p : ConcatPolicies V) (now : Nat) (element_idx : Nat)
    (value : V) (c : ConcatImpl V) : List (List V) :=
  (ConcatImpl.put p now element_idx value c).output_queue_.drop c.output_queue_.length

/-- The tuples that the puts of values with the key `k` push to the output queue in a
sequence of `put` calls, oldest first. -/
def ConcatImpl.pushed_for {V : Type} (p : ConcatPolicies V) (k : Int) :
    List (Nat × Nat × V) → ConcatImpl V → List (List V)
  | [], _ => []
  | (now, element_idx, value) :: rest, c =>
    (if p.index_function value = k then ConcatImpl.pushed p now element_idx value c else [])
      ++ ConcatImpl.pushed_for p k rest (ConcatImpl.put p now element_idx value c)

/-- How often the entry of the key `k` is erased in a sequence of `put` calls: the puts of
values with the key `k` after which `data_` has no entry for `k`. -/
def ConcatImpl.erasures_for {V : Type} (p : ConcatPolicies V) (k : Int) :
    List (Nat × Nat × V) → ConcatImpl V → Nat
  | [], _ => 0
  | (now, element_idx, value) :: rest, c =>
    (if p.index_function value = k
        ∧ (ConcatImpl.data_find k (ConcatImpl.put p now element_idx value c).data_).isNone = true
      then 1 else 0)
      + ConcatImpl.erasures_for p k rest (ConcatImpl.put p now element_idx value c)

/-- The sum `std::accumulate(counts.cbegin(), counts.cend(), 0)` of the counts of an entry. -/
def ConcatEntry.counts_sum {V : Type} (e : ConcatEntry V) : Int :=
  e.counts.foldl (fun acc c => acc + c) 0

/-- In the words of the specification: the keys that have received at least one put since
their last emission, in a sequence of `put` calls; `keys` are those before the sequence.  A
put that pushes a tuple is the emission of its key, any other put makes its key one of the
keys. -/
def ConcatImpl.in_flight {V : Type} (p : ConcatPolicies V) :
    List (Nat × Nat × V) → ConcatImpl V → List Int → List Int
  | [], _, keys => keys
  | (now, element_idx, value) :: rest, c, keys =>
    ConcatImpl.in_flight p rest (ConcatImpl.put p now element_idx value c)
      (if (ConcatImpl.pushed p now element_idx value c).length = 0 then
        (if p.index_function value ∈ keys then keys else keys ++ [p.index_function value])
      else keys.filter (fun k => decide (k ≠ p.index_function value)))

/-- A value of the slot `i` of `Concat<A, A, B, C>` with the `id` `k`. -/
def test_item (k : Int) (i : Nat) : Item := ⟨test_types.getD i "", k⟩

/-- The slots that got a value of the key `k`, in a list of puts given by key and slot. -/
def slots_of (k : Int) (puts : List (Int × Nat)) : List Nat :=
  (puts.filter (fun q => decide (q.1 = k))).map Prod.snd

/-- The keys that got their `n`-th value, in the order in which they got it, in a list of
puts given by key and slot, the latest first. -/
def completions (n : Nat) : List (Int × Nat) → List Int
  | [] => []
  | q :: older =>
    completions n older ++ (if (slots_of q.1 older).length + 1 = n then [q.1] else [])

/-- The state of a concatenator while the values of the keys `keys` come in, after the puts
`hist` (key and slot, the latest first) of the values `value k i`: the output queue got the
tuples of the keys that got all their values, in the order in which they got the last one;
the entry of a key that misses values has the counts and values of the slots it got; a key
that got all has no entry. -/
def ConcatImpl.joining {V : Type} (p : ConcatPolicies V) (keys : List Int)
    (queue : List (List V)) (value : Int → Nat → V) (hist : List (Int × Nat))
    (c : ConcatImpl V) : Prop :=
  c.output_queue_
      = queue ++ (completions p.narguments hist).map
          (fun k => (List.range p.narguments).map (value k))
  ∧ ∀ k ∈ keys,
      ((slots_of k hist).length < p.narguments →
        ConcatImpl.collecting p k c.output_queue_ (value k) (slots_of k hist) c)
      ∧ ((slots_of k hist).length = p.narguments → ConcatImpl.data_find k c.data_ = none)

/-- An entry that is in flight in a concatenator of `n` slots: it has `n` counts, none of
them negative, and their sum is at least 1 and at most `n - 1`. -/
def ConcatEntry.in_progress {V : Type} (n : Nat) (e : ConcatEntry V) : Prop :=
  e.counts.length = n ∧ (∀ x ∈ e.counts, 0 ≤ x) ∧ 1 ≤ e.counts_sum ∧ e.counts_sum + 1 ≤ n

/-! ## Deferred configuration (`communication/ContextBase.hpp`, `communication/WorkerBase.hpp`)

The functions `set_configuration`, `update_configuration` and `invoke_begin` are whole calls,
each run without a step of another thread in between.  The steps of several threads are in
`ContextCalls.step` and `WorkerSingleThreadedT.step`, where a call of `set_configuration`
whose `try_lock` fails takes two steps.  The mutex `configuration_mtx_` is `true` while it is
locked; across steps it is locked only by a running task.  `std::mutex::try_lock` is taken to
succeed whenever the mutex is free.  The mutex `configuration_storage_mtx_` is held across
steps only by a call of `set_configuration` between its failed `try_lock` and the statement
`configuration_changed_ = true`.  The hook `set_configuration_` is virtual: what it does is
seen as the list of the arguments it was called with. -/

/-- The class `ContextBaseT`: the two flags, the staging slot, and the calls of the hook
`set_configuration_` so far, oldest first. -/
structure ContextBaseT (Cfg : Type) where
  configuration_mtx_ : Bool
  configuration_changed_ : Bool
  configuration_storage_ : Cfg
  applied : List Cfg
  deriving DecidableEq

namespace ContextBaseT

/-- The constructor `ContextBaseT()`, with the default-constructed configuration. -/
def init {Cfg : Type} (configuration : Cfg) : ContextBaseT Cfg :=
  ⟨false, false, configuration, []⟩

/-- The function `ContextBaseT::set_configuration`: the staging slot is written; with the
mutex free the hook is called, else the flag is set. -/
def set_configuration {Cfg : Type} (configuration : Cfg) (s : ContextBaseT Cfg) :
    ContextBaseT Cfg :=
  if s.configuration_mtx_ = false then
    { s with configuration_storage_ := configuration
             applied := s.applied ++ [configuration] }
  else
    { s with configuration_storage_ := configuration
             configuration_changed_ := true }

/-- The function `ContextBaseT::get_configuration` with the `get_configuration_` of the
class. -/
def get_configuration {Cfg : Type} (s : ContextBaseT Cfg) : Cfg := s.configuration_storage_

/-- The block `if (configuration_changed_) { ... }` of `operator()`: the hook is called with
the staging slot and the flag is cleared. -/
def commit {Cfg : Type} (s : ContextBaseT Cfg) : ContextBaseT Cfg :=
  if s.configuration_changed_ = true then
    { s with applied := s.applied ++ [s.configuration_storage_]
             configuration_changed_ := false }
  else s

/-- The function `ContextBaseT::operator()` up to the call of `run`: the staged configuration
is committed and `configuration_mtx_` is locked.  While the mutex is held the call waits
(`none`). -/
def invoke_begin {Cfg : Type} (s : ContextBaseT Cfg) : Option (ContextBaseT Cfg) :=
  if s.configuration_mtx_ = true then none
  else some { commit s with configuration_mtx_ := true }

/-- The function `ContextBaseT::operator()` from the return of `run`: the mutex is
released. -/
def invoke_end {Cfg : Type} (s : ContextBaseT Cfg) : ContextBaseT Cfg :=
  { s with configuration_mtx_ := false }

end ContextBaseT

/-- What the thread that calls a context does: a call of `operator()` starts its task, the
task ends. -/
inductive ContextEvent (Cfg : Type) where
  | task_start
  | task_end

namespace ContextBaseT

/-- One step of the thread that calls a context; `none` when the event cannot happen in the
state (a task can end only while one runs, and starts only when none runs). -/
def step {Cfg : Type} (s : ContextBaseT Cfg) : ContextEvent Cfg → Option (ContextBaseT Cfg)
  | ContextEvent.task_start => s.invoke_begin
  | ContextEvent.task_end => if s.configuration_mtx_ = true then some s.invoke_end else none

/-- A sequence of steps of the thread that calls a context. -/
def run {Cfg : Type} (s : ContextBaseT Cfg) : List (ContextEvent Cfg) →
    Option (ContextBaseT Cfg)
  | [] => some s
  | e :: rest =>
    match step s e with
    | some s' => run s' rest
    | none => none

end ContextBaseT

/-- A context and the calls of `set_configuration` that other threads make on it:
`deferring` is `true` while a call of `set_configuration` is between its failed `try_lock`
and the statement `configuration_changed_ = true`; that call holds
`configuration_storage_mtx_`. -/
structure ContextCalls (Cfg : Type) where
  context : ContextBaseT Cfg
  deferring : Bool
  deriving DecidableEq

/-- The steps of the threads that use a context.  `set_configuration`: a call of
`set_configuration(configuration)` locks `configuration_storage_mtx_`, writes the staging
slot and makes its `try_lock`; when it gets `configuration_mtx_` it calls the hook and
returns.  `defer`: the call whose `try_lock` failed executes
`configuration_changed_ = true` and returns.  `task_start`: a call of `operator()` reads the
flag, commits the staged configuration when the flag is set, locks `configuration_mtx_` and
calls `run`.  `task_end`: `run` returns and the mutex is released.  The calls of `operator()`
come one after the other, so that `configuration_mtx_` is free from the read of the flag to
the lock: a call of `set_configuration` that comes in between gets the mutex, calls the hook
at once and leaves the flag as it is. -/
inductive ContextCall (Cfg : Type) where
  | set_configuration (configuration : Cfg)
  | defer
  | task_start
  | task_end

/-- The configuration of the last call of `set_configuration` among the steps. -/
def ContextCall.last_set {Cfg : Type} : List (ContextCall Cfg) → Option Cfg
  | [] => none
  | ContextCall.set_configuration configuration :: rest =>
    some ((ContextCall.last_set rest).getD configuration)
  | _ :: rest => ContextCall.last_set rest

namespace ContextCalls

/-- A new context, with the default-constructed configuration. -/
def init {Cfg : Type} (configuration : Cfg) : ContextCalls Cfg :=
  ⟨ContextBaseT.init configuration, false⟩

/-- One step of the threads that use a context; `none` when the step cannot happen in the
state.  A call of `set_configuration` waits for `configuration_storage_mtx_` while another
call is deferring; with `configuration_mtx_` free it is the whole call, and else it writes
the staging slot and is left deferring.  A call of `operator()` that reads the flag set waits
in `std::lock` for `configuration_storage_mtx_` while a call is deferring; one that reads the
flag clear does not lock `configuration_storage_mtx_`. -/
def step {Cfg : Type} (s : ContextCalls Cfg) : ContextCall Cfg → Option (ContextCalls Cfg)
  | ContextCall.set_configuration configuration =>
    if s.deferring = true then none
    else if s.context.configuration_mtx_ = false then
      some { s with context := s.context.set_configuration configuration }
    else
      some { context := { s.context with configuration_storage_ := configuration }
             deferring := true }
  | ContextCall.defer =>
    if s.deferring = true then
      some { context := { s.context with configuration_changed_ := true }
             deferring := false }
    else none
  | ContextCall.task_start =>
    if s.context.configuration_changed_ = true ∧ s.deferring = true then none
    else
      match s.context.invoke_begin with
      | some context => some { s with context := context }
      | none => none
  | ContextCall.task_end =>
    if s.context.configuration_mtx_ = true then some { s with context := s.context.invoke_end }
    else none

/-- A sequence of steps of the threads that use a context. -/
def run {Cfg : Type} (s : ContextCalls Cfg) : List (ContextCall Cfg) →
    Option (ContextCalls Cfg)
  | [] => some s
  | e :: rest =>
    match step s e with
    | some s' => run s' rest
    | none => none

end ContextCalls

/-- The class `WorkerBaseT<BrokerType, ConfigurationType>`, with a configuration that is a
`Value`: the members, and the calls of the hook `set_configuration_` so far, oldest first.
The connections of `slots_` that hold the lambda calling `set_configuration` are kept in
`set_connections`, and those that hold the lambda calling `get_configuration` in
`get_connections`, to tell what an invocation does. -/
structure WorkerBaseT where
  configuration_mtx_ : Bool
  configuration_storage_ : Value
  configuration_changed_ : Bool
  slots_ : List Nat
  worker_name_ : Str
  log : Service
  error : Service
  on_set_configuration : Service
  on_get_configuration : Service
  applied : List Value
  set_connections : List Nat
  get_connections : List Nat
  deriving DecidableEq

namespace WorkerBaseT

/-- The function `WorkerBaseT::set_configuration`: the staging slot is written; with the
mutex free the hook is called, else the flag is set. -/
def set_configuration (configuration : Value) (w : WorkerBaseT) : WorkerBaseT :=
  if w.configuration_mtx_ = false then
    { w with configuration_storage_ := configuration
             applied := w.applied ++ [configuration] }
  else
    { w with configuration_storage_ := configuration
             configuration_changed_ := true }

/-- The function `WorkerBaseT::get_configuration` with the `get_configuration_` of the
class. -/
def get_configuration (w : WorkerBaseT) : Value := w.configuration_storage_

/-- The function `WorkerBaseT::update_configuration`: `std::lock` waits while
`configuration_mtx_` is held (`none`); then the hook is called with the staging slot and the
flag is cleared. -/
def update_configuration (w : WorkerBaseT) : Option WorkerBaseT :=
  if w.configuration_mtx_ = true then none
  else some { w with applied := w.applied ++ [w.configuration_storage_]
                     configuration_changed_ := false }

/-- Several calls of `set_configuration`, one after the other. -/
def set_configurations : List Value → WorkerBaseT → WorkerBaseT
  | [], w => w
  | configuration :: rest, w => set_configurations rest (w.set_configuration configuration)

/-- The lambda `[this]() { return get_configuration(); }` of the constructor, invoked while
the worker is in the state `w`. -/
def on_get (w : WorkerBaseT) : List Value → Reply := fun _ => Reply.value w.get_configuration

/-- The heap while the worker is in the state `w`: the lambda in the slots of
`get_connections` captured `this`, so an invocation reads the worker as it is then. -/
def live (w : WorkerBaseT) (h : Heap) : Heap :=
  ⟨h.signals.map (fun slots => slots.map (fun s =>
      if s.connection ∈ w.get_connections then ⟨s.connection, w.on_get⟩ else s)),
    h.connections⟩

/-- What the invocations of subscribers do to the worker: an invocation of the lambda
`[this](configuration_type configuration) { set_configuration(configuration); }` is a call of
`set_configuration`. -/
def deliver : List Invocation → WorkerBaseT → WorkerBaseT
  | [], w => w
  | (connection, args) :: rest, w =>
    deliver rest
      (if connection ∈ w.set_connections then
        (match args with
          | [configuration] => w.set_configuration configuration
          | _ => w)
      else w)

end WorkerBaseT

/-- What happens to the configuration of a worker: `set_configuration(configuration)` is
called, `update_configuration()` is called, a task starts (`configuration_mtx_` is locked), a
task ends (it is unlocked).  The two calls are whole calls; the steps within a call of
`set_configuration` are in `WorkerSingleThreadedT.step`. -/
inductive WorkerEvent where
  | set_configuration (configuration : Value)
  | update_configuration
  | lock
  | unlock

namespace WorkerBaseT

/-- One step of the configuration of a worker; `none` when the event cannot happen in the
state. -/
def step (w : WorkerBaseT) : WorkerEvent → Option WorkerBaseT
  | WorkerEvent.set_configuration configuration => some (w.set_configuration configuration)
  | WorkerEvent.update_configuration => w.update_configuration
  | WorkerEvent.lock =>
    if w.configuration_mtx_ = true then none else some { w with configuration_mtx_ := true }
  | WorkerEvent.unlock =>
    if w.configuration_mtx_ = true then some { w with configuration_mtx_ := false } else none

/-- A sequence of steps of the configuration of a worker. -/
def run (w : WorkerBaseT) : List WorkerEvent → Option WorkerBaseT
  | [] => some w
  | e :: rest =>
    match step w e with
    | some w' => run w' rest
    | none => none

end WorkerBaseT
/-! ## The loop of `WorkerSingleThreadedT` (`communication/WorkerSingleThreaded.hpp`) -/

/-- Where the thread `worker_thread_` is in `run_`: at the head of the loop, waiting in
`task_queue_.pull_front()`, in `run(task)` with `configuration_mtx_` locked, or out of the
loop. -/
inductive LoopPosition where
  | top
  | pull
  | running (task : Value)
  | exited
  deriving DecidableEq

/-- The class `WorkerSingleThreadedT`: the base class, the task queue, the flag `terminate_`,
the position of the worker thread, and the values given to `result_signal` so far.  With it
goes the call of `set_configuration` that another thread makes: `deferring` is `true` while
such a call is between its failed `try_lock` and the statement
`configuration_changed_ = true`; that call holds `configuration_storage_mtx_`. -/
structure WorkerSingleThreadedT where
  base : WorkerBaseT
  task_queue_ : List Value
  terminate_ : Bool
  position : LoopPosition
  results : List Value
  deferring : Bool
  deriving DecidableEq

/-- The steps of the threads of a single-threaded worker.  `set_configuration`: a call of
`set_configuration(configuration)` locks `configuration_storage_mtx_`, writes the staging
slot and makes its `try_lock`; when it gets `configuration_mtx_` it calls the hook and
returns.  `defer`: the call whose `try_lock` failed executes
`configuration_changed_ = true` and returns.  `push`: a task is pushed to the task queue.
`thread`: the worker thread goes on to its next position.  `terminate`: the destructor sets
`terminate_` and pushes a default-constructed task. -/
inductive SingleThreadedEvent where
  | set_configuration (configuration : Value)
  | defer
  | push (task : Value)
  | thread
  | terminate (task : Value)

namespace WorkerSingleThreadedT

/-- A worker whose thread has just been started. -/
def init (base : WorkerBaseT) : WorkerSingleThreadedT :=
  ⟨base, [], false, LoopPosition.top, [], false⟩

/-- The next step of the thread in `run_`; `run` is the virtual function `run`, of the hook
calls made so far and the task.  From the head of the loop the thread leaves when
`terminate_` is set, and else reads `configuration_changed_`, without a lock, updates a
changed configuration and goes to `pull_front`; `update_configuration` waits in `std::lock`
for `configuration_storage_mtx_` while a call of `set_configuration` is deferring (`none`).
From the read of the flag to `pull_front` the mutex `configuration_mtx_` is free: a call of
`set_configuration` that comes in between calls the hook at once and leaves the flag as it
is.  In `pull_front` the thread waits for a task (`none` while there is none), locks
`configuration_mtx_` and runs the task, unless `terminate_` is set; after the task it gives
the result to `result_signal`, unlocks and is back at the head.  The function `run` is taken
to return; the timings are not kept. -/
def thread_step (run : List Value → Value → Value) (w : WorkerSingleThreadedT) :
    Option WorkerSingleThreadedT :=
  match w.position with
  | LoopPosition.top =>
    if w.terminate_ = true then some { w with position := LoopPosition.exited }
    else if w.base.configuration_changed_ = true then
      if w.deferring = true then none
      else
        match w.base.update_configuration with
        | some base => some { w with base := base, position := LoopPosition.pull }
        | none => none
    else some { w with position := LoopPosition.pull }
  | LoopPosition.pull =>
    match w.task_queue_ with
    | [] => none
    | task :: rest =>
      if w.terminate_ = true then
        some { w with task_queue_ := rest, position := LoopPosition.top }
      else if w.base.configuration_mtx_ = true then none
      else some { w with base := { w.base with configuration_mtx_ := true }
                         task_queue_ := rest
                         position := LoopPosition.running task }
  | LoopPosition.running task =>
    some { w with base := { w.base with configuration_mtx_ := false }
                  results := w.results ++ [run w.base.applied task]
                  position := LoopPosition.top }
  | LoopPosition.exited => none

/-- One step of the threads of a single-threaded worker; `none` when the step cannot happen
in the state.  A call of `set_configuration` waits for `configuration_storage_mtx_` while
another call is deferring; with `configuration_mtx_` free it is the whole call, and else it
writes the staging slot and is left deferring. -/
def step (run : List Value → Value → Value) (w : WorkerSingleThreadedT) :
    SingleThreadedEvent → Option WorkerSingleThreadedT
  | SingleThreadedEvent.set_configuration configuration =>
    if w.deferring = true then none
    else if w.base.configuration_mtx_ = false then
      some { w with base := w.base.set_configuration configuration }
    else
      some { w with base := { w.base with configuration_storage_ := configuration }
                    deferring := true }
  | SingleThreadedEvent.defer =>
    if w.deferring = true then
      some { w with base := { w.base with configuration_changed_ := true }
                    deferring := false }
    else none
  | SingleThreadedEvent.push task => some { w with task_queue_ := w.task_queue_ ++ [task] }
  | SingleThreadedEvent.thread => thread_step run w
  | SingleThreadedEvent.terminate task =>
    some { w with terminate_ := true, task_queue_ := w.task_queue_ ++ [task] }

/-- A sequence of steps of a single-threaded worker; `none` when a step cannot happen. -/
def run (run_task : List Value → Value → Value) (w : WorkerSingleThreadedT) :
    List SingleThreadedEvent → Option WorkerSingleThreadedT
  | [] => some w
  | e :: rest =>
    match step run_task w e with
    | some w' => run run_task w' rest
    | none => none

end WorkerSingleThreadedT

/-- The configuration of the last call of `set_configuration` among the steps. -/
def SingleThreadedEvent.last_set : List SingleThreadedEvent → Option Value
  | [] => none
  | SingleThreadedEvent.set_configuration configuration :: rest =>
    some ((SingleThreadedEvent.last_set rest).getD configuration)
  | _ :: rest => SingleThreadedEvent.last_set rest

/-! ## Construction and destruction of `WorkerBaseT` -/

/-- The call `connection.disconnect()`: the slot of the connection is taken out of its
signal. -/
def Heap.disconnect (h : Heap) (connection : Nat) : Heap :=
  ⟨h.signals.map (fun slots => slots.filter (fun s => decide (s.connection ≠ connection))),
    h.connections⟩

namespace WorkerBaseT

/-- The member initializers of `WorkerBaseT`: the flag is cleared, the configuration is
default-constructed, and the four services are made with the names `"log." + worker_name_`,
`"error." + worker_name_`, `"configuration.set." + worker_name_` and
`"configuration.get." + worker_name_`.  The type of the configuration is given by its name
and its default-constructed value. -/
def members (configuration_type : String) (configuration : Value) (worker_name : Str)
    (h : Heap) : WorkerBaseT × Heap :=
  let log := h.new_service ("log.".toList ++ worker_name) ⟨"void", ["Log"]⟩
  let error := log.2.new_service ("error.".toList ++ worker_name)
    ⟨"void", ["std::exception_ptr"]⟩
  let on_set := error.2.new_service ("configuration.set.".toList ++ worker_name)
    ⟨"void", [configuration_type]⟩
  let on_get := on_set.2.new_service ("configuration.get.".toList ++ worker_name)
    ⟨configuration_type, []⟩
  ({ configuration_mtx_ := false
     configuration_storage_ := configuration
     configuration_changed_ := false
     slots_ := []
     worker_name_ := worker_name
     log := log.1
     error := error.1
     on_set_configuration := on_set.1
     on_get_configuration := on_get.1
     applied := []
     set_connections := []
     get_connections := [] }, on_get.2)

/-- The function `WorkerBaseT::add_service(service, args...)`: the services are added to the
broker one after the other, up to the first call that does not return. -/
def add_service (ndebug : Bool) : List Service → ServiceBroker → Ending Unit × ServiceBroker
  | [], b => (Ending.returned (), b)
  | service :: args, b =>
    match ServiceBroker.add_service ndebug b service with
    | (Ending.returned _, b') => add_service ndebug args b'
    | (e, b') => (e, b')

/-- The function `WorkerBaseT::remove_service(service, args...)`: the names of the services
are removed from the broker one after the other, up to the first call that does not
return. -/
def remove_service (ndebug : Bool) : List Service → ServiceBroker → Ending Unit × ServiceBroker
  | [], b => (Ending.returned (), b)
  | service :: args, b =>
    match ServiceBroker.remove_service ndebug b service.name with
    | (Ending.returned _, b') => remove_service ndebug args b'
    | (e, b') => (e.map (fun _ => ()), b')

/-- The function `WorkerBaseT::register_callback(service_name, callback)`: the connections
that the broker returns go to `slots_`; a `broker_error` is caught and its message is emitted
on the service `log`, and an exception that a subscriber of `log` throws leaves the call.  The
result is the connections to add, the heap, and the invocations of subscribers of `log`. -/
def register_callback (ndebug : Bool) (w : WorkerBaseT) (b : ServiceBroker)
    (service_name : Str) (callback : Callback) (h : Heap) :
    Ending (List Nat) × Heap × List Invocation :=
  match ServiceBroker.register_callback ndebug b service_name callback h with
  | (Ending.returned connections, h') => (Ending.returned connections, h', [])
  | (Ending.broker_error what, h') =>
    match w.log.emit h' [Value.str what] with
    | (Ending.returned _, log) => (Ending.returned [], h', log)
    | (e, log) => (e.map (fun _ => []), h', log)
  | (e, h') => (e, h', [])

/-- The constructor `WorkerBaseT(worker_name, broker)`: the members are initialized, the four
services are added to the broker, and the two lambdas are registered, the first to the name
of `on_set_configuration` and the second to the name of `on_get_configuration`.  The result
is the worker, the broker and the heap afterwards, and the invocations made.  In the heap the
first lambda returns nothing (what it does to the worker is `deliver`); the second is
`on_get` of the worker at its construction, and `live` is the heap at a later state of the
worker. -/
def construct (ndebug : Bool) (configuration_type : String) (configuration : Value)
    (worker_name : Str) (b : ServiceBroker) (h : Heap) :
    Ending WorkerBaseT × ServiceBroker × Heap × List Invocation :=
  let w := (members configuration_type configuration worker_name h).1
  let h0 := (members configuration_type configuration worker_name h).2
  match add_service ndebug
      [w.log, w.error, w.on_set_configuration, w.on_get_configuration] b with
  | (Ending.returned _, b') =>
    match register_callback ndebug w b' w.on_set_configuration.name
        ⟨⟨"void", [configuration_type]⟩, fun _ => Reply.value Value.unit⟩ h0 with
    | (Ending.returned set_slots, h1, log1) =>
      match register_callback ndebug w b' w.on_get_configuration.name
          ⟨⟨configuration_type, []⟩, w.on_get⟩ h1 with
      | (Ending.returned get_slots, h2, log2) =>
        (Ending.returned { w with slots_ := set_slots ++ get_slots
                                  set_connections := set_slots
                                  get_connections := get_slots }, b', h2, log1 ++ log2)
      | (e, h2, log2) => (e.map (fun _ => w), b', h2, log1 ++ log2)
    | (e, h1, log1) => (e.map (fun _ => w), b', h1, log1)
  | (e, b') => (e.map (fun _ => w), b', h0, [])

/-- The destructor `~WorkerBaseT()`: every connection of `slots_` is disconnected and the
names of the four services are removed from the broker. -/
def destruct (ndebug : Bool) (w : WorkerBaseT) (b : ServiceBroker) (h : Heap) :
    Ending Unit × ServiceBroker × Heap :=
  ((remove_service ndebug
      [w.log, w.error, w.on_set_configuration, w.on_get_configuration] b).1,
    (remove_service ndebug
      [w.log, w.error, w.on_set_configuration, w.on_get_configuration] b).2,
    w.slots_.foldl Heap.disconnect h)

end WorkerBaseT

/-- Several calls of `ContextBaseT::set_configuration`, one after the other. -/
def ContextBaseT.set_configurations {Cfg : Type} :
    List Cfg → ContextBaseT Cfg → ContextBaseT Cfg
  | [], s => s
  | configuration :: rest, s =>
    ContextBaseT.set_configurations rest (s.set_configuration configuration)

/-- A context agrees with the steps that led to it: the staging slot holds the configuration
of the last call of `set_configuration`, and when the flag is clear and no call is deferring,
that configuration is also the one the hook was last called with. -/
def ContextCalls.consistent {Cfg : Type} (steps : List (ContextCall Cfg))
    (s : ContextCalls Cfg) : Prop :=
  (∀ C, ContextCall.last_set steps = some C → s.context.configuration_storage_ = C)
  ∧ (s.context.configuration_changed_ = false → s.deferring = false →
      ∀ C, ContextCall.last_set steps = some C → s.context.applied.getLast? = some C)

/-- A single-threaded worker agrees with the steps that led to it: `configuration_mtx_` is
locked exactly while a task runs, the staging slot holds the configuration of the last call
of `set_configuration`, and when the flag is clear and no call is deferring, that
configuration is also the one the hook was last called with. -/
def WorkerSingleThreadedT.consistent (steps : List SingleThreadedEvent)
    (w : WorkerSingleThreadedT) : Prop :=
  (w.base.configuration_mtx_ = true ↔ ∃ task, w.position = LoopPosition.running task)
  ∧ (∀ C, SingleThreadedEvent.last_set steps = some C → w.base.configuration_storage_ = C)
  ∧ (w.base.configuration_changed_ = false → w.deferring = false →
      ∀ C, SingleThreadedEvent.last_set steps = some C → w.base.applied.getLast? = some C)

/-- The worker of the tests: `WorkerBaseT<ServiceBroker, std::string> worker("a", broker)` on
a new broker, with the broker and the heap after the construction. -/
def test_worker (ndebug : Bool) : WorkerBaseT × ServiceBroker × Heap :=
  (((WorkerBaseT.construct ndebug "std::string" (Value.str "") "a".toList ServiceBroker.init
      Heap.init).1).get
      (WorkerBaseT.members "std::string" (Value.str "") "a".toList Heap.init).1,
    (WorkerBaseT.construct ndebug "std::string" (Value.str "") "a".toList ServiceBroker.init
      Heap.init).2.1,
    (WorkerBaseT.construct ndebug "std::string" (Value.str "") "a".toList ServiceBroker.init
      Heap.init).2.2.1)

/-- A worker named `"a"` that runs a task: `configuration_mtx_` is locked. -/
def busy_worker : WorkerBaseT :=
  { (WorkerBaseT.members "std::string" (Value.str "") "a".toList Heap.init).1 with
      configuration_mtx_ := true }

/-- A function `run` for the concrete statements: the result is the configuration that the
hook got last, and the task when the hook was never called. -/
def run_last_applied (applied : List Value) (task : Value) : Value :=
  applied.getLast?.getD task

/-- The steps of a deferred configuration on a single-threaded worker: a task is pushed and
started, a call of `set_configuration("X")` comes while it runs and returns before it ends;
then the task ends, the thread passes the head of its loop, and a second task is pushed. -/
def deferred_events : List SingleThreadedEvent :=
  [SingleThreadedEvent.push (Value.str "t1"), SingleThreadedEvent.thread,
    SingleThreadedEvent.thread, SingleThreadedEvent.set_configuration (Value.str "X"),
    SingleThreadedEvent.defer, SingleThreadedEvent.thread, SingleThreadedEvent.thread,
    SingleThreadedEvent.push (Value.str "t2")]

/-- The worker of the tests after `deferred_events`. -/
def deferred_worker : WorkerSingleThreadedT :=
  (WorkerSingleThreadedT.run run_last_applied
    (WorkerSingleThreadedT.init (test_worker false).1) deferred_events).getD
    (WorkerSingleThreadedT.init (test_worker false).1)

/-- The steps of a deferred configuration that the next task misses: a task is pushed and
started; a call of `set_configuration("X")` comes while it runs, and its `try_lock` fails;
the task ends, and the worker thread reads `configuration_changed_` at the head of its loop
and goes to `pull_front`; only then the call of `set_configuration` sets the flag and
returns; after that a second task is pushed. -/
def missed_events : List SingleThreadedEvent :=
  [SingleThreadedEvent.push (Value.str "t1"), SingleThreadedEvent.thread,
    SingleThreadedEvent.thread, SingleThreadedEvent.set_configuration (Value.str "X"),
    SingleThreadedEvent.thread, SingleThreadedEvent.thread, SingleThreadedEvent.defer,
    SingleThreadedEvent.push (Value.str "t2")]

/-- The worker of the tests after `missed_events`. -/
def missed_worker : WorkerSingleThreadedT :=
  (WorkerSingleThreadedT.run run_last_applied
    (WorkerSingleThreadedT.init (test_worker false).1) missed_events).getD
    (WorkerSingleThreadedT.init (test_worker false).1)

/-- The steps of a deferred configuration on a context: a task starts, a call of
`set_configuration("X")` comes while it runs and returns before it ends, the task ends. -/
def deferred_context_steps : List (ContextCall String) :=
  [ContextCall.task_start, ContextCall.set_configuration "X", ContextCall.defer,
    ContextCall.task_end]

/-- A new context after `deferred_context_steps`. -/
def deferred_context : ContextCalls String :=
  (ContextCalls.run (ContextCalls.init "") deferred_context_steps).getD (ContextCalls.init "")

/-- The steps of a deferred configuration that the next task of a context misses: a task
starts; a call of `set_configuration("X")` comes while it runs, and its `try_lock` fails; the
task ends, and the next call of `operator()` reads the flag and starts its task; only then
the call of `set_configuration` sets the flag and returns. -/
def missed_context_steps : List (ContextCall String) :=
  [ContextCall.task_start, ContextCall.set_configuration "X", ContextCall.task_end,
    ContextCall.task_start, ContextCall.defer]

/-- A new context after `missed_context_steps`. -/
def missed_context : ContextCalls String :=
  (ContextCalls.run (ContextCalls.init "") missed_context_steps).getD (ContextCalls.init "")

/-- The services `Service<void>` named `"a"` and `"a.b"`, made in this order on a new
heap. -/
def nested_services : Service × Service :=
  ((Heap.init.new_service "a".toList void_signature).1,
    ((Heap.init.new_service "a".toList void_signature).2.new_service "a.b".toList
      void_signature).1)

/-- A new broker after `add_service` of the service named `"a"`, `add_service` of the service
named `"a.b"`, and `remove_service("a")`. -/
def nested_removed (ndebug : Bool) : ServiceBroker :=
  (ServiceBroker.remove_service ndebug
    (ServiceBroker.add_service ndebug
      (ServiceBroker.add_service ndebug ServiceBroker.init nested_services.1).2
      nested_services.2).2 "a".toList).2

/-- The service `Service<void>` named `"a"` on a new heap with three subscribers that
return. -/
def three_subscribers : Service × Heap :=
  ((Heap.init.new_service "a".toList void_signature).1,
    ((Heap.init.new_service "a".toList void_signature).2.connect_all 0
      [void_callback.fn, void_callback.fn, void_callback.fn]).2)

/-- The service `Service<void>` named `"a"` on a new heap with two subscribers, connected in
this order: the first throws, the second returns. -/
def throwing_void_service : Service × Heap :=
  ((Heap.init.new_service "a".toList void_signature).1,
    (((Heap.init.new_service "a".toList void_signature).2.connect 0
      (fun _ => Reply.throws "e")).2.connect 0 void_callback.fn).2)

/-- The service `Service<std::string>` named `"a"` on a new heap with two subscribers,
connected in this order: the first throws, the second returns `"0"`. -/
def throwing_service : Service × Heap :=
  ((Heap.init.new_service "a".toList string_signature).1,
    (((Heap.init.new_service "a".toList string_signature).2.connect 0
      (fun _ => Reply.throws "e")).2.connect 0 (fun _ => Reply.value (Value.str "0"))).2)

/-- The calls `service->connect(callback)` on the signals of several services, one after the
other: the heap afterwards. -/
def Heap.connect_each (fn : List Value → Reply) : List Service → Heap → Heap
  | [], h => h
  | s :: rest, h => Heap.connect_each fn rest (h.connect s.service fn).2

/-- A broker with the services `Service<void>` `"a"`, `Service<int>` `"b"` and
`Service<void>` `"c"`, made in this order on a new heap, and the heap. -/
def three_services (ndebug : Bool) : ServiceBroker × Heap :=
  ((ServiceBroker.add_service ndebug
      (ServiceBroker.add_service ndebug
        (ServiceBroker.add_service ndebug ServiceBroker.init
          (Heap.init.new_service "a".toList void_signature).1).2
        ((Heap.init.new_service "a".toList void_signature).2.new_service "b".toList
          int_signature).1).2
      (((Heap.init.new_service "a".toList void_signature).2.new_service "b".toList
          int_signature).2.new_service "c".toList void_signature).1).2,
    (((Heap.init.new_service "a".toList void_signature).2.new_service "b".toList
        int_signature).2.new_service "c".toList void_signature).2)

/-- A broker with the services `Service<void>` `"a."` and `Service<int>` `"b"`, made in this
order on a new heap, and the heap. -/
def dotted_services (ndebug : Bool) : ServiceBroker × Heap :=
  ((ServiceBroker.add_service ndebug
      (ServiceBroker.add_service ndebug ServiceBroker.init
        (Heap.init.new_service "a.".toList void_signature).1).2
      ((Heap.init.new_service "a.".toList void_signature).2.new_service "b".toList
        int_signature).1).2,
    ((Heap.init.new_service "a.".toList void_signature).2.new_service "b".toList
      int_signature).2)

open ServiceDirectory

/-! ## The ordered index -/

theorem PTree.sizeList_ordered_insert (x : Str × PTree) (l : List (Str × PTree)) :
    PTree.sizeList (PTree.ordered_insert x l) = PTree.size x.2 + PTree.sizeList l := by
  induction l with
  | nil => simp [PTree.ordered_insert, PTree.sizeList]
  | cons y r ih =>
    unfold PTree.ordered_insert
    split
    · simp [PTree.sizeList]
    · simp [PTree.sizeList, ih]; omega

theorem PTree.sizeList_foldl_insert (cs acc : List (Str × PTree)) :
    PTree.sizeList (cs.foldl (fun acc x => PTree.ordered_insert x acc) acc)
      = PTree.sizeList acc + PTree.sizeList cs := by
  induction cs generalizing acc with
  | nil => simp [PTree.sizeList]
  | cons x r ih =>
    simp only [List.foldl_cons, ih, PTree.sizeList_ordered_insert, PTree.sizeList]
    omega

theorem PTree.sizeList_ordered (cs : List (Str × PTree)) :
    PTree.sizeList (PTree.ordered cs) = PTree.sizeList cs := by
  simp [PTree.ordered, PTree.sizeList_foldl_insert, PTree.sizeList]

theorem PTree.size_eq (t : PTree) : PTree.size t = 1 + PTree.sizeList t.children := by
  cases t; simp [PTree.size, PTree.children]

theorem PTree.ordered_insert_map {α β : Type} (g : Str × α → β) (x : Str × α)
    (l : List (Str × α)) :
    PTree.ordered_insert (x.1, g x) (l.map (fun y => (y.1, g y)))
      = (PTree.ordered_insert x l).map (fun y => (y.1, g y)) := by
  induction l with
  | nil => simp [PTree.ordered_insert]
  | cons y r ih =>
    simp only [List.map_cons, PTree.ordered_insert]
    split
    · simp
    · simp [ih]

theorem PTree.foldl_insert_map {α β : Type} (g : Str × α → β) (cs acc : List (Str × α)) :
    (cs.map (fun y => (y.1, g y))).foldl (fun acc x => PTree.ordered_insert x acc)
        (acc.map (fun y => (y.1, g y)))
      = (cs.foldl (fun acc x => PTree.ordered_insert x acc) acc).map (fun y => (y.1, g y)) := by
  induction cs generalizing acc with
  | nil => simp
  | cons x r ih =>
    simp only [List.map_cons, List.foldl_cons, PTree.ordered_insert_map, ih]

theorem PTree.ordered_map {α β : Type} (g : Str × α → β) (cs : List (Str × α)) :
    PTree.ordered (cs.map (fun y => (y.1, g y))) = (PTree.ordered cs).map (fun y => (y.1, g y)) := by
  have h := PTree.foldl_insert_map g cs []
  simpa [PTree.ordered] using h

theorem child_names_eq_map (pre : Str) (cs : List (Str × PTree)) :
    child_names pre cs = cs.map (fun y => (y.1, names_of pre y)) := by
  induction cs with
  | nil => simp [child_names]
  | cons x r ih =>
    obtain ⟨k, c⟩ := x
    simp [child_names, names_of, ih]

theorem preorder_spec_eq (pre : Str) (t : PTree) :
    preorder_spec pre t = (PTree.ordered t.children).flatMap (names_of pre) := by
  cases t with
  | node d cs =>
    simp only [preorder_spec, PTree.children, child_names_eq_map, PTree.ordered_map]
    simp [List.flatMap_map]

/-! ## The order of the keys -/

theorem char_eq_of_toNat_eq {a b : Char} (h : a.toNat = b.toNat) : a = b := by
  rw [← Char.ofNat_toNat a, ← Char.ofNat_toNat b, h]

theorem PTree.str_less_irrefl (a : Str) : PTree.str_less a a = false := by
  induction a with
  | nil => rfl
  | cons c cs ih => simp [PTree.str_less, ih]

theorem PTree.str_less_trans : ∀ (a b c : Str),
    PTree.str_less a b = true → PTree.str_less b c = true → PTree.str_less a c = true := by
  intro a
  induction a with
  | nil =>
    intro b c hab hbc
    cases c with
    | nil => cases b <;> simp [PTree.str_less] at hbc
    | cons z zs => rfl
  | cons x xs ih =>
    intro b c hab hbc
    cases b with
    | nil => simp [PTree.str_less] at hab
    | cons y ys =>
      cases c with
      | nil => simp [PTree.str_less] at hbc
      | cons z zs =>
        simp only [PTree.str_less] at hab hbc ⊢
        by_cases h1 : x.toNat < y.toNat
        · by_cases h2 : y.toNat < z.toNat
          · have : x.toNat < z.toNat := by omega
            simp [this]
          · simp only [h2, if_false] at hbc
            by_cases h3 : z.toNat < y.toNat
            · simp [h3] at hbc
            · have : x.toNat < z.toNat := by omega
              simp [this]
        · simp only [h1, if_false] at hab
          by_cases h1' : y.toNat < x.toNat
          · simp [h1'] at hab
          · simp only [h1', if_false] at hab
            by_cases h2 : y.toNat < z.toNat
            · have : x.toNat < z.toNat := by omega
              simp [this]
            · simp only [h2, if_false] at hbc
              by_cases h3 : z.toNat < y.toNat
              · simp [h3] at hbc
              · simp only [h3, if_false] at hbc
                have e1 : ¬ x.toNat < z.toNat := by omega
                have e2 : ¬ z.toNat < x.toNat := by omega
                simp only [e1, e2, if_false]
                exact ih ys zs hab hbc

theorem PTree.str_less_total : ∀ (a b : Str),
    PTree.str_less a b = false → PTree.str_less b a = false → a = b := by
  intro a
  induction a with
  | nil =>
    intro b hab _
    cases b with
    | nil => rfl
    | cons y ys => simp [PTree.str_less] at hab
  | cons x xs ih =>
    intro b hab hba
    cases b with
    | nil => simp [PTree.str_less] at hba
    | cons y ys =>
      simp only [PTree.str_less] at hab hba
      by_cases h1 : x.toNat < y.toNat
      · simp [h1] at hab
      · by_cases h2 : y.toNat < x.toNat
        · simp [h2] at hba
        · simp only [h1, h2, if_false] at hab hba
          have hxy : x = y := char_eq_of_toNat_eq (by omega)
          rw [hxy, ih ys hab hba]

theorem PTree.ordered_insert_perm {α : Type} (x : Str × α) (l : List (Str × α)) :
    (PTree.ordered_insert x l).Perm (x :: l) := by
  induction l with
  | nil => simp [PTree.ordered_insert]
  | cons y r ih =>
    unfold PTree.ordered_insert
    split
    · exact List.Perm.refl _
    · exact (List.Perm.cons y ih).trans (List.Perm.swap x y r)

theorem PTree.foldl_insert_perm {α : Type} (cs acc : List (Str × α)) :
    (cs.foldl (fun acc x => PTree.ordered_insert x acc) acc).Perm (cs ++ acc) := by
  induction cs generalizing acc with
  | nil => simp
  | cons x r ih =>
    simp only [List.foldl_cons]
    refine (ih _).trans ?_
    refine (List.Perm.append_left r (PTree.ordered_insert_perm x acc)).trans ?_
    simp

theorem PTree.ordered_perm {α : Type} (cs : List (Str × α)) : (PTree.ordered cs).Perm cs := by
  simpa [PTree.ordered] using PTree.foldl_insert_perm cs []

theorem PTree.ordered_insert_sorted {α : Type} (x : Str × α) (l : List (Str × α))
    (h : l.Pairwise (fun a b => PTree.str_less b.1 a.1 = false)) :
    (PTree.ordered_insert x l).Pairwise (fun a b => PTree.str_less b.1 a.1 = false) := by
  induction l with
  | nil => simp [PTree.ordered_insert]
  | cons y r ih =>
    rw [List.pairwise_cons] at h
    unfold PTree.ordered_insert
    split
    · rename_i hxy
      refine List.Pairwise.cons ?_ (List.Pairwise.cons h.1 h.2)
      intro z hz
      cases hzx : PTree.str_less z.1 x.1 with
      | false => rfl
      | true =>
        have hzy := PTree.str_less_trans _ _ _ hzx hxy
        rcases List.mem_cons.1 hz with rfl | hz'
        · rw [PTree.str_less_irrefl] at hzy; exact absurd hzy (by simp)
        · rw [h.1 z hz'] at hzy; exact absurd hzy (by simp)
    · rename_i hxy
      refine List.Pairwise.cons ?_ (ih h.2)
      intro z hz
      rcases List.mem_cons.1 ((PTree.ordered_insert_perm x r).mem_iff.1 hz) with rfl | hz'
      · simpa using hxy
      · exact h.1 z hz'

theorem PTree.ordered_sorted {α : Type} (cs : List (Str × α)) :
    (PTree.ordered cs).Pairwise (fun a b => PTree.str_less b.1 a.1 = false) := by
  have key : ∀ (cs acc : List (Str × α)),
      acc.Pairwise (fun a b => PTree.str_less b.1 a.1 = false) →
      (cs.foldl (fun acc x => PTree.ordered_insert x acc) acc).Pairwise
        (fun a b => PTree.str_less b.1 a.1 = false) := by
    intro cs
    induction cs with
    | nil => intro acc h; simpa using h
    | cons x r ih =>
      intro acc h
      simp only [List.foldl_cons]
      exact ih _ (PTree.ordered_insert_sorted x acc h)
  exact key cs [] List.Pairwise.nil

/-! ## The walk of `list_services` is the pre-order walk -/

theorem walk_loop_succ (n : Nat) (s : WalkState) :
    walk_loop (n + 1) s
      = match walk_step s with
        | none => some s.result
        | some s' => walk_loop n s' := rfl

theorem walk_loop_children : ∀ (n : Nat) (L : List (Str × PTree)), PTree.sizeList L ≤ n →
    ∀ (pre : Str) (istack : List (List (Str × PTree))) (nstack : List Str) (res : List Str),
    ∃ m, m ≤ 2 * PTree.sizeList L ∧ ∀ f,
      walk_loop (m + f) ⟨L, istack, pre :: nstack, res⟩
        = walk_loop f ⟨[], istack, pre :: nstack, res ++ L.flatMap (names_of pre)⟩ := by
  intro n
  induction n with
  | zero =>
    intro L hL pre istack nstack res
    cases L with
    | nil => exact ⟨0, by simp, by intro f; simp⟩
    | cons x r =>
      obtain ⟨k, c⟩ := x
      simp only [PTree.sizeList, PTree.size_eq] at hL
      omega
  | succ n ih =>
    intro L hL pre istack nstack res
    cases L with
    | nil => exact ⟨0, by simp, by intro f; simp⟩
    | cons x r =>
      obtain ⟨k, c⟩ := x
      have hsz : PTree.sizeList ((k, c) :: r) = 1 + PTree.sizeList c.children + PTree.sizeList r := by
        simp only [PTree.sizeList, PTree.size_eq]
      rw [hsz] at hL
      by_cases hc : c.data = service_mark
      · obtain ⟨m, hm, hrun⟩ := ih r (by omega) pre istack nstack (res ++ [pre ++ k])
        refine ⟨m + 1, by omega, ?_⟩
        intro f
        have e : m + 1 + f = (m + f) + 1 := by omega
        rw [e, walk_loop_succ]
        simp only [walk_step, hc, if_true, List.headD_cons]
        rw [hrun]
        simp [names_of, hc]
      · obtain ⟨m1, hm1, hrun1⟩ := ih (PTree.ordered c.children)
          (by rw [PTree.sizeList_ordered]; omega) (pre ++ k ++ ['.'])
          (((k, c) :: r) :: istack) (pre :: nstack) res
        obtain ⟨m2, hm2, hrun2⟩ := ih r (by omega) pre istack nstack
          (res ++ (PTree.ordered c.children).flatMap (names_of (pre ++ k ++ ['.'])))
        refine ⟨m1 + m2 + 2, by rw [PTree.sizeList_ordered] at hm1; omega, ?_⟩
        intro f
        have e : m1 + m2 + 2 + f = (m1 + ((m2 + f) + 1)) + 1 := by omega
        rw [e, walk_loop_succ]
        simp only [walk_step, hc, if_false, List.headD_cons]
        rw [hrun1, walk_loop_succ]
        simp only [walk_step, List.tail_cons]
        rw [hrun2]
        simp [names_of, hc, preorder_spec_eq]

/-- The walk finishes within the turns `list_services` gives it, with the pre-order walk of
the specification as its result. -/
theorem walk_loop_finishes (node : PTree) (pre : Str) :
    walk_loop (2 * node.size) ⟨PTree.ordered node.children, [], [pre], []⟩
      = some (preorder_spec pre node) := by
  obtain ⟨m, hm, hrun⟩ := walk_loop_children _ (PTree.ordered node.children) (le_refl _)
    pre [] [] []
  rw [PTree.sizeList_ordered] at hm
  have e : 2 * node.size = m + ((2 * node.size - m - 1) + 1) := by
    rw [PTree.size_eq]; omega
  rw [e, hrun, walk_loop_succ]
  simp [walk_step, preorder_spec_eq]

theorem list_services_eq (d : ServiceDirectory) (raw_name : Str) :
    list_services d raw_name
      = match PTree.get_child_optional d.tree (detail.sanitize_name raw_name) with
        | none => []
        | some node =>
          if node.data = service_mark then [detail.sanitize_name raw_name]
          else preorder_spec (stack_base (detail.sanitize_name raw_name)) node := by
  simp only [list_services]
  cases h : PTree.get_child_optional d.tree (detail.sanitize_name raw_name) with
  | none => rfl
  | some node =>
    simp only []
    by_cases hc : node.data = service_mark
    · simp [hc]
    · have := walk_loop_finishes node (stack_base (detail.sanitize_name raw_name))
      simp only [hc, if_false]
      rw [this]; rfl

/-! ## Names made of proper segments -/

theorem detail.sanitize_loop_false (s : Str) : detail.sanitize_loop false s = s := by
  induction s with
  | nil => rfl
  | cons c cs ih => simp [detail.sanitize_loop, ih]

/-- What `sanitize_name` computes: the leading dots are dropped, then one trailing dot. -/
theorem detail.sanitize_loop_true (s : Str) :
    detail.sanitize_loop true s = s.dropWhile (fun c => c = '.') := by
  induction s with
  | nil => rfl
  | cons c cs ih =>
    by_cases hc : c = '.'
    · simp [detail.sanitize_loop, hc, ih, List.dropWhile]
    · simp [detail.sanitize_loop, hc, detail.sanitize_loop_false, List.dropWhile]

theorem detail.sanitize_name_clean (s : Str) (h1 : s.head? ≠ some '.')
    (h2 : s.getLast? ≠ some '.') : detail.sanitize_name s = s := by
  cases s with
  | nil => rfl
  | cons c cs =>
    have hc : c ≠ '.' := by
      intro h; apply h1; simp [h]
    have hl : detail.sanitize_loop true (c :: cs) = c :: cs := by
      simp [detail.sanitize_loop, hc, detail.sanitize_loop_false]
    simp only [detail.sanitize_name, hl]
    simp [h2]

theorem PTree.fragments_ne_nil (p : Str) : PTree.fragments p ≠ [] := by
  cases p with
  | nil => simp [PTree.fragments]
  | cons c cs =>
    unfold PTree.fragments
    split
    · simp
    · split <;> simp

theorem PTree.fragments_key (k : Str) (hk : '.' ∉ k) : PTree.fragments k = [k] := by
  induction k with
  | nil => rfl
  | cons c cs ih =>
    have hc : c ≠ '.' := by intro h; apply hk; simp [h]
    have hcs : '.' ∉ cs := by intro h; apply hk; simp [h]
    simp [PTree.fragments, hc, ih hcs]

theorem PTree.fragments_key_append (k : Str) (hk : '.' ∉ k) (rest : Str) :
    PTree.fragments (k ++ '.' :: rest) = k :: PTree.fragments rest := by
  induction k with
  | nil => simp [PTree.fragments]
  | cons c cs ih =>
    have hc : c ≠ '.' := by intro h; apply hk; simp [h]
    have hcs : '.' ∉ cs := by intro h; apply hk; simp [h]
    simp [PTree.fragments, hc, ih hcs]

theorem PTree.fragments_join (ks : List Str) (h : ∀ k ∈ ks, '.' ∉ k) (hne : ks ≠ []) :
    PTree.fragments (join_path ks) = ks := by
  induction ks with
  | nil => exact absurd rfl hne
  | cons k r ih =>
    cases r with
    | nil => simpa [join_path] using PTree.fragments_key k (h k (by simp))
    | cons k' r' =>
      simp only [join_path]
      rw [PTree.fragments_key_append k (h k (by simp))]
      rw [ih (fun x hx => h x (by simp [hx])) (by simp)]

theorem join_path_snoc (g : List Str) (k : Str) (hg : g ≠ []) :
    join_path (g ++ [k]) = join_path g ++ '.' :: k := by
  induction g with
  | nil => exact absurd rfl hg
  | cons a r ih =>
    cases r with
    | nil => simp [join_path]
    | cons b r' =>
      have := ih (by simp)
      simp only [List.cons_append, join_path] at this ⊢
      simp only [List.append_eq] at this ⊢
      rw [this]; simp

theorem join_path_head (ks : List Str) (k : Str) (hk : is_key k) :
    (join_path (k :: ks)).head? = k.head? := by
  obtain ⟨hne, _⟩ := hk
  cases k with
  | nil => exact absurd rfl hne
  | cons c cs => cases ks <;> simp [join_path]

theorem join_path_getLast (ks : List Str) (k : Str) (hk : is_key k) :
    (join_path (ks ++ [k])).getLast? = k.getLast? := by
  obtain ⟨hne, _⟩ := hk
  by_cases hks : ks = []
  · subst hks; simp [join_path]
  · rw [join_path_snoc ks k hks]
    have : '.' :: k ≠ [] := by simp
    rw [List.getLast?_append_of_ne_nil _ this]
    cases k with
    | nil => exact absurd rfl hne
    | cons c cs => simp [List.getLast?_cons_cons]

theorem is_key_head {k : Str} (hk : is_key k) : k.head? ≠ some '.' := by
  obtain ⟨hne, hdot⟩ := hk
  cases k with
  | nil => simp
  | cons c cs =>
    intro h; apply hdot; simp at h; simp [h]

theorem is_key_getLast {k : Str} (hk : is_key k) : k.getLast? ≠ some '.' := by
  obtain ⟨_, hdot⟩ := hk
  intro h
  exact hdot (List.mem_of_getLast?_eq_some h)

theorem join_path_ne_nil (k : Str) (ks : List Str) (hk : is_key k) : join_path (k :: ks) ≠ [] := by
  obtain ⟨hne, _⟩ := hk
  cases ks with
  | nil => simpa [join_path] using hne
  | cons a r => simp [join_path, hne]

/-- The dotted name of a non-empty list of proper segments is left as it is by
`sanitize_name`. -/
theorem sanitize_name_join (ks : List Str) (h : ∀ k ∈ ks, is_key k) :
    detail.sanitize_name (join_path ks) = join_path ks := by
  rcases List.eq_nil_or_concat ks with rfl | ⟨g, k, rfl⟩
  · rfl
  · simp only [List.concat_eq_append] at h ⊢
    apply detail.sanitize_name_clean
    · cases g with
      | nil => simpa [join_path] using is_key_head (h k (by simp))
      | cons a r =>
        rw [List.cons_append, join_path_head _ a (h a (by simp))]
        exact is_key_head (h a (by simp))
    · rw [join_path_getLast g k (h k (by simp))]
      exact is_key_getLast (h k (by simp))

theorem put_asserts_join (ks : List Str) (k : Str) (h : ∀ x ∈ ks ++ [k], is_key x) :
    PTree.put_asserts (join_path (ks ++ [k])) = false := by
  unfold PTree.put_asserts
  rw [PTree.fragments_join _ (fun x hx => (h x hx).2) (by simp)]
  have := (h k (by simp)).1
  simpa using this

theorem walk_keys_join (ks : List Str) (h : ∀ k ∈ ks, is_key k) :
    PTree.walk_keys (join_path ks) = ks := by
  rcases List.eq_nil_or_concat ks with rfl | ⟨g, k, rfl⟩
  · rfl
  · simp only [List.concat_eq_append] at h ⊢
    unfold PTree.walk_keys
    rw [put_asserts_join g k h]
    simp only [Bool.false_eq_true, if_false]
    exact PTree.fragments_join _ (fun x hx => (h x hx).2) (by simp)

/-- What `sanitize_name` computes on every string: the leading dots are dropped, then one
trailing dot; dots inside the name and further trailing dots stay. -/
theorem detail.sanitize_name_eq (s : Str) :
    detail.sanitize_name s
      = if (s.dropWhile (fun c => c = '.')).getLast? = some '.'
        then (s.dropWhile (fun c => c = '.')).dropLast
        else s.dropWhile (fun c => c = '.') := by
  cases s with
  | nil => rfl
  | cons c cs => simp only [detail.sanitize_name, detail.sanitize_loop_true]; simp

/-! ## The path fragments and `string_path::reduce` -/

theorem PTree.reduce_single (p : Str) (h : PTree.single p = true) : PTree.reduce p = (p, []) := by
  induction p with
  | nil => rfl
  | cons c cs ih =>
    have hc : c ≠ '.' := by
      intro e; subst e; simp [PTree.single] at h
    have hcs : PTree.single cs = true := by
      simp only [PTree.single, List.contains_cons] at h ⊢
      simpa [hc, Ne.symm hc] using h
    simp [PTree.reduce, hc, ih hcs]

/-- The fragments of a path are what `force_path` and `put_child` take off it: the whole
path when it is `single()`, else what `reduce()` returns, then the fragments of the rest. -/
theorem PTree.fragments_reduce (p : Str) :
    PTree.fragments p
      = if PTree.single p = true then [p]
        else (PTree.reduce p).1 :: PTree.fragments (PTree.reduce p).2 := by
  induction p with
  | nil => rfl
  | cons c cs ih =>
    by_cases hc : c = '.'
    · subst hc
      simp [PTree.fragments, PTree.single, PTree.reduce]
    · have hs : PTree.single (c :: cs) = PTree.single cs := by
        simp [PTree.single, List.contains_cons, hc, Ne.symm hc]
      simp only [PTree.fragments, hc, if_false, hs, PTree.reduce]
      rw [ih]
      by_cases hcs : PTree.single cs = true
      · simp [hcs]
      · simp [hcs]

theorem PTree.walk_keys_nil : PTree.walk_keys [] = [] := rfl

/-- The keys `walk_path` follows are what it takes off a non-empty path with `reduce()`,
then the keys of the rest. -/
theorem PTree.walk_keys_reduce (p : Str) (h : p ≠ []) :
    PTree.walk_keys p = (PTree.reduce p).1 :: PTree.walk_keys (PTree.reduce p).2 := by
  unfold PTree.walk_keys PTree.put_asserts
  rw [PTree.fragments_reduce p]
  by_cases hs : PTree.single p = true
  · simp [hs, PTree.reduce_single p hs, h, PTree.fragments]
  · have hne := PTree.fragments_ne_nil (PTree.reduce p).2
    have hs' : PTree.single p = false := by simpa using hs
    simp only [hs', Bool.false_eq_true, if_false]
    obtain ⟨k, ks, hk⟩ := List.exists_cons_of_ne_nil hne
    rw [hk, List.getLast?_cons_cons, List.dropLast_cons_of_ne_nil (by simp)]
    split <;> rfl

theorem PTree.fragments_eq_singleton_nil (p : Str) (h : PTree.fragments p = [[]]) : p = [] := by
  cases p with
  | nil => rfl
  | cons c cs =>
    exfalso
    have hne := PTree.fragments_ne_nil cs
    unfold PTree.fragments at h
    split at h
    · simp at h; exact hne h
    · split at h <;> simp at h

/-- The assertion of `put_child` fails exactly on the empty path and on a path that ends
with the separator. -/
theorem PTree.put_asserts_iff (p : Str) :
    PTree.put_asserts p = true ↔ p = [] ∨ p.getLast? = some '.' := by
  unfold PTree.put_asserts
  simp only [decide_eq_true_eq]
  induction p with
  | nil => simp [PTree.fragments]
  | cons c cs ih =>
    have hne := PTree.fragments_ne_nil cs
    obtain ⟨k, ks, hk⟩ := List.exists_cons_of_ne_nil hne
    by_cases hc : c = '.'
    · subst hc
      simp only [PTree.fragments, if_true, hk, List.getLast?_cons_cons]
      rw [← hk, ih]
      cases cs with
      | nil => simp
      | cons a r => simp [List.getLast?_cons_cons]
    · simp only [PTree.fragments, hc, if_false, hk]
      cases ks with
      | nil =>
        cases cs with
        | nil => simp [hc]
        | cons a r =>
          have hk0 : k ≠ [] := by
            intro h0
            subst h0
            have := PTree.fragments_eq_singleton_nil (a :: r) hk
            simp at this
          rw [hk] at ih
          simp only [List.getLast?_cons_cons]
          simp at ih ⊢
          intro h
          exact hk0 (ih.2 h)
      | cons k' ks' =>
        rw [hk] at ih
        simp only [List.getLast?_cons_cons] at ih ⊢
        rw [ih]
        cases cs with
        | nil => simp [PTree.fragments] at hk
        | cons a r => simp [List.getLast?_cons_cons]

/-! ## Sibling services below one group -/

theorem PTree.find_map_leaf (k : Str) (ks : List Str) (hk : k ∉ ks) :
    PTree.find k (ks.map leaf) = none := by
  induction ks with
  | nil => rfl
  | cons a r ih =>
    have h1 : a ≠ k := by intro h; apply hk; simp [h]
    have h2 : k ∉ r := by intro h; apply hk; simp [h]
    simpa [PTree.find, leaf, h1] using ih h2

theorem PTree.walk_path_spine (g ks : List Str) (n : PTree) :
    PTree.walk_path (spine g n) (g ++ ks) = PTree.walk_path n ks := by
  induction g with
  | nil => rfl
  | cons a r ih => simp [spine, PTree.walk_path, PTree.children, PTree.find, ih]

theorem PTree.force_path_spine (g : List Str) (f : PTree → PTree) (n : PTree) :
    PTree.force_path g f (spine g n) = spine g (f n) := by
  induction g with
  | nil => rfl
  | cons a r ih =>
    simp [spine, PTree.force_path, PTree.children, PTree.find, PTree.data, PTree.setFirst, ih]

theorem PTree.force_path_empty (g : List Str) (f : PTree → PTree) :
    PTree.force_path g f PTree.empty = spine g (f PTree.empty) := by
  induction g with
  | nil => rfl
  | cons a r ih =>
    simp [spine, PTree.force_path, PTree.empty, PTree.children, PTree.find, PTree.data]
    simpa [PTree.empty] using ih

theorem PTree.walk_path_empty_cons (k : Str) (ks : List Str) :
    PTree.walk_path PTree.empty (k :: ks) = none := by
  simp [PTree.walk_path, PTree.empty, PTree.children, PTree.find]

/-- One more sibling below the group `g`: the call succeeds and the new leaf is the last child
of the group. -/
theorem add_sibling (ndebug : Bool) (g done : List Str) (k : Str) (t : PTree)
    (hg : ∀ x ∈ g, is_key x) (hk : is_key k) (hnot : k ∉ done)
    (ht : t = spine g (PTree.node [] (done.map leaf)) ∨ (done = [] ∧ t = PTree.empty)) :
    add_service ndebug ⟨t⟩ (join_path (g ++ [k]))
      = (Outcome.ok, ⟨spine g (PTree.node [] ((done ++ [k]).map leaf))⟩) := by
  have hall : ∀ x ∈ g ++ [k], is_key x := by
    intro x hx
    rcases List.mem_append.1 hx with h | h
    · exact hg x h
    · simp at h; rw [h]; exact hk
  have hs := sanitize_name_join (g ++ [k]) hall
  have hw := walk_keys_join (g ++ [k]) hall
  have hf := PTree.fragments_join (g ++ [k]) (fun x hx => (hall x hx).2) (by simp)
  have ha := put_asserts_join g k hall
  have hne : join_path (g ++ [k]) ≠ [] := by
    cases g with
    | nil => simpa [join_path] using hk.1
    | cons a r => exact join_path_ne_nil a (r ++ [k]) (hg a (by simp))
  have hwalk : PTree.walk_path t (g ++ [k]) = none := by
    rcases ht with rfl | ⟨_, rfl⟩
    · rw [PTree.walk_path_spine]
      simp [PTree.walk_path, PTree.children, PTree.find_map_leaf k done hnot]
    · cases g with
      | nil => exact PTree.walk_path_empty_cons k []
      | cons a r => exact PTree.walk_path_empty_cons a (r ++ [k])
  have hput : PTree.put_child t (join_path (g ++ [k])) (PTree.put_value service_mark PTree.empty)
      = spine g (PTree.node [] ((done ++ [k]).map leaf)) := by
    unfold PTree.put_child
    rw [hf]
    simp only [List.dropLast_concat, List.getLastD_concat]
    rcases ht with rfl | ⟨hd, rfl⟩
    · rw [PTree.force_path_spine]
      simp [PTree.set_child, PTree.children, PTree.find_map_leaf k done hnot, PTree.data, leaf,
        PTree.put_value, PTree.empty]
    · rw [PTree.force_path_empty]
      simp [hd, PTree.set_child, PTree.children, PTree.find, PTree.data, leaf,
        PTree.put_value, PTree.empty]
  simp only [add_service, node_type, hs, hne, if_false, PTree.get_optional,
    PTree.get_child_optional, hw, hwalk, Option.map_none', PTree.put, ha]
  simp [hput]

theorem run_siblings (ndebug : Bool) (g : List Str) (hg : ∀ x ∈ g, is_key x) :
    ∀ (ks done : List Str), (∀ k ∈ ks, is_key k) → ks.Nodup → (∀ k ∈ ks, k ∉ done) →
    run ndebug ⟨spine g (PTree.node [] (done.map leaf))⟩
        (ks.map (fun k => Call.add_service (join_path (g ++ [k]))))
      = (ks.map (fun _ => Outcome.ok), ⟨spine g (PTree.node [] ((done ++ ks).map leaf))⟩) := by
  intro ks
  induction ks with
  | nil => intro done _ _ _; simp [run]
  | cons k r ih =>
    intro done hks hnd hnot
    have hstep := add_sibling ndebug g done k _ hg (hks k (by simp)) (hnot k (by simp))
      (Or.inl rfl)
    have hrest := ih (done ++ [k]) (fun x hx => hks x (by simp [hx]))
      (List.nodup_cons.1 hnd).2
      (by
        intro x hx hmem
        rcases List.mem_append.1 hmem with h | h
        · exact hnot x (by simp [hx]) h
        · simp at h; subst h; exact (List.nodup_cons.1 hnd).1 hx)
    simp only [List.map_cons, run, call, hstep, hrest]
    simp

/-- From the empty directory, adding the siblings `ks` below the group `g` succeeds every
time; the group then holds exactly these leaves, in the order of the calls. -/
theorem run_siblings_init (ndebug : Bool) (g : List Str) (hg : ∀ x ∈ g, is_key x)
    (k : Str) (r : List Str) (hks : ∀ x ∈ k :: r, is_key x) (hnd : (k :: r).Nodup) :
    run ndebug init ((k :: r).map (fun k => Call.add_service (join_path (g ++ [k]))))
      = ((k :: r).map (fun _ => Outcome.ok),
          ⟨spine g (PTree.node [] ((k :: r).map leaf))⟩) := by
  have hstep := add_sibling ndebug g [] k PTree.empty hg (hks k (by simp)) (by simp)
    (Or.inr ⟨rfl, rfl⟩)
  have hrest := run_siblings ndebug g hg r [k] (fun x hx => hks x (by simp [hx]))
    (List.nodup_cons.1 hnd).2
    (by
      intro x hx hmem
      simp at hmem; subst hmem; exact (List.nodup_cons.1 hnd).1 hx)
  simp only [List.map_cons, run, call, init]
  simp only [List.nil_append, List.map_cons, List.map_nil] at hstep
  rw [hstep]
  simp only [List.map_cons, List.map_nil, List.singleton_append] at hrest
  simp [hrest]

/-- A group of service leaves is listed in the order of the keys. -/
theorem list_services_siblings (g ks : List Str) (hg : ∀ x ∈ g, is_key x) :
    list_services ⟨spine g (PTree.node [] (ks.map leaf))⟩ (join_path g)
      = ((PTree.ordered (ks.map leaf)).map Prod.fst).map (fun k => join_path (g ++ [k])) := by
  rw [list_services_eq, sanitize_name_join g hg]
  have hw : PTree.get_child_optional (spine g (PTree.node [] (ks.map leaf))) (join_path g)
      = some (PTree.node [] (ks.map leaf)) := by
    unfold PTree.get_child_optional
    rw [walk_keys_join g hg]
    have := PTree.walk_path_spine g [] (PTree.node [] (ks.map leaf))
    simpa [PTree.walk_path] using this
  rw [hw]
  have hd : (PTree.node [] (ks.map leaf)).data ≠ service_mark := by
    simp [PTree.data, service_mark]
  simp only [hd, if_false, preorder_spec_eq, PTree.children, List.map_map]
  have hleaf : ∀ c ∈ PTree.ordered (ks.map leaf),
      names_of (stack_base (join_path g)) c = [join_path (g ++ [c.1])] := by
    intro c hc
    have hmem := (PTree.ordered_perm (ks.map leaf)).mem_iff.1 hc
    obtain ⟨k, _, rfl⟩ := List.mem_map.1 hmem
    cases g with
    | nil => simp [names_of, leaf, PTree.data, stack_base, join_path]
    | cons a r =>
      have hj := join_path_ne_nil a r (hg a (by simp))
      have hsn := join_path_snoc (a :: r) k (by simp)
      simp [names_of, leaf, PTree.data, stack_base, hj]
      simpa using hsn.symm
  generalize PTree.ordered (ks.map leaf) = L at hleaf
  induction L with
  | nil => simp
  | cons c r ih =>
    simp only [List.flatMap_cons, List.map_cons, Function.comp]
    rw [hleaf c (by simp), ih (fun x hx => hleaf x (by simp [hx]))]
    simp

theorem sorted_keys_strict (ks : List Str) (hnd : ks.Nodup) :
    ((PTree.ordered (ks.map leaf)).map Prod.fst).Perm ks
    ∧ ((PTree.ordered (ks.map leaf)).map Prod.fst).Pairwise
        (fun a b => PTree.str_less a b = true) := by
  have hperm : ((PTree.ordered (ks.map leaf)).map Prod.fst).Perm ks := by
    have := (PTree.ordered_perm (ks.map leaf)).map Prod.fst
    have e : (ks.map leaf).map Prod.fst = ks := by
      rw [List.map_map]
      exact (List.map_congr_left (fun x _ => rfl)).trans (List.map_id _)
    rwa [e] at this
  refine ⟨hperm, ?_⟩
  have hs := PTree.ordered_sorted (ks.map leaf)
  have hs' : ((PTree.ordered (ks.map leaf)).map Prod.fst).Pairwise
      (fun a b => PTree.str_less b a = false) := by
    rw [List.pairwise_map]; exact hs
  have hn : ((PTree.ordered (ks.map leaf)).map Prod.fst).Pairwise (fun a b => a ≠ b) :=
    (hperm.nodup_iff.2 hnd)
  refine (hs'.and hn).imp ?_
  intro a b hab
  cases h : PTree.str_less a b with
  | true => rfl
  | false => exact absurd (PTree.str_less_total a b h hab.1) hab.2

/-! ## `add_service` on names made of proper segments -/

theorem PTree.children_node (d : Str) (cs : List (Str × PTree)) :
    (PTree.node d cs).children = cs := rfl

theorem PTree.data_node (d : Str) (cs : List (Str × PTree)) : (PTree.node d cs).data = d := rfl

theorem PTree.find_setFirst (k : Str) (v : PTree) (cs : List (Str × PTree))
    (h : (PTree.find k cs).isSome) : PTree.find k (PTree.setFirst k v cs) = some v := by
  induction cs with
  | nil => simp [PTree.find] at h
  | cons x r ih =>
    obtain ⟨k', c⟩ := x
    by_cases hk : k' = k
    · simp [PTree.find, PTree.setFirst, hk]
    · simp only [PTree.find, hk, if_false] at h
      simp [PTree.find, PTree.setFirst, hk, ih h]

theorem PTree.find_append_new (k : Str) (v : PTree) (cs : List (Str × PTree))
    (h : PTree.find k cs = none) : PTree.find k (cs ++ [(k, v)]) = some v := by
  induction cs with
  | nil => simp [PTree.find]
  | cons x r ih =>
    obtain ⟨k', c⟩ := x
    by_cases hk : k' = k
    · simp [PTree.find, hk] at h
    · simp only [PTree.find, hk, if_false] at h
      simp [PTree.find, hk, ih h]

/-- A mutation through `walk_path` is seen by the next `walk_path` of the same path. -/
theorem PTree.walk_path_update_path (f : PTree → PTree) :
    ∀ (ks : List Str) (t n : PTree), PTree.walk_path t ks = some n →
      PTree.walk_path (PTree.update_path ks f t) ks = some (f n) := by
  intro ks
  induction ks with
  | nil => intro t n h; simp [PTree.walk_path] at h; simp [PTree.walk_path, PTree.update_path, h]
  | cons k r ih =>
    intro t n h
    simp only [PTree.walk_path] at h
    cases hf : PTree.find k t.children with
    | none => simp [hf] at h
    | some c =>
      simp only [hf] at h
      simp only [PTree.update_path, hf, PTree.walk_path, PTree.children_node]
      rw [PTree.find_setFirst k _ _ (by simp [hf])]
      exact ih c n h

/-- After `force_path` along `ks` and a mutation `f` of the node it reaches, `walk_path` along
`ks` finds a node of the form `f n`. -/
theorem PTree.walk_path_force_path (f : PTree → PTree) :
    ∀ (ks : List Str) (t : PTree),
      ∃ n, PTree.walk_path (PTree.force_path ks f t) ks = some (f n) := by
  intro ks
  induction ks with
  | nil => intro t; exact ⟨t, rfl⟩
  | cons k r ih =>
    intro t
    cases hf : PTree.find k t.children with
    | none =>
      obtain ⟨n, hn⟩ := ih PTree.empty
      refine ⟨n, ?_⟩
      simp only [PTree.force_path, hf, PTree.walk_path, PTree.children_node]
      rw [PTree.find_append_new k _ _ hf]
      exact hn
    | some c =>
      obtain ⟨n, hn⟩ := ih c
      refine ⟨n, ?_⟩
      simp only [PTree.force_path, hf, PTree.walk_path, PTree.children_node]
      rw [PTree.find_setFirst k _ _ (by simp [hf])]
      exact hn

theorem PTree.walk_path_append (g ks : List Str) :
    ∀ t : PTree, PTree.walk_path t (g ++ ks)
      = (PTree.walk_path t g).bind (fun n => PTree.walk_path n ks) := by
  induction g with
  | nil => intro t; rfl
  | cons k r ih =>
    intro t
    simp only [List.cons_append, PTree.walk_path]
    cases PTree.find k t.children with
    | none => rfl
    | some c => exact ih c

theorem PTree.walk_path_set_child (k : Str) (v n : PTree) :
    PTree.walk_path (PTree.set_child k v n) [k] = some v := by
  unfold PTree.set_child
  cases hf : PTree.find k n.children with
  | none => simp [PTree.walk_path, PTree.children_node, PTree.find_append_new k v _ hf]
  | some c =>
    have hs : PTree.find k (PTree.setFirst k v n.children) = some v :=
      PTree.find_setFirst k v _ (by simp [hf])
    simp [PTree.walk_path, PTree.children_node, hs]

/-- After `put` of a value at a name made of proper segments, `get_optional` of the name
returns the value; no assertion is involved. -/
theorem PTree.get_optional_put (ndebug : Bool) (t : PTree) (ks : List Str) (v : Str)
    (hks : ∀ k ∈ ks, is_key k) (hne : ks ≠ []) :
    ∃ t', PTree.put ndebug t (join_path ks) v = some t'
      ∧ PTree.get_optional t' (join_path ks) = some v := by
  obtain ⟨g, k, rfl⟩ : ∃ g k, ks = g ++ [k] := by
    rcases List.eq_nil_or_concat ks with h | ⟨g, k, h⟩
    · exact absurd h hne
    · exact ⟨g, k, by simpa using h⟩
  have hw := walk_keys_join (g ++ [k]) hks
  have hf := PTree.fragments_join (g ++ [k]) (fun x hx => (hks x hx).2) (by simp)
  have ha := put_asserts_join g k hks
  unfold PTree.put PTree.get_optional PTree.get_child_optional
  rw [hw]
  cases hwalk : PTree.walk_path t (g ++ [k]) with
  | some n =>
    refine ⟨_, rfl, ?_⟩
    rw [PTree.walk_path_update_path _ _ _ _ hwalk]
    simp [PTree.put_value, PTree.data_node]
  | none =>
    simp only [ha, Bool.false_eq_true, and_false, if_false]
    refine ⟨_, rfl, ?_⟩
    unfold PTree.put_child
    rw [hf]
    simp only [List.dropLast_concat, List.getLastD_concat]
    obtain ⟨n, hn⟩ := PTree.walk_path_force_path
      (PTree.set_child k (PTree.put_value v PTree.empty)) g t
    rw [PTree.walk_path_append, hn]
    simp [PTree.walk_path_set_child, PTree.put_value, PTree.data_node]

/-- On a raw name that `sanitize_name` turns into proper segments, `add_service` does what
its comment says, in every directory: it throws and changes nothing when the name is a group
or a service, and it succeeds otherwise, the name being a service afterwards. -/
theorem add_service_proper_name (ndebug : Bool) (d : ServiceDirectory) (raw : Str)
    (ks : List Str) (hks : ∀ k ∈ ks, is_key k) (hne : ks ≠ [])
    (hraw : detail.sanitize_name raw = join_path ks) :
    (node_type d raw = none →
        (add_service ndebug d raw).1 = Outcome.ok
        ∧ node_type (add_service ndebug d raw).2 raw = some NodeType.Service)
    ∧ (node_type d raw ≠ none →
        (∃ what, (add_service ndebug d raw).1 = Outcome.broker_error what)
        ∧ (add_service ndebug d raw).2 = d) := by
  have hs := sanitize_name_join ks hks
  have hnonempty : join_path ks ≠ [] := by
    cases ks with
    | nil => exact absurd rfl hne
    | cons a r => exact join_path_ne_nil a r (hks a (by simp))
  have hnt : ∀ e : ServiceDirectory, node_type e (join_path ks) = node_type e raw := by
    intro e; simp only [node_type, hs, hraw]
  constructor
  · intro hnone
    obtain ⟨t', hput, hget⟩ := PTree.get_optional_put ndebug d.tree ks service_mark hks hne
    rw [← hnt] at hnone
    simp only [add_service, hraw, hnonempty, if_false, hnone, hput, true_and]
    simp only [node_type, hraw, hget]
    decide
  · intro hsome
    rw [← hnt] at hsome
    cases hn : node_type d (join_path ks) with
    | none => exact absurd hn hsome
    | some nt =>
      simp only [add_service, hraw, hnonempty, if_false, hn]
      cases nt <;> simp

/-- Two raw names that `sanitize_name` turns into the same proper segments conflict: once
the first is added, adding the second throws and changes nothing. -/
theorem add_service_proper_name_conflict (ndebug : Bool) (d : ServiceDirectory)
    (r1 r2 : Str) (ks : List Str) (hks : ∀ k ∈ ks, is_key k) (hne : ks ≠ [])
    (h1 : detail.sanitize_name r1 = join_path ks) (h2 : detail.sanitize_name r2 = join_path ks)
    (hok : (add_service ndebug d r1).1 = Outcome.ok) :
    (∃ what, (add_service ndebug (add_service ndebug d r1).2 r2).1 = Outcome.broker_error what)
    ∧ (add_service ndebug (add_service ndebug d r1).2 r2).2 = (add_service ndebug d r1).2 := by
  have hfirst := add_service_proper_name ndebug d r1 ks hks hne h1
  have hnone : node_type d r1 = none := by
    by_contra hc
    obtain ⟨⟨what, hw⟩, _⟩ := hfirst.2 hc
    rw [hw] at hok
    exact absurd hok (by simp)
  have hsvc := (hfirst.1 hnone).2
  have hsame : node_type (add_service ndebug d r1).2 r2
      = node_type (add_service ndebug d r1).2 r1 := by
    simp only [node_type, h1, h2]
  have hsecond := add_service_proper_name ndebug (add_service ndebug d r1).2 r2 ks hks hne h2
  exact hsecond.2 (by rw [hsame, hsvc]; simp)

/-- After `remove_service(n)`, for every directory and every raw name, `list_services(n)` is
empty and `node_type(n)` is none. -/
theorem remove_service_tombstones (d : ServiceDirectory) (n : Str) :
    list_services (remove_service d n) n = []
    ∧ node_type (remove_service d n) n = none := by
  rw [list_services_eq]
  unfold remove_service node_type PTree.get_optional
  cases h : PTree.get_child_optional d.tree (detail.sanitize_name n) with
  | none => simp [h]
  | some node =>
    have hw : PTree.get_child_optional
        (PTree.update_path (PTree.walk_keys (detail.sanitize_name n))
          (fun node => PTree.put_value deleted_mark (PTree.clear node)) d.tree)
        (detail.sanitize_name n)
        = some (PTree.put_value deleted_mark (PTree.clear node)) :=
      PTree.walk_path_update_path _ _ _ _ h
    simp only [hw]
    constructor
    · have hd : (PTree.put_value deleted_mark (PTree.clear node)).data = deleted_mark := rfl
      have hne : deleted_mark ≠ service_mark := by decide
      simp only [hd, hne, if_false]
      rfl
    · simp [PTree.put_value, PTree.data_node]

/-! ## The claims about `detail::sanitize_name` -/

/-- C1: `sanitize_name("..a..b.")` is `"a..b"`: the leading dots and one trailing dot are
dropped, the two adjacent dots inside are kept, so the result is not the normalized name
`"a.b"`. -/
theorem sanitize_name_keeps_inner_dots :
    detail.sanitize_name "..a..b.".toList = "a..b".toList
    ∧ detail.sanitize_name "..a..b.".toList ≠ "a.b".toList := by
  decide

/-- C2: `sanitize_name` is not idempotent at `"a.."`: the first pass drops one of the two
trailing dots and gives `"a."`, the second pass gives `"a"`. -/
theorem sanitize_name_twice_differs :
    detail.sanitize_name "a..".toList = "a.".toList
    ∧ detail.sanitize_name (detail.sanitize_name "a..".toList) = "a".toList
    ∧ detail.sanitize_name (detail.sanitize_name "a..".toList)
        ≠ detail.sanitize_name "a..".toList := by
  decide

/-! ## The claims about `ServiceDirectory` -/


/-- C3: on the empty directory `add_service("a..")` has a non-empty sanitized name and no
node of that name, so no `broker_error` is due; yet with assertions active the call ends in
a failed `BOOST_ASSERT` of `put_child`, and with assertions compiled out it returns with
`node_type("a..")` being `Group`, not `Service`. -/
theorem add_service_trailing_dots_not_service :
    detail.sanitize_name "a..".toList ≠ []
    ∧ node_type init "a..".toList = none
    ∧ (add_service false init "a..".toList).1 = Outcome.assertion_failed
    ∧ (add_service true init "a..".toList).1 = Outcome.ok
    ∧ node_type (add_service true init "a..".toList).2 "a..".toList = some NodeType.Group := by
  decide

/-- C4: after `add_service("a")` and `add_service("a.b")`, which both succeed on the empty
directory, `list_services("")` is `["a"]`: the added name `"a.b"` is not listed. -/
theorem list_services_misses_added_name (ndebug : Bool) :
    (run ndebug init [Call.add_service "a".toList, Call.add_service "a.b".toList]).1
        = [Outcome.ok, Outcome.ok]
    ∧ detail.sanitize_name "a.b".toList = "a.b".toList
    ∧ list_services
        (run ndebug init [Call.add_service "a".toList, Call.add_service "a.b".toList]).2 []
        = ["a".toList]
    ∧ "a.b".toList ∉ list_services
        (run ndebug init [Call.add_service "a".toList, Call.add_service "a.b".toList]).2 [] := by
  cases ndebug <;> decide

/-- C5: after `add_service("a")`, `remove_service("a")` and `add_service("a..b")`, the call
`add_service("a...")` succeeds and the same call made again succeeds as well, instead of
throwing `broker_error`. -/
theorem add_service_same_name_twice (ndebug : Bool) :
    (run ndebug init [Call.add_service "a".toList, Call.remove_service "a".toList,
        Call.add_service "a..b".toList, Call.add_service "a...".toList,
        Call.add_service "a...".toList]).1
      = [Outcome.ok, Outcome.ok, Outcome.ok, Outcome.ok, Outcome.ok]
    ∧ detail.sanitize_name "a...".toList ≠ [] := by
  cases ndebug <;> decide

/-- C6: in the directory reached by `add_service("a")`, `remove_service("a")`,
`add_service("a..b")`, `add_service("a...")`, `add_service("a")` (all succeed),
`list_services("a...")` is `["a.."]`; after `remove_service("a...")` the listed name `"a.."`
still has `node_type` `Service` and `add_service("a..")` throws. -/
theorem remove_service_leaves_listed_name (ndebug : Bool) :
    (run ndebug init [Call.add_service "a".toList, Call.remove_service "a".toList,
        Call.add_service "a..b".toList, Call.add_service "a...".toList,
        Call.add_service "a".toList]).1
      = [Outcome.ok, Outcome.ok, Outcome.ok, Outcome.ok, Outcome.ok]
    ∧ list_services (run ndebug init [Call.add_service "a".toList,
        Call.remove_service "a".toList, Call.add_service "a..b".toList,
        Call.add_service "a...".toList, Call.add_service "a".toList]).2 "a...".toList
      = ["a..".toList]
    ∧ node_type (remove_service (run ndebug init [Call.add_service "a".toList,
        Call.remove_service "a".toList, Call.add_service "a..b".toList,
        Call.add_service "a...".toList, Call.add_service "a".toList]).2 "a...".toList)
        "a..".toList
      = some NodeType.Service
    ∧ (add_service ndebug (remove_service (run ndebug init [Call.add_service "a".toList,
        Call.remove_service "a".toList, Call.add_service "a..b".toList,
        Call.add_service "a...".toList, Call.add_service "a".toList]).2 "a...".toList)
        "a..".toList).1
      = Outcome.broker_error "Service with this name already exists." := by
  cases ndebug <;> decide

/-- C7: with the one service `"a.b"`, `remove_service("a..")` removes it, although `"a.b"`
is neither `sanitize_name("a..")`, which is `"a."`, nor a name that starts with `"a.."`:
`node_type("a.b")` goes from `Service` to none and `list_services("")` loses `"a.b"`. -/
theorem remove_service_changes_other_name (ndebug : Bool) :
    detail.sanitize_name "a..".toList = "a.".toList
    ∧ "a.b".toList ≠ detail.sanitize_name "a..".toList
    ∧ (detail.sanitize_name "a..".toList ++ ['.']).isPrefixOf "a.b".toList = false
    ∧ node_type (run ndebug init [Call.add_service "a.b".toList]).2 "a.b".toList
        = some NodeType.Service
    ∧ list_services (run ndebug init [Call.add_service "a.b".toList]).2 [] = ["a.b".toList]
    ∧ node_type (remove_service (run ndebug init [Call.add_service "a.b".toList]).2
        "a..".toList) "a.b".toList = none
    ∧ list_services (remove_service (run ndebug init [Call.add_service "a.b".toList]).2
        "a..".toList) [] = [] := by
  cases ndebug <;> decide

/-- C8: with the one service `"a.b"`, `list_services("a..")` is `["a..b"]`, a name with two
adjacent dots whose `node_type` is none. -/
theorem list_services_returns_unknown_name (ndebug : Bool) :
    list_services (run ndebug init [Call.add_service "a.b".toList]).2 "a..".toList
        = ["a..b".toList]
    ∧ node_type (run ndebug init [Call.add_service "a.b".toList]).2 "a..b".toList = none := by
  cases ndebug <;> decide

/-- C9, as stated: `add_service("b")` then `add_service("a")` on the empty directory both
succeed, and `list_services("")` is `["a", "b"]`, not the order of insertion `["b", "a"]`;
the same in a build with assertions and in one without. -/
theorem list_services_not_insertion_order :
    (run false init [Call.add_service "b".toList, Call.add_service "a".toList]).1
        = [Outcome.ok, Outcome.ok]
    ∧ list_services
        (run false init [Call.add_service "b".toList, Call.add_service "a".toList]).2 []
        = ["a".toList, "b".toList]
    ∧ list_services
        (run true init [Call.add_service "b".toList, Call.add_service "a".toList]).2 []
        = ["a".toList, "b".toList]
    ∧ list_services
        (run false init [Call.add_service "b".toList, Call.add_service "a".toList]).2 []
        ≠ ["b".toList, "a".toList] := by
  decide

/-- C9, amended: the services of a group are listed in the ascending order of their keys
(`std::less<std::string>`, the ordered index of the tree), whatever the order of insertion.
From the empty directory, adding distinct sibling names `g.k` (every segment non-empty and
without `'.'`) succeeds every time, and `list_services(g)` is then these names sorted by `k`.
For every directory and every query that selects a node that is not a service, the result is
the pre-order walk below that node, the children of every group in ascending key order. -/
theorem list_services_key_order (ndebug : Bool) (g ks : List Str)
    (hg : ∀ x ∈ g, is_key x) (hks : ∀ x ∈ ks, is_key x) (hnd : ks.Nodup)
    (d : ServiceDirectory) (q : Str) (node : PTree)
    (hnode : PTree.get_child_optional d.tree (detail.sanitize_name q) = some node)
    (hgroup : node.data ≠ service_mark) :
    ((run ndebug init (ks.map (fun k => Call.add_service (join_path (g ++ [k]))))).1
        = ks.map (fun _ => Outcome.ok)
      ∧ ∃ sorted : List Str, sorted.Perm ks
        ∧ sorted.Pairwise (fun a b => PTree.str_less a b = true)
        ∧ list_services
            (run ndebug init (ks.map (fun k => Call.add_service (join_path (g ++ [k]))))).2
            (join_path g)
          = sorted.map (fun k => join_path (g ++ [k])))
    ∧ list_services d q = preorder_spec (stack_base (detail.sanitize_name q)) node
    ∧ (∀ cs : List (Str × List Str), (PTree.ordered cs).Perm cs
        ∧ (PTree.ordered cs).Pairwise (fun a b => PTree.str_less b.1 a.1 = false)) := by
  refine ⟨?_, ?_, fun cs => ⟨PTree.ordered_perm cs, PTree.ordered_sorted cs⟩⟩
  · cases ks with
    | nil =>
      refine ⟨rfl, [], List.Perm.refl _, List.Pairwise.nil, ?_⟩
      simp only [List.map_nil, run]
      rw [list_services_eq, sanitize_name_join g hg]
      unfold PTree.get_child_optional
      rw [walk_keys_join g hg]
      cases g with
      | nil => rfl
      | cons a r => simp [init, PTree.walk_path_empty_cons]
    | cons k r =>
      rw [run_siblings_init ndebug g hg k r hks hnd]
      obtain ⟨hperm, hsorted⟩ := sorted_keys_strict (k :: r) hnd
      exact ⟨rfl, _, hperm, hsorted, list_services_siblings g (k :: r) hg⟩
  · rw [list_services_eq, hnode]
    simp [hgroup]

/-- C9, amended, at `g = ["g"]` with the siblings `b`, `a` added in this order, and at the
directory so reached with the query `"g"`. -/
theorem list_services_key_order_witness :
    (∀ x ∈ ["g".toList], is_key x) ∧ (∀ x ∈ ["b".toList, "a".toList], is_key x)
    ∧ ["b".toList, "a".toList].Nodup
    ∧ PTree.get_child_optional
        (run false init [Call.add_service "g.b".toList, Call.add_service "g.a".toList]).2.tree
        (detail.sanitize_name "g".toList) = some (PTree.node [] [leaf "b".toList, leaf "a".toList])
    ∧ (PTree.node [] [leaf "b".toList, leaf "a".toList]).data ≠ service_mark
    ∧ (((run false init (["b".toList, "a".toList].map
            (fun k => Call.add_service (join_path (["g".toList] ++ [k]))))).1
          = ["b".toList, "a".toList].map (fun _ => Outcome.ok)
        ∧ ∃ sorted : List Str, sorted.Perm ["b".toList, "a".toList]
          ∧ sorted.Pairwise (fun a b => PTree.str_less a b = true)
          ∧ list_services
              (run false init (["b".toList, "a".toList].map
                (fun k => Call.add_service (join_path (["g".toList] ++ [k]))))).2
              (join_path ["g".toList])
            = sorted.map (fun k => join_path (["g".toList] ++ [k])))
      ∧ list_services
          (run false init [Call.add_service "g.b".toList, Call.add_service "g.a".toList]).2
          "g".toList
        = preorder_spec (stack_base (detail.sanitize_name "g".toList))
            (PTree.node [] [leaf "b".toList, leaf "a".toList])
      ∧ (∀ cs : List (Str × List Str), (PTree.ordered cs).Perm cs
          ∧ (PTree.ordered cs).Pairwise (fun a b => PTree.str_less b.1 a.1 = false))) :=
  ⟨by decide, by decide, by decide, rfl, by decide,
    list_services_key_order false ["g".toList] ["b".toList, "a".toList]
      (by decide) (by decide) (by decide)
      (run false init [Call.add_service "g.b".toList, Call.add_service "g.a".toList]).2
      "g".toList (PTree.node [] [leaf "b".toList, leaf "a".toList]) rfl (by decide)⟩

/-- C10: after `add_service("a")` and `add_service("a.b")`, which both succeed on the empty
directory, `"a"` is a service and at the same time the group of the service `"a.b"`. -/
theorem service_is_also_group (ndebug : Bool) :
    (run ndebug init [Call.add_service "a".toList, Call.add_service "a.b".toList]).1
        = [Outcome.ok, Outcome.ok]
    ∧ node_type
        (run ndebug init [Call.add_service "a".toList, Call.add_service "a.b".toList]).2
        "a".toList = some NodeType.Service
    ∧ node_type
        (run ndebug init [Call.add_service "a".toList, Call.add_service "a.b".toList]).2
        "a.b".toList = some NodeType.Service
    ∧ ("a".toList ++ ['.']).isPrefixOf "a.b".toList = true := by
  cases ndebug <;> decide

/-! ## The claims about `ServiceBroker` on services whose name begins with a dot -/

/-- C11: after `add_service` of a service named `".a"` on an empty broker (the call
returns), the only key of `services_` is `".a"` while `list_services("")` is `["a"]`: the
listed leaf has no map entry under its name and the map entry has no listed leaf. -/
theorem broker_map_key_is_raw_name (ndebug : Bool) :
    (ServiceBroker.add_service ndebug ServiceBroker.init
        (Heap.init.new_service ".a".toList void_signature).1).1 = Ending.returned ()
    ∧ (ServiceBroker.add_service ndebug ServiceBroker.init
        (Heap.init.new_service ".a".toList void_signature).1).2.services_.map Prod.fst
      = [".a".toList]
    ∧ ServiceBroker.list_services (ServiceBroker.add_service ndebug ServiceBroker.init
        (Heap.init.new_service ".a".toList void_signature).1).2 []
      = ["a".toList]
    ∧ ServiceBroker.map_find "a".toList (ServiceBroker.add_service ndebug ServiceBroker.init
        (Heap.init.new_service ".a".toList void_signature).1).2.services_ = none := by
  cases ndebug <;> decide

/-- C12: on the broker that holds the one service named `".a"`, `list_services("a")` is
`["a"]` and `remove_service("a")` does not return the count 1: `services_.find("a")` is the
end iterator, so the assertion fails, or, with assertions compiled out, the end iterator is
erased. -/
theorem broker_remove_service_no_count (ndebug : Bool) :
    ServiceBroker.list_services (ServiceBroker.add_service ndebug ServiceBroker.init
        (Heap.init.new_service ".a".toList void_signature).1).2 "a".toList
      = ["a".toList]
    ∧ (ServiceBroker.remove_service ndebug (ServiceBroker.add_service ndebug
        ServiceBroker.init (Heap.init.new_service ".a".toList void_signature).1).2
        "a".toList).1
      = assert_failure ndebug
    ∧ (assert_failure ndebug : Ending Nat) ≠ Ending.returned 1 := by
  cases ndebug <;> decide

/-- C14: on the broker that holds the one service `Service<void>` named `".a"`,
`list_services("a")` is `["a"]`, not empty, and the callback `void()` has the signature of the
service, yet `register_callback("a", fn)` returns no connection: the assertion of
`register_callback_` fails.  With a second service `Service<int>` named `"b"`,
`register_callback("", fn)` meets a leaf of another signature and still throws no
`broker_error`. -/
theorem register_callback_no_connection (ndebug : Bool) :
    ServiceBroker.list_services (ServiceBroker.add_service ndebug ServiceBroker.init
        (Heap.init.new_service ".a".toList void_signature).1).2 "a".toList
      = ["a".toList]
    ∧ (Heap.init.new_service ".a".toList void_signature).1.signature = void_callback.signature
    ∧ (ServiceBroker.register_callback ndebug (ServiceBroker.add_service ndebug
        ServiceBroker.init (Heap.init.new_service ".a".toList void_signature).1).2
        "a".toList void_callback (Heap.init.new_service ".a".toList void_signature).2).1
      = assert_failure ndebug
    ∧ ServiceBroker.list_services (ServiceBroker.add_service ndebug
        (ServiceBroker.add_service ndebug ServiceBroker.init
          (Heap.init.new_service ".a".toList void_signature).1).2
        ((Heap.init.new_service ".a".toList void_signature).2.new_service "b".toList
          int_signature).1).2 []
      = ["a".toList, "b".toList]
    ∧ (ServiceBroker.register_callback ndebug (ServiceBroker.add_service ndebug
        (ServiceBroker.add_service ndebug ServiceBroker.init
          (Heap.init.new_service ".a".toList void_signature).1).2
        ((Heap.init.new_service ".a".toList void_signature).2.new_service "b".toList
          int_signature).1).2 [] void_callback
        ((Heap.init.new_service ".a".toList void_signature).2.new_service "b".toList
          int_signature).2).1
      = assert_failure ndebug := by
  cases ndebug <;> decide

/-- C18: a service `Service<void>` named `".test"` is added to an empty broker (the call
returns); `register_callback(s.name, fn)` with a callback `void()` then subscribes nothing,
and `call<void>(s.name)` emits nothing: both end in the failed assertion on
`services_.find("test")`. -/
theorem broker_loses_dotted_service (ndebug : Bool) :
    (ServiceBroker.add_service ndebug ServiceBroker.init
        (Heap.init.new_service ".test".toList void_signature).1).1 = Ending.returned ()
    ∧ (ServiceBroker.register_callback ndebug (ServiceBroker.add_service ndebug
        ServiceBroker.init (Heap.init.new_service ".test".toList void_signature).1).2
        (Heap.init.new_service ".test".toList void_signature).1.name void_callback
        (Heap.init.new_service ".test".toList void_signature).2).1
      = assert_failure ndebug
    ∧ ((ServiceBroker.register_callback ndebug (ServiceBroker.add_service ndebug
        ServiceBroker.init (Heap.init.new_service ".test".toList void_signature).1).2
        (Heap.init.new_service ".test".toList void_signature).1.name void_callback
        (Heap.init.new_service ".test".toList void_signature).2).2.slots 0).length = 0
    ∧ (ServiceBroker.call_void ndebug (ServiceBroker.add_service ndebug
        ServiceBroker.init (Heap.init.new_service ".test".toList void_signature).1).2
        (Heap.init.new_service ".test".toList void_signature).1.name void_signature []
        ((Heap.init.new_service ".test".toList void_signature).2.connect 0
          void_callback.fn).2)
      = (assert_failure ndebug, []) := by
  cases ndebug <;> decide

/-! ## The dispatcher: fan-out and result of an emit -/

theorem invoke_slots_returns (args : List Value) (l : List Slot)
    (hl : ∀ sl ∈ l, ∃ v, sl.fn args = Reply.value v) (value : Option Value)
    (log : List Invocation) :
    ∃ r, invoke_slots args l value log
        = (Ending.returned r, log ++ l.map (fun sl => (sl.connection, args)))
      ∧ (l = [] → r = value)
      ∧ (∀ (front : List Slot) (last : Slot) (v : Value), l = front ++ [last] →
          last.fn args = Reply.value v → r = some v) := by
  induction l generalizing value log with
  | nil =>
    refine ⟨value, by simp [invoke_slots], fun _ => rfl, ?_⟩
    intro front last v h
    simp at h
  | cons sl rest ih =>
    obtain ⟨u, hu⟩ := hl sl (by simp)
    obtain ⟨r, h1, h2, h3⟩ := ih (fun x hx => hl x (by simp [hx])) (some u)
      (log ++ [(sl.connection, args)])
    refine ⟨r, ?_, by simp, ?_⟩
    · simp only [invoke_slots, hu, h1]
      simp
    · intro front last v hsplit hv
      cases front with
      | nil =>
        simp only [List.nil_append, List.cons.injEq] at hsplit
        obtain ⟨e1, e2⟩ := hsplit
        subst e1
        rw [hu] at hv
        cases hv
        exact h2 e2
      | cons f fr =>
        simp only [List.cons_append, List.cons.injEq] at hsplit
        exact h3 fr last v hsplit.2 hv

theorem invoke_slots_throws (args : List Value) (thrower : Slot) (rest : List Slot)
    (what : String) (ht : thrower.fn args = Reply.throws what) (front : List Slot)
    (hf : ∀ sl ∈ front, ∃ v, sl.fn args = Reply.value v) (value : Option Value)
    (log : List Invocation) :
    invoke_slots args (front ++ thrower :: rest) value log
      = (Ending.exception what,
          log ++ (front ++ [thrower]).map (fun sl => (sl.connection, args))) := by
  induction front generalizing value log with
  | nil => simp [invoke_slots, ht]
  | cons sl fr ih =>
    obtain ⟨u, hu⟩ := hf sl (by simp)
    have := ih (fun x hx => hf x (by simp [hx])) (some u) (log ++ [(sl.connection, args)])
    rw [List.cons_append, invoke_slots, hu]
    simp only []
    rw [this]
    simp

/-- Either every slot returns, or there is a first slot that throws. -/
theorem slots_return_or_throw (args : List Value) (l : List Slot) :
    (∀ sl ∈ l, ∃ v, sl.fn args = Reply.value v)
    ∨ ∃ (front : List Slot) (thrower : Slot) (rest : List Slot) (what : String),
        l = front ++ thrower :: rest
        ∧ (∀ sl ∈ front, ∃ v, sl.fn args = Reply.value v)
        ∧ thrower.fn args = Reply.throws what := by
  induction l with
  | nil => left; intro sl h; simp at h
  | cons sl rest ih =>
    cases hr : sl.fn args with
    | throws what =>
      right
      exact ⟨[], sl, rest, what, rfl, by intro x hx; simp at hx, hr⟩
    | value u =>
      rcases ih with hall | ⟨front, thrower, rest', what, hsplit, hf, ht⟩
      · left
        intro x hx
        rcases List.mem_cons.1 hx with e | hx'
        · subst e; exact ⟨u, hr⟩
        · exact hall x hx'
      · right
        refine ⟨sl :: front, thrower, rest', what, by rw [hsplit]; rfl, ?_, ht⟩
        intro x hx
        rcases List.mem_cons.1 hx with e | hx'
        · subst e; exact ⟨u, hr⟩
        · exact hf x hx'

/-- An emit on a service none of whose subscribers throws. -/
theorem Service.emit_returns (h : Heap) (s : Service) (args : List Value)
    (hl : ∀ sl ∈ h.slots s.service, ∃ v, sl.fn args = Reply.value v) :
    (s.emit h args).2 = (h.slots s.service).map (fun sl => (sl.connection, args))
    ∧ (s.signature.result = "void" → (s.emit h args).1 = Ending.returned Value.unit)
    ∧ (s.signature.result ≠ "void" → h.slots s.service = [] →
        (s.emit h args).1 = Ending.bad_optional_access)
    ∧ (s.signature.result ≠ "void" →
        ∀ (front : List Slot) (last : Slot) (v : Value),
          h.slots s.service = front ++ [last] → last.fn args = Reply.value v →
          (s.emit h args).1 = Ending.returned v) := by
  obtain ⟨r, h1, h2, h3⟩ := invoke_slots_returns args (h.slots s.service) hl none []
  simp only [List.nil_append] at h1
  refine ⟨?_, ?_, ?_, ?_⟩
  · unfold Service.emit
    rw [h1]
    simp only []
    split
    · rfl
    · cases r <;> rfl
  · intro hv
    unfold Service.emit
    rw [h1]
    simp [hv]
  · intro hv hs
    unfold Service.emit
    rw [h1, h2 hs]
    simp [hv]
  · intro hv front last v hs hlast
    unfold Service.emit
    rw [h1, h3 front last v hs hlast]
    simp [hv]

/-- An emit on a service with a subscriber that throws: the subscribers up to it are invoked,
and its exception leaves the emit. -/
theorem Service.emit_throws (h : Heap) (s : Service) (args : List Value)
    (front : List Slot) (thrower : Slot) (rest : List Slot) (what : String)
    (hs : h.slots s.service = front ++ thrower :: rest)
    (hf : ∀ sl ∈ front, ∃ v, sl.fn args = Reply.value v)
    (ht : thrower.fn args = Reply.throws what) :
    s.emit h args
      = (Ending.exception what, (front ++ [thrower]).map (fun sl => (sl.connection, args))) := by
  unfold Service.emit
  rw [hs, invoke_slots_throws args thrower rest what ht front hf none []]
  simp [Ending.map]

theorem Heap.slots_connect (h : Heap) (address : Nat) (fn : List Value → Reply)
    (ha : address < h.signals.length) :
    (h.connect address fn).2.slots address = h.slots address ++ [⟨h.connections, fn⟩] := by
  simp [Heap.connect, Heap.slots, List.getD_eq_getElem?_getD, ha]

theorem Heap.length_connect (h : Heap) (address : Nat) (fn : List Value → Reply) :
    (h.connect address fn).2.signals.length = h.signals.length := by
  simp [Heap.connect]

theorem Heap.connections_connect (h : Heap) (address : Nat) (fn : List Value → Reply) :
    (h.connect address fn).2.connections = h.connections + 1 := rfl

theorem Heap.connect_all_spec (address : Nat) (fns : List (List Value → Reply)) :
    ∀ h : Heap, address < h.signals.length →
      (h.connect_all address fns).1 = List.range' h.connections fns.length
      ∧ ((h.connect_all address fns).2.slots address).map Slot.connection
          = (h.slots address).map Slot.connection ++ (h.connect_all address fns).1
      ∧ ((h.connect_all address fns).2.slots address).map Slot.fn
          = (h.slots address).map Slot.fn ++ fns := by
  induction fns with
  | nil => intro h _; simp [Heap.connect_all]
  | cons fn rest ih =>
    intro h ha
    have hlen : address < (h.connect address fn).2.signals.length := by
      rw [Heap.length_connect]; exact ha
    obtain ⟨h1, h2, h3⟩ := ih (h.connect address fn).2 hlen
    rw [Heap.slots_connect h address fn ha] at h2 h3
    refine ⟨?_, ?_, ?_⟩
    · simp only [Heap.connect_all, h1, Heap.connections_connect, List.length_cons]
      rw [List.range'_succ]
      rfl
    · simp only [Heap.connect_all, h2]
      simp [Heap.connect]
    · simp only [Heap.connect_all, h3]
      simp

/-- C16, as stated: the service `Service<void>` named `"a"` has two subscribers connected,
under the connections 0 and 1; the first throws.  An emit invokes the first subscriber only:
its exception leaves the emit, and the second subscriber is not invoked. -/
theorem fan_out_stops_at_throw :
    (throwing_void_service.2.slots throwing_void_service.1.service).map Slot.connection
      = [0, 1]
    ∧ (throwing_void_service.1.emit throwing_void_service.2 []).2 = [(0, [])]
    ∧ (throwing_void_service.1.emit throwing_void_service.2 []).1 = Ending.exception "e"
    ∧ ((1, []) : Invocation) ∉ (throwing_void_service.1.emit throwing_void_service.2 []).2 := by
  decide

/-- C16, amended: when no subscriber connected to the service throws, an emit invokes every
subscriber exactly once, with the emitted arguments, in the order of the slots, and does not
end with an exception of a subscriber.  When a subscriber throws, the emit invokes the
subscribers up to and including the first that throws, each exactly once with the emitted
arguments and in the order of the slots, the subscribers behind it are not invoked, and the
exception leaves the emit.  The slots are in the order of connection: subscribers connected
one after the other come after those connected before, in the order of the `connect` calls,
each under its own connection. -/
theorem service_fan_out_to_first_throw (h : Heap) (s : Service)
    (fns : List (List Value → Reply)) (args : List Value) :
    ((∀ sl ∈ h.slots s.service, ∃ v, sl.fn args = Reply.value v) →
        (s.emit h args).2 = (h.slots s.service).map (fun sl => (sl.connection, args))
        ∧ ∀ what, (s.emit h args).1 ≠ Ending.exception what)
    ∧ (∀ (front : List Slot) (thrower : Slot) (rest : List Slot) (what : String),
        h.slots s.service = front ++ thrower :: rest →
        (∀ sl ∈ front, ∃ v, sl.fn args = Reply.value v) →
        thrower.fn args = Reply.throws what →
        (s.emit h args).2 = (front ++ [thrower]).map (fun sl => (sl.connection, args))
        ∧ (s.emit h args).1 = Ending.exception what)
    ∧ ((∀ sl ∈ h.slots s.service, ∃ v, sl.fn args = Reply.value v)
      ∨ ∃ (front : List Slot) (thrower : Slot) (rest : List Slot) (what : String),
          h.slots s.service = front ++ thrower :: rest
          ∧ (∀ sl ∈ front, ∃ v, sl.fn args = Reply.value v)
          ∧ thrower.fn args = Reply.throws what)
    ∧ (s.service < h.signals.length →
        ((h.connect_all s.service fns).2.slots s.service).map Slot.connection
            = (h.slots s.service).map Slot.connection ++ (h.connect_all s.service fns).1
        ∧ ((h.connect_all s.service fns).2.slots s.service).map Slot.fn
            = (h.slots s.service).map Slot.fn ++ fns
        ∧ (h.connect_all s.service fns).1 = List.range' h.connections fns.length
        ∧ (h.connect_all s.service fns).1.Nodup) := by
  refine ⟨?_, ?_, slots_return_or_throw args (h.slots s.service), ?_⟩
  · intro hl
    obtain ⟨h1, h2, h3, h4⟩ := Service.emit_returns h s args hl
    refine ⟨h1, ?_⟩
    intro what hw
    by_cases hv : s.signature.result = "void"
    · rw [h2 hv] at hw
      cases hw
    · rcases List.eq_nil_or_concat (h.slots s.service) with hs | ⟨front, last, hs⟩
      · rw [h3 hv hs] at hw
        cases hw
      · have hs' : h.slots s.service = front ++ [last] := by simpa using hs
        obtain ⟨v, hlast⟩ := hl last (by rw [hs']; simp)
        rw [h4 hv front last v hs' hlast] at hw
        cases hw
  · intro front thrower rest what hs hf ht
    rw [Service.emit_throws h s args front thrower rest what hs hf ht]
    exact ⟨rfl, rfl⟩
  · intro ha
    obtain ⟨h1, h2, h3⟩ := Heap.connect_all_spec s.service fns h ha
    refine ⟨h2, h3, h1, ?_⟩
    rw [h1]
    exact List.nodup_range' _ _

/-- C16, amended, at the service `Service<void>` named `"a"`: with three subscribers that
return, an emit invokes the connections 0, 1 and 2, each once and in this order; with two
subscribers of which the first throws, an emit invokes the connection 0 only and ends with
the exception. -/
theorem service_fan_out_to_first_throw_witness :
    ((three_subscribers.1.emit three_subscribers.2 [Value.int 7]).2
        = (three_subscribers.2.slots three_subscribers.1.service).map
            (fun sl => (sl.connection, [Value.int 7]))
      ∧ ∀ what, (three_subscribers.1.emit three_subscribers.2 [Value.int 7]).1
          ≠ Ending.exception what)
    ∧ (three_subscribers.2.slots three_subscribers.1.service).map
          (fun sl => (sl.connection, [Value.int 7]))
        = [(0, [Value.int 7]), (1, [Value.int 7]), (2, [Value.int 7])]
    ∧ ((throwing_void_service.1.emit throwing_void_service.2 []).2 = [(0, [])]
      ∧ (throwing_void_service.1.emit throwing_void_service.2 []).1
        = Ending.exception "e") :=
  ⟨(service_fan_out_to_first_throw three_subscribers.2 three_subscribers.1 []
      [Value.int 7]).1
      (fun sl hsl => ⟨Value.unit, by
        simp [three_subscribers, Heap.connect_all, Heap.connect, Heap.slots, Heap.new_service,
          Heap.init] at hsl
        rcases hsl with e | e | e <;> rw [e] <;> rfl⟩),
    by decide,
    (service_fan_out_to_first_throw throwing_void_service.2 throwing_void_service.1 []
      []).2.1 [] ⟨0, fun _ => Reply.throws "e"⟩ [⟨1, void_callback.fn⟩] "e" rfl
      (fun sl hsl => by simp at hsl) rfl⟩

/-- C17, as stated: the service `Service<std::string>` named `"a"` has two subscribers; the
first throws and the last returns `"0"`.  An emit does not return the result of the
subscriber connected last: the exception of the first leaves the emit. -/
theorem emit_throws_with_subscribers :
    throwing_service.1.signature.result ≠ "void"
    ∧ (throwing_service.2.slots throwing_service.1.service).map (fun sl => sl.fn [])
      = [Reply.throws "e", Reply.value (Value.str "0")]
    ∧ (throwing_service.1.emit throwing_service.2 []).1 = Ending.exception "e"
    ∧ (throwing_service.1.emit throwing_service.2 []).1 ≠ Ending.returned (Value.str "0") := by
  decide

/-- C17, amended: for a service with a result type, an emit returns the result of the
subscriber in the last slot, which is the subscriber connected last, when there is a
subscriber and none throws; when a subscriber throws, the exception of the first that throws
leaves the emit, whatever the last subscriber returns; with no subscriber the optional of the
dispatcher is empty and the emit throws `boost::bad_optional_access` instead of
returning. -/
theorem emit_result_or_exception (h : Heap) (s : Service) (args : List Value)
    (hnonvoid : s.signature.result ≠ "void") :
    (∀ (front : List Slot) (last : Slot) (v : Value),
        h.slots s.service = front ++ [last] →
        (∀ sl ∈ front, ∃ u, sl.fn args = Reply.value u) →
        last.fn args = Reply.value v →
        (s.emit h args).1 = Ending.returned v)
    ∧ (∀ (fn : List Value → Reply) (v : Value), s.service < h.signals.length →
        (∀ sl ∈ h.slots s.service, ∃ u, sl.fn args = Reply.value u) →
        fn args = Reply.value v →
        (s.emit (h.connect s.service fn).2 args).1 = Ending.returned v)
    ∧ (∀ (front : List Slot) (thrower : Slot) (rest : List Slot) (what : String),
        h.slots s.service = front ++ thrower :: rest →
        (∀ sl ∈ front, ∃ u, sl.fn args = Reply.value u) →
        thrower.fn args = Reply.throws what →
        (s.emit h args).1 = Ending.exception what)
    ∧ (h.slots s.service = [] → (s.emit h args).1 = Ending.bad_optional_access) := by
  have hlast : ∀ (h' : Heap) (front : List Slot) (last : Slot) (v : Value),
      h'.slots s.service = front ++ [last] →
      (∀ sl ∈ front, ∃ u, sl.fn args = Reply.value u) →
      last.fn args = Reply.value v →
      (s.emit h' args).1 = Ending.returned v := by
    intro h' front last v hs hf hv
    have hl : ∀ sl ∈ h'.slots s.service, ∃ u, sl.fn args = Reply.value u := by
      intro sl hsl
      rw [hs] at hsl
      rcases List.mem_append.1 hsl with hx | hx
      · exact hf sl hx
      · simp only [List.mem_singleton] at hx
        subst hx
        exact ⟨v, hv⟩
    exact (Service.emit_returns h' s args hl).2.2.2 hnonvoid front last v hs hv
  refine ⟨hlast h, ?_, ?_, ?_⟩
  · intro fn v ha hl hv
    exact hlast (h.connect s.service fn).2 (h.slots s.service) ⟨h.connections, fn⟩ v
      (Heap.slots_connect h s.service fn ha) hl hv
  · intro front thrower rest what hs hf ht
    rw [Service.emit_throws h s args front thrower rest what hs hf ht]
  · intro hs
    have hl : ∀ sl ∈ h.slots s.service, ∃ u, sl.fn args = Reply.value u := by
      intro sl hsl
      rw [hs] at hsl
      simp at hsl
    exact (Service.emit_returns h s args hl).2.2.1 hnonvoid hs

/-- C17, amended, at the service `Service<std::string>` named `"config.test0"` on a new heap,
with one subscriber that returns `"0"` and with none, and at the service named `"a"` whose
first subscriber throws. -/
theorem emit_result_or_exception_witness :
    (Heap.init.new_service "config.test0".toList string_signature).1.signature.result ≠ "void"
    ∧ (Service.emit
          ((Heap.init.new_service "config.test0".toList string_signature).2.connect 0
            (fun _ => Reply.value (Value.str "0"))).2
          (Heap.init.new_service "config.test0".toList string_signature).1 []).1
        = Ending.returned (Value.str "0")
    ∧ (Service.emit (Heap.init.new_service "config.test0".toList string_signature).2
          (Heap.init.new_service "config.test0".toList string_signature).1 []).1
        = Ending.bad_optional_access
    ∧ throwing_service.1.signature.result ≠ "void"
    ∧ (throwing_service.1.emit throwing_service.2 []).1 = Ending.exception "e" :=
  ⟨by decide,
    (emit_result_or_exception
      (Heap.init.new_service "config.test0".toList string_signature).2
      (Heap.init.new_service "config.test0".toList string_signature).1 [] (by decide)).2.1
      (fun _ => Reply.value (Value.str "0")) (Value.str "0") (by decide)
      (fun sl hsl => by simp [Heap.slots, Heap.new_service, Heap.init] at hsl) rfl,
    (emit_result_or_exception
      (Heap.init.new_service "config.test0".toList string_signature).2
      (Heap.init.new_service "config.test0".toList string_signature).1 [] (by decide)).2.2.2
      rfl,
    by decide,
    (emit_result_or_exception throwing_service.2 throwing_service.1 [] (by decide)).2.2.1
      [] ⟨0, fun _ => Reply.throws "e"⟩ [⟨1, fun _ => Reply.value (Value.str "0")⟩] "e" rfl
      (fun sl hsl => by simp at hsl) rfl⟩

/-! ## The map `services_` and `get_service` -/

/-- What `get_service` does, by what is stored in `services_` under the name: it returns the
service stored there when that has the signature, throws `"Service does not exist."` exactly
when nothing is stored and `"Type mismatch."` exactly when a service of another signature is,
and leaves the broker as it is. -/
theorem ServiceBroker.get_service_stored (b : ServiceBroker) (name : Str)
    (signature : Signature) :
    (∀ s : Service, (b.get_service name signature).1 = Ending.returned s
        ↔ ServiceBroker.map_find name b.services_ = some s ∧ s.signature = signature)
    ∧ ((b.get_service name signature).1 = Ending.broker_error "Service does not exist."
        ↔ ServiceBroker.map_find name b.services_ = none)
    ∧ ((b.get_service name signature).1 = Ending.broker_error "Type mismatch."
        ↔ ∃ s : Service, ServiceBroker.map_find name b.services_ = some s
            ∧ s.signature ≠ signature)
    ∧ (b.get_service name signature).2 = b := by
  refine ⟨?_, ?_, ?_, ?_⟩
  · intro s
    unfold ServiceBroker.get_service
    cases hf : ServiceBroker.map_find name b.services_ with
    | none => simp
    | some s' =>
      by_cases hsig : s'.signature = signature
      · simp only [hsig, if_true, Ending.returned.injEq, Option.some.injEq]
        constructor
        · intro e; subst e; exact ⟨rfl, hsig⟩
        · intro e; exact e.1
      · simp only [hsig, if_false, Option.some.injEq]
        constructor
        · intro e; simp at e
        · intro e; rw [← e.1] at e; exact absurd e.2 hsig
  · unfold ServiceBroker.get_service
    cases hf : ServiceBroker.map_find name b.services_ with
    | none => simp
    | some s' => by_cases hsig : s'.signature = signature <;> simp [hsig]
  · unfold ServiceBroker.get_service
    cases hf : ServiceBroker.map_find name b.services_ with
    | none => simp
    | some s' => by_cases hsig : s'.signature = signature <;> simp [hsig]
  · unfold ServiceBroker.get_service
    cases hf : ServiceBroker.map_find name b.services_ with
    | none => rfl
    | some s' => by_cases hsig : s'.signature = signature <;> simp [hsig]

/-- C13: the services `Service<void>` named `"a"` and `"a.b"` are added to a new broker, in
this order, and both calls return; then `remove_service("a")` returns 1.  The directory has
no node left for `"a"` or `"a.b"` and lists no service, yet the entry of `"a.b"` is still in
`services_`: `get_service<void>("a.b")` returns the service that was added as `"a.b"` instead
of throwing `"Service does not exist."`, and `get_service<int>("a.b")` throws
`"Type mismatch."`.  At the broker of `TEST(ServiceBrokerTest, GetService)` the three cases
are as claimed. -/
theorem get_service_returns_removed_service (ndebug : Bool) :
    ServiceBroker.run ndebug ServiceBroker.init
        [BrokerCall.add_service nested_services.1, BrokerCall.add_service nested_services.2,
          BrokerCall.remove_service "a".toList]
      = some (nested_removed ndebug)
    ∧ (ServiceBroker.add_service ndebug ServiceBroker.init nested_services.1).1
      = Ending.returned ()
    ∧ (ServiceBroker.add_service ndebug
        (ServiceBroker.add_service ndebug ServiceBroker.init nested_services.1).2
        nested_services.2).1 = Ending.returned ()
    ∧ (ServiceBroker.remove_service ndebug
        (ServiceBroker.add_service ndebug
          (ServiceBroker.add_service ndebug ServiceBroker.init nested_services.1).2
          nested_services.2).2 "a".toList).1 = Ending.returned 1
    ∧ ServiceBroker.list_services (nested_removed ndebug) [] = []
    ∧ ServiceBroker.list_services (nested_removed ndebug) "a".toList = []
    ∧ ServiceBroker.list_services (nested_removed ndebug) "a.b".toList = []
    ∧ ServiceDirectory.node_type (nested_removed ndebug).service_directory_ "a".toList = none
    ∧ ServiceDirectory.node_type (nested_removed ndebug).service_directory_ "a.b".toList = none
    ∧ (nested_removed ndebug).services_ = [("a.b".toList, nested_services.2)]
    ∧ ((nested_removed ndebug).get_service "a.b".toList void_signature).1
      = Ending.returned nested_services.2
    ∧ ((nested_removed ndebug).get_service "a.b".toList int_signature).1
      = Ending.broker_error "Type mismatch."
    ∧ ((nested_removed ndebug).get_service "a".toList void_signature).1
      = Ending.broker_error "Service does not exist."
    ∧ ((ServiceBroker.add_service ndebug ServiceBroker.init test_service).2.get_service
          "test".toList ⟨"void", ["std::string"]⟩).1 = Ending.returned test_service
    ∧ ((ServiceBroker.add_service ndebug ServiceBroker.init test_service).2.get_service
          "test".toList void_signature).1 = Ending.broker_error "Type mismatch."
    ∧ ((ServiceBroker.add_service ndebug ServiceBroker.init test_service).2.get_service
          "other".toList void_signature).1
      = Ending.broker_error "Service does not exist." := by
  refine ⟨by cases ndebug <;> rfl, ?_⟩
  cases ndebug <;> decide

/-! ## `call` and `call_combine` -/

/-- C19: on a `Concat<A, A, B, C>`, four `put<0>` of a value with the key 1 push a tuple to
the output queue with the fourth call; the entry it is pushed from has the counts
`[4, 0, 0, 0]`, and the slots 1 to 3 of the tuple hold value-initialized elements that were
never assigned. -/
theorem concat_emits_unassigned_slots :
    (ConcatImpl.puts (Concat 4 Item.default_value Item.index)
        [(0, 0, ⟨"A", 1⟩), (1, 0, ⟨"A", 1⟩), (2, 0, ⟨"A", 1⟩)] ConcatImpl.init).output_queue_
      = []
    ∧ (ConcatImpl.entry_after_put (Concat 4 Item.default_value Item.index) 3 0 ⟨"A", 1⟩
        (ConcatImpl.puts (Concat 4 Item.default_value Item.index)
          [(0, 0, ⟨"A", 1⟩), (1, 0, ⟨"A", 1⟩), (2, 0, ⟨"A", 1⟩)] ConcatImpl.init)).counts
      = [4, 0, 0, 0]
    ∧ (Concat 4 Item.default_value Item.index).complete_function
        (ConcatImpl.entry_after_put (Concat 4 Item.default_value Item.index) 3 0 ⟨"A", 1⟩
          (ConcatImpl.puts (Concat 4 Item.default_value Item.index)
            [(0, 0, ⟨"A", 1⟩), (1, 0, ⟨"A", 1⟩), (2, 0, ⟨"A", 1⟩)] ConcatImpl.init))
      = true
    ∧ (ConcatImpl.puts (Concat 4 Item.default_value Item.index)
        [(0, 0, ⟨"A", 1⟩), (1, 0, ⟨"A", 1⟩), (2, 0, ⟨"A", 1⟩), (3, 0, ⟨"A", 1⟩)]
        ConcatImpl.init).output_queue_
      = [[⟨"A", 1⟩, ⟨"A", 0⟩, ⟨"B", 0⟩, ⟨"C", 0⟩]] := by
  decide

theorem foldl_add_init (l : List Int) (a : Int) :
    l.foldl (fun acc c => acc + c) a = a + l.foldl (fun acc c => acc + c) 0 := by
  induction l generalizing a with
  | nil => simp
  | cons x r ih =>
    simp only [List.foldl_cons]
    rw [ih (a + x), ih (0 + x)]
    omega

theorem foldl_add_set (l : List Int) :
    ∀ (i : Nat) (x : Int), i < l.length →
      (l.set i x).foldl (fun acc c => acc + c) 0
        = l.foldl (fun acc c => acc + c) 0 - l.getD i 0 + x := by
  induction l with
  | nil => intro i x h; simp at h
  | cons y r ih =>
    intro i x h
    cases i with
    | zero =>
      simp only [List.set_cons_zero, List.foldl_cons, List.getD_cons_zero]
      rw [foldl_add_init r (0 + x), foldl_add_init r (0 + y)]
      omega
    | succ n =>
      simp only [List.set_cons_succ, List.foldl_cons, List.getD_cons_succ]
      rw [foldl_add_init _ (0 + y), foldl_add_init r (0 + y),
        ih n x (by simpa using h)]
      omega

theorem map_range_set {α : Type} (n : Nat) (f : Nat → α) (i : Nat) (x : α) :
    ((List.range n).map f).set i x = (List.range n).map (fun j => if j = i then x else f j) := by
  apply List.ext_getElem?
  intro j
  rw [List.getElem?_set]
  by_cases hj : j < n
  · by_cases hij : i = j
    · subst hij
      simp [hj]
    · have hji : ¬ j = i := fun e => hij e.symm
      simp [hij, hji, hj, List.getElem?_range]
  · have hnone : (List.range n)[j]? = none :=
      List.getElem?_eq_none (by simpa using Nat.le_of_not_lt hj)
    by_cases hij : i = j
    · subst hij
      simp [hj, hnone]
    · simp [hij, hnone]

theorem getD_map_range {α : Type} (n : Nat) (f : Nat → α) (i : Nat) (d : α) (h : i < n) :
    ((List.range n).map f).getD i d = f i := by
  simp [List.getD_eq_getElem?_getD, List.getElem?_range, h]

theorem replicate_eq_map_range {α : Type} (n : Nat) (x : α) :
    List.replicate n x = (List.range n).map (fun _ => x) := by
  apply List.ext_getElem?
  intro j
  by_cases hj : j < n
  · simp [hj, List.getElem?_range, List.getElem?_replicate]
  · simp [hj, List.getElem?_range, List.getElem?_replicate]

/-- The counts of an entry that got one value in each of the slots `done`: their sum is the
number of these slots. -/
theorem foldl_add_indicator (n : Nat) :
    ∀ done : List Nat, done.Nodup → (∀ i ∈ done, i < n) →
      ((List.range n).map (fun j => if j ∈ done then (1 : Int) else 0)).foldl
        (fun acc c => acc + c) 0 = (done.length : Int) := by
  intro done
  induction done with
  | nil =>
    intro _ _
    have : ∀ l : List Nat, (l.map (fun _ => (0 : Int))).foldl (fun acc c => acc + c) 0 = 0 := by
      intro l
      induction l with
      | nil => rfl
      | cons x r ih => simpa using ih
    simpa using this (List.range n)
  | cons i done ih =>
    intro hnd hlt
    have hi : i ∉ done := (List.nodup_cons.1 hnd).1
    have hin : i < n := hlt i (by simp)
    have hrec := ih (List.nodup_cons.1 hnd).2 (fun j hj => hlt j (by simp [hj]))
    have hset : (List.range n).map (fun j => if j ∈ i :: done then (1 : Int) else 0)
        = ((List.range n).map (fun j => if j ∈ done then (1 : Int) else 0)).set i 1 := by
      rw [map_range_set]
      apply List.map_congr_left
      intro j _
      by_cases hji : j = i
      · simp [hji]
      · simp [hji]
    rw [hset, foldl_add_set _ i 1 (by simpa using hin), hrec,
      getD_map_range n _ i 0 hin]
    simp [hi]

theorem ConcatImpl.data_find_store {V : Type} (k : Int) (e : ConcatEntry V)
    (m : List (Int × ConcatEntry V)) :
    ConcatImpl.data_find k (ConcatImpl.data_store k e m) = some e := by
  induction m with
  | nil => simp [ConcatImpl.data_store, ConcatImpl.data_find]
  | cons x r ih =>
    obtain ⟨k', e'⟩ := x
    by_cases hk : k' = k
    · simp [ConcatImpl.data_store, ConcatImpl.data_find, hk]
    · simp [ConcatImpl.data_store, ConcatImpl.data_find, hk, ih]

theorem ConcatImpl.data_find_erase {V : Type} (k : Int) (m : List (Int × ConcatEntry V)) :
    ConcatImpl.data_find k (ConcatImpl.data_erase k m) = none := by
  induction m with
  | nil => simp [ConcatImpl.data_erase, ConcatImpl.data_find]
  | cons x r ih =>
    obtain ⟨k', e'⟩ := x
    by_cases hk : k' = k
    · simp [ConcatImpl.data_erase, hk, ih]
    · simp [ConcatImpl.data_erase, ConcatImpl.data_find, hk, ih]

theorem slot_counts_cons (n : Nat) (done : List Nat) (i : Nat) (hi : i ∉ done) (hin : i < n) :
    (slot_counts n done).set i (increment_short ((slot_counts n done).getD i 0))
      = slot_counts n (i :: done) := by
  unfold slot_counts
  rw [getD_map_range n _ i 0 hin, map_range_set]
  apply List.map_congr_left
  intro j _
  by_cases hji : j = i
  · simp [hji, hi, increment_short]
  · simp [hji]

theorem slot_values_cons {V : Type} (n : Nat) (dv value : Nat → V) (done : List Nat) (i : Nat)
    (x : V) :
    (slot_values n dv value done).set i (DefaultAssignment x (value i))
      = slot_values n dv value (i :: done) := by
  unfold slot_values
  rw [map_range_set]
  apply List.map_congr_left
  intro j _
  by_cases hji : j = i
  · simp [hji, DefaultAssignment]
  · simp [hji]

theorem Concat_narguments {V : Type} (n : Nat) (dv : Nat → V) (index : V → Int) :
    (Concat n dv index).narguments = n := rfl

theorem Concat_default_value {V : Type} (n : Nat) (dv : Nat → V) (index : V → Int) :
    (Concat n dv index).default_value = dv := rfl

theorem Concat_index_function {V : Type} (n : Nat) (dv : Nat → V) (index : V → Int) :
    (Concat n dv index).index_function = index := rfl

theorem Concat_assign_function {V : Type} (n : Nat) (dv : Nat → V) (index : V → Int) :
    (Concat n dv index).assign_function = DefaultAssignment := rfl

theorem Concat_complete_function {V : Type} (n : Nat) (dv : Nat → V) (index : V → Int) :
    (Concat n dv index).complete_function = DefaultCompleteCondition n := rfl

theorem Concat_erase_function {V : Type} (n : Nat) (dv : Nat → V) (index : V → Int) :
    (Concat n dv index).erase_function = DefaultCompleteCondition n := rfl

/-- One `put` of the value of a new slot `i` for the key `k`: while slots are missing it is
only stored, and with the last slot the tuple is pushed and the entry erased. -/
theorem ConcatImpl.put_slot {V : Type} (n : Nat) (dv : Nat → V) (index : V → Int) (k : Int)
    (queue : List (List V)) (value : Nat → V) (done : List Nat) (i now : Nat)
    (c : ConcatImpl V) (hn : n < 18446744073709551616)
    (hinv : ConcatImpl.collecting (Concat n dv index) k queue value done c)
    (hi : i ∉ done) (hin : i < n) (hnd : done.Nodup) (hlt : ∀ j ∈ done, j < n)
    (hle : done.length + 1 ≤ n) (hk : index (value i) = k) :
    (done.length + 1 < n →
        ConcatImpl.collecting (Concat n dv index) k queue value (i :: done)
          (ConcatImpl.put (Concat n dv index) now i (value i) c))
    ∧ (done.length + 1 = n →
        (ConcatImpl.put (Concat n dv index) now i (value i) c).output_queue_
            = queue ++ [slot_values n dv value (i :: done)]
        ∧ ConcatImpl.data_find k
            (ConcatImpl.put (Concat n dv index) now i (value i) c).data_ = none) := by
  obtain ⟨hq, he⟩ := hinv
  obtain ⟨hc, hv⟩ := he now
  simp only [Concat_narguments, Concat_default_value] at hc hv
  have hcounts : (ConcatImpl.entry_after_put (Concat n dv index) now i (value i) c).counts
      = slot_counts n (i :: done) := by
    simp only [ConcatImpl.entry_after_put, Concat_index_function, hk]
    rw [hc]
    exact slot_counts_cons n done i hi hin
  have hvalues : (ConcatImpl.entry_after_put (Concat n dv index) now i (value i) c).values
      = slot_values n dv value (i :: done) := by
    simp only [ConcatImpl.entry_after_put, Concat_index_function, Concat_assign_function, hk]
    rw [hv]
    exact slot_values_cons n dv value done i _
  have hsum : (slot_counts n (i :: done)).foldl (fun acc c => acc + c) 0
      = ((done.length + 1 : Nat) : Int) := by
    have := foldl_add_indicator n (i :: done) (List.nodup_cons.2 ⟨hi, hnd⟩)
      (by
        intro j hj
        rcases List.mem_cons.1 hj with rfl | hj'
        · exact hin
        · exact hlt j hj')
    simpa [slot_counts] using this
  have hcomplete : DefaultCompleteCondition n
      (ConcatImpl.entry_after_put (Concat n dv index) now i (value i) c)
      = decide (done.length + 1 = n) := by
    unfold DefaultCompleteCondition
    rw [hcounts, hsum]
    by_cases hd : done.length + 1 = n
    · simp only [hd, decide_True, decide_eq_true_eq]
      omega
    · simp only [hd, decide_False, decide_eq_false_iff_not]
      omega
  constructor
  · intro hless
    have hd : ¬ done.length + 1 = n := by omega
    refine ⟨?_, ?_⟩
    · simp only [ConcatImpl.put, Concat_complete_function, hcomplete, hd, decide_False]
      simpa using hq
    · intro now'
      have hfind : ConcatImpl.data_find k
          (ConcatImpl.put (Concat n dv index) now i (value i) c).data_
          = some (ConcatImpl.entry_after_put (Concat n dv index) now i (value i) c) := by
        simp only [ConcatImpl.put, Concat_erase_function, Concat_index_function, hcomplete,
          hd, decide_False, hk]
        simpa using ConcatImpl.data_find_store k _ c.data_
      rw [hfind]
      exact ⟨hcounts, hvalues⟩
  · intro hd
    refine ⟨?_, ?_⟩
    · simp only [ConcatImpl.put, Concat_complete_function, hcomplete, hd, decide_True, if_true]
      rw [hq, hvalues]
    · simp only [ConcatImpl.put, Concat_erase_function, Concat_index_function, hcomplete, hd,
        decide_True, if_true, hk]
      exact ConcatImpl.data_find_erase k c.data_

theorem ConcatImpl.puts_append {V : Type} (p : ConcatPolicies V) (l₁ l₂ : List (Nat × Nat × V))
    (c : ConcatImpl V) :
    ConcatImpl.puts p (l₁ ++ l₂) c = ConcatImpl.puts p l₂ (ConcatImpl.puts p l₁ c) := by
  induction l₁ generalizing c with
  | nil => rfl
  | cons x r ih =>
    obtain ⟨now, i, v⟩ := x
    simp only [List.cons_append, ConcatImpl.puts]
    exact ih _

/-- A store without an entry for the key `k` is collecting for `k` with no slot assigned. -/
theorem ConcatImpl.collecting_fresh {V : Type} (p : ConcatPolicies V) (k : Int)
    (value : Nat → V) (c : ConcatImpl V) (hfresh : ConcatImpl.data_find k c.data_ = none) :
    ConcatImpl.collecting p k c.output_queue_ value [] c := by
  refine ⟨rfl, ?_⟩
  intro now
  rw [hfresh]
  refine ⟨?_, ?_⟩
  · show List.replicate p.narguments (0 : Int) = slot_counts p.narguments []
    rw [replicate_eq_map_range]
    unfold slot_counts
    apply List.map_congr_left
    intro j _
    simp
  · show (List.range p.narguments).map p.default_value
        = slot_values p.narguments p.default_value value []
    unfold slot_values
    apply List.map_congr_left
    intro j _
    simp

/-- Values of the key `k` put into distinct new slots, fewer than all of them with the slots
already assigned: the output queue stays and the entry collects the values. -/
theorem ConcatImpl.puts_collecting {V : Type} (n : Nat) (dv : Nat → V) (index : V → Int)
    (k : Int) (queue : List (List V)) (value : Nat → V) (now : Nat → Nat)
    (hn : n < 18446744073709551616) (hk : ∀ i, i < n → index (value i) = k) :
    ∀ (l done : List Nat) (c : ConcatImpl V),
      ConcatImpl.collecting (Concat n dv index) k queue value done c →
      (l ++ done).Nodup → (∀ j ∈ l ++ done, j < n) → l.length + done.length < n →
      ConcatImpl.collecting (Concat n dv index) k queue value (l.reverse ++ done)
        (ConcatImpl.puts (Concat n dv index) (l.map (fun i => (now i, i, value i))) c) := by
  intro l
  induction l with
  | nil =>
    intro done c hinv _ _ _
    simpa [ConcatImpl.puts] using hinv
  | cons i l ih =>
    intro done c hinv hnd hlt hlen
    have hnd' : (i :: (l ++ done)).Nodup := by simpa using hnd
    obtain ⟨hi, hrest⟩ := List.nodup_cons.1 hnd'
    have hidone : i ∉ done := fun h => hi (List.mem_append_right l h)
    have hdone : done.Nodup := (List.nodup_append.1 hrest).2.1
    have hin : i < n := hlt i (by simp)
    have hltdone : ∀ j ∈ done, j < n := fun j hj => hlt j (by simp [hj])
    simp only [List.length_cons] at hlen
    have hstep := (ConcatImpl.put_slot n dv index k queue value done i (now i) c hn hinv hidone
      hin hdone hltdone (by omega) (hk i hin)).1 (by omega)
    have hnd2 : (l ++ i :: done).Nodup := by
      have hperm : (l ++ i :: done).Perm (i :: (l ++ done)) := List.perm_middle
      exact hperm.nodup_iff.2 hnd'
    have hlt2 : ∀ j ∈ l ++ i :: done, j < n := by
      intro j hj
      apply hlt j
      simp only [List.mem_append, List.mem_cons] at hj ⊢
      tauto
    have := ih (i :: done) _ hstep hnd2 hlt2 (by simp only [List.length_cons]; omega)
    simpa [ConcatImpl.puts] using this

/-- C20. For every `Concat` of `n` slots with the default policies (`1 ≤ n`, and `n` a
`std::size_t`), every key `k` and every order of the `n` slots (`order` is a permutation of
`0 .. n-1`): starting from a concatenator without an entry for `k`, putting one value of key
`k` into every slot in that order leaves the output queue as it was after each of the first
`n - 1` puts, so `try_get` returns nothing when the queue was empty, and the `n`-th put pushes
exactly one tuple, whose `i`-th element is the value put into slot `i`, and erases the entry
of `k`: with an empty queue before, `try_get` returns that tuple once and then nothing. -/
theorem concat_one_value_per_slot {V : Type} (n : Nat) (dv : Nat → V) (index : V → Int)
    (k : Int) (value : Nat → V) (now : Nat → Nat) (order : List Nat) (c : ConcatImpl V)
    (hpos : 0 < n) (hn : n < 18446744073709551616) (horder : order.Perm (List.range n))
    (hk : ∀ i, i < n → index (value i) = k)
    (hfresh : ConcatImpl.data_find k c.data_ = none) :
    (∀ j, j < n →
        (ConcatImpl.puts (Concat n dv index)
            ((order.take j).map (fun i => (now i, i, value i))) c).output_queue_
          = c.output_queue_
        ∧ (c.output_queue_ = [] →
            (ConcatImpl.try_get (ConcatImpl.puts (Concat n dv index)
              ((order.take j).map (fun i => (now i, i, value i))) c)).1 = none))
    ∧ (ConcatImpl.puts (Concat n dv index)
          (order.map (fun i => (now i, i, value i))) c).output_queue_
        = c.output_queue_ ++ [(List.range n).map value]
    ∧ ConcatImpl.data_find k (ConcatImpl.puts (Concat n dv index)
          (order.map (fun i => (now i, i, value i))) c).data_ = none
    ∧ (c.output_queue_ = [] →
        (ConcatImpl.try_get (ConcatImpl.puts (Concat n dv index)
            (order.map (fun i => (now i, i, value i))) c)).1 = some ((List.range n).map value)
        ∧ (ConcatImpl.try_get (ConcatImpl.try_get (ConcatImpl.puts (Concat n dv index)
            (order.map (fun i => (now i, i, value i))) c)).2).1 = none) := by
  have hlen : order.length = n := by simpa using horder.length_eq
  have hnodup : order.Nodup := horder.nodup_iff.2 (List.nodup_range n)
  have hmem : ∀ j, j ∈ order ↔ j < n := by
    intro j
    rw [horder.mem_iff, List.mem_range]
  have htake : ∀ j, j < n →
      ConcatImpl.collecting (Concat n dv index) k c.output_queue_ value
        ((order.take j).reverse ++ [])
        (ConcatImpl.puts (Concat n dv index)
          ((order.take j).map (fun i => (now i, i, value i))) c) := by
    intro j hj
    apply ConcatImpl.puts_collecting n dv index k c.output_queue_ value now hn hk
      (order.take j) [] c (ConcatImpl.collecting_fresh _ k value c hfresh)
    · simpa using hnodup.sublist (List.take_sublist j order)
    · intro i hi
      rw [List.append_nil] at hi
      exact (hmem i).1 (List.mem_of_mem_take hi)
    · simp only [List.length_take, List.length_nil]
      omega
  have hfirst : ∀ j, j < n →
      (ConcatImpl.puts (Concat n dv index)
          ((order.take j).map (fun i => (now i, i, value i))) c).output_queue_
        = c.output_queue_ := fun j hj => (htake j hj).1
  -- the last put
  have hsplit : order = order.take (n - 1) ++ [order.getD (n - 1) 0] := by
    have h1 : order = order.take (n - 1) ++ order.drop (n - 1) :=
      (List.take_append_drop (n - 1) order).symm
    have h2 : order.drop (n - 1) = [order.getD (n - 1) 0] := by
      have hlt : n - 1 < order.length := by omega
      rw [List.drop_eq_getElem_cons hlt]
      have : order.drop (n - 1 + 1) = [] := List.drop_eq_nil_of_le (by omega)
      rw [this, List.getD_eq_getElem order 0 hlt]
    rw [← h2]
    exact h1
  have hnd2 : (order.getD (n - 1) 0 :: (order.take (n - 1)).reverse).Nodup := by
    have hperm : (order.getD (n - 1) 0 :: (order.take (n - 1)).reverse).Perm order := by
      have h1 : (order.getD (n - 1) 0 :: (order.take (n - 1)).reverse).Perm
          (order.getD (n - 1) 0 :: order.take (n - 1)) :=
        List.Perm.cons _ (List.reverse_perm _)
      have h2 : (order.getD (n - 1) 0 :: order.take (n - 1)).Perm
          (order.take (n - 1) ++ [order.getD (n - 1) 0]) :=
        (List.perm_append_singleton _ _).symm
      have h3 := h1.trans h2
      rw [← hsplit] at h3
      exact h3
    exact hperm.nodup_iff.2 hnodup
  have hmem2 : ∀ j, j < n → j ∈ order.getD (n - 1) 0 :: (order.take (n - 1)).reverse := by
    intro j hj
    have : j ∈ order := (hmem j).2 hj
    rw [hsplit] at this
    simp only [List.mem_append, List.mem_singleton, List.mem_cons, List.mem_reverse] at this ⊢
    tauto
  have hlast := (ConcatImpl.put_slot n dv index k c.output_queue_ value
      ((order.take (n - 1)).reverse) (order.getD (n - 1) 0) (now (order.getD (n - 1) 0))
      (ConcatImpl.puts (Concat n dv index)
          ((order.take (n - 1)).map (fun i => (now i, i, value i))) c) hn
      (by simpa using htake (n - 1) (by omega))
      (List.nodup_cons.1 hnd2).1
      ((hmem _).1 (by
        rw [List.getD_eq_getElem order 0 (by omega)]
        exact List.getElem_mem _))
      (List.nodup_cons.1 hnd2).2
      (fun j hj => (hmem j).1 (List.mem_of_mem_take (List.mem_reverse.1 hj)))
      (by simp only [List.length_reverse, List.length_take]; omega)
      (hk _ ((hmem _).1 (by
        rw [List.getD_eq_getElem order 0 (by omega)]
        exact List.getElem_mem _)))).2
      (by simp only [List.length_reverse, List.length_take]; omega)
  have hall : ConcatImpl.puts (Concat n dv index)
      (order.map (fun i => (now i, i, value i))) c
      = ConcatImpl.put (Concat n dv index) (now (order.getD (n - 1) 0))
          (order.getD (n - 1) 0) (value (order.getD (n - 1) 0))
          (ConcatImpl.puts (Concat n dv index)
            ((order.take (n - 1)).map (fun i => (now i, i, value i))) c) := by
    conv_lhs => rw [hsplit]
    rw [List.map_append, ConcatImpl.puts_append]
    rfl
  have hvalues : slot_values n dv value
      (order.getD (n - 1) 0 :: (order.take (n - 1)).reverse) = (List.range n).map value := by
    unfold slot_values
    apply List.map_congr_left
    intro j hj
    rw [if_pos (hmem2 j (List.mem_range.1 hj))]
  have hqueue : (ConcatImpl.puts (Concat n dv index)
      (order.map (fun i => (now i, i, value i))) c).output_queue_
      = c.output_queue_ ++ [(List.range n).map value] := by
    rw [hall, hlast.1, hvalues]
  refine ⟨fun j hj => ⟨hfirst j hj, ?_⟩, hqueue, ?_, ?_⟩
  · intro hempty
    have := hfirst j hj
    rw [hempty] at this
    simp only [ConcatImpl.try_get, this]
  · rw [hall]
    exact hlast.2
  · intro hempty
    rw [hempty, List.nil_append] at hqueue
    simp only [ConcatImpl.try_get, hqueue]
    exact ⟨trivial, trivial⟩

/-- C20 at `TEST(ConcatTest, Concatenate)`: a new `Concat<A, A, B, C>` gets `put<0>(a1)`,
`put<1>(a2)`, `put(b)` and `put(c)`, all with `id` 1; `put(b)` and `put(c)` go to the slots 2
and 3; the queue is empty after the first three puts and holds the one tuple `(a1, a2, b, c)`
after the fourth. -/
theorem concat_one_value_per_slot_witness :
    (0 < 4 ∧ 4 < 18446744073709551616 ∧ [0, 1, 2, 3].Perm (List.range 4)
      ∧ (∀ i, i < 4 → Item.index (test_value i) = 1)
      ∧ ConcatImpl.data_find 1 (ConcatImpl.init : ConcatImpl Item).data_ = none)
    ∧ ((∀ j, j < 4 →
          (ConcatImpl.puts (Concat 4 Item.default_value Item.index)
              (([0, 1, 2, 3].take j).map (fun i => (0, i, test_value i)))
              ConcatImpl.init).output_queue_
            = (ConcatImpl.init : ConcatImpl Item).output_queue_
          ∧ ((ConcatImpl.init : ConcatImpl Item).output_queue_ = [] →
              (ConcatImpl.try_get (ConcatImpl.puts (Concat 4 Item.default_value Item.index)
                (([0, 1, 2, 3].take j).map (fun i => (0, i, test_value i)))
                ConcatImpl.init)).1 = none))
      ∧ (ConcatImpl.puts (Concat 4 Item.default_value Item.index)
            ([0, 1, 2, 3].map (fun i => (0, i, test_value i))) ConcatImpl.init).output_queue_
          = (ConcatImpl.init : ConcatImpl Item).output_queue_ ++ [(List.range 4).map test_value])
    ∧ (ConcatImpl.puts (Concat 4 Item.default_value Item.index)
          ([0, 1, 2, 3].map (fun i => (0, i, test_value i))) ConcatImpl.init).output_queue_
        = [[⟨"A", 1⟩, ⟨"A", 1⟩, ⟨"B", 1⟩, ⟨"C", 1⟩]]
    ∧ detail.type_occurences "B" test_types = 1
    ∧ detail.get_number_of_element_from_tuple_by_type_impl "B" 0 test_types = 2
    ∧ detail.type_occurences "C" test_types = 1
    ∧ detail.get_number_of_element_from_tuple_by_type_impl "C" 0 test_types = 3 :=
  ⟨⟨by decide, by decide, by decide, by decide, rfl⟩,
    ⟨(concat_one_value_per_slot 4 Item.default_value Item.index 1 test_value (fun _ => 0)
        [0, 1, 2, 3] ConcatImpl.init (by decide) (by decide) (by decide) (by decide) rfl).1,
      (concat_one_value_per_slot 4 Item.default_value Item.index 1 test_value (fun _ => 0)
        [0, 1, 2, 3] ConcatImpl.init (by decide) (by decide) (by decide) (by decide) rfl).2.1⟩,
    by decide, by decide, by decide, by decide, by decide⟩

/-! ## One `put` with the default policies -/

/-- What one `put` of `Concat` does, by the completion predicate on the entry after the
assignment: a complete entry is pushed and erased, any other is stored. -/
theorem ConcatImpl.put_cases {V : Type} (n : Nat) (dv : Nat → V) (index : V → Int)
    (now i : Nat) (v : V) (c : ConcatImpl V) :
    (DefaultCompleteCondition n (ConcatImpl.entry_after_put (Concat n dv index) now i v c) = true
      ∧ (ConcatImpl.put (Concat n dv index) now i v c).output_queue_
          = c.output_queue_ ++ [(ConcatImpl.entry_after_put (Concat n dv index) now i v c).values]
      ∧ (ConcatImpl.put (Concat n dv index) now i v c).data_
          = ConcatImpl.data_erase (index v) c.data_)
    ∨ (DefaultCompleteCondition n (ConcatImpl.entry_after_put (Concat n dv index) now i v c)
        = false
      ∧ (ConcatImpl.put (Concat n dv index) now i v c).output_queue_ = c.output_queue_
      ∧ (ConcatImpl.put (Concat n dv index) now i v c).data_
          = ConcatImpl.data_store (index v)
              (ConcatImpl.entry_after_put (Concat n dv index) now i v c) c.data_) := by
  cases h : DefaultCompleteCondition n
      (ConcatImpl.entry_after_put (Concat n dv index) now i v c) with
  | true =>
    left
    refine ⟨rfl, ?_, ?_⟩
    · simp only [ConcatImpl.put, Concat_complete_function, h, if_true]
    · simp only [ConcatImpl.put, Concat_erase_function, Concat_index_function, h, if_true]
  | false =>
    right
    refine ⟨rfl, ?_, ?_⟩
    · simp only [ConcatImpl.put, Concat_complete_function, h]
      simp
    · simp only [ConcatImpl.put, Concat_erase_function, Concat_index_function, h]
      simp

theorem ConcatImpl.pushed_cases {V : Type} (n : Nat) (dv : Nat → V) (index : V → Int)
    (now i : Nat) (v : V) (c : ConcatImpl V) :
    (ConcatImpl.pushed (Concat n dv index) now i v c
        = [(ConcatImpl.entry_after_put (Concat n dv index) now i v c).values]
      ∧ ConcatImpl.data_find (index v) (ConcatImpl.put (Concat n dv index) now i v c).data_
          = none)
    ∨ (ConcatImpl.pushed (Concat n dv index) now i v c = []
      ∧ ConcatImpl.data_find (index v) (ConcatImpl.put (Concat n dv index) now i v c).data_
          = some (ConcatImpl.entry_after_put (Concat n dv index) now i v c)) := by
  rcases ConcatImpl.put_cases n dv index now i v c with ⟨_, hq, hd⟩ | ⟨_, hq, hd⟩
  · left
    refine ⟨?_, ?_⟩
    · unfold ConcatImpl.pushed
      rw [hq]
      simp
    · rw [hd]
      exact ConcatImpl.data_find_erase _ _
  · right
    refine ⟨?_, ?_⟩
    · unfold ConcatImpl.pushed
      rw [hq]
      simp
    · rw [hd]
      exact ConcatImpl.data_find_store _ _ _

theorem ConcatImpl.pushed_for_append {V : Type} (p : ConcatPolicies V) (k : Int)
    (l₁ l₂ : List (Nat × Nat × V)) (c : ConcatImpl V) :
    ConcatImpl.pushed_for p k (l₁ ++ l₂) c
      = ConcatImpl.pushed_for p k l₁ c
        ++ ConcatImpl.pushed_for p k l₂ (ConcatImpl.puts p l₁ c) := by
  induction l₁ generalizing c with
  | nil => rfl
  | cons x rest ih =>
    obtain ⟨now, i, v⟩ := x
    show _ ++ ConcatImpl.pushed_for p k (rest ++ l₂) (ConcatImpl.put p now i v c) = _
    rw [ih]
    simp only [ConcatImpl.pushed_for, ConcatImpl.puts, List.append_assoc]

/-- In every sequence of puts the tuples pushed for a key are as many as the erasures of the
entry of the key. -/
theorem ConcatImpl.pushed_for_length {V : Type} (n : Nat) (dv : Nat → V) (index : V → Int)
    (k : Int) (calls : List (Nat × Nat × V)) (c : ConcatImpl V) :
    (ConcatImpl.pushed_for (Concat n dv index) k calls c).length
      = ConcatImpl.erasures_for (Concat n dv index) k calls c := by
  induction calls generalizing c with
  | nil => rfl
  | cons x rest ih =>
    obtain ⟨now', i', v'⟩ := x
    simp only [ConcatImpl.pushed_for, ConcatImpl.erasures_for, List.length_append,
      Concat_index_function]
    rw [ih]
    congr 1
    by_cases hk : index v' = k
    · subst hk
      rcases ConcatImpl.pushed_cases n dv index now' i' v' c with ⟨hp, hf⟩ | ⟨hp, hf⟩
      · simp [hp, hf]
      · simp [hp, hf]
    · simp [hk]

/-- C21: with the default policies every `put` pushes at most one tuple, the values of the
entry it worked on; it pushes exactly when it erases the entry of the key (the entry is gone
after the put), and it pushes nothing exactly when it leaves the entry in the store.  So in
every sequence of puts the tuples pushed for a key `k` are as many as the erasures of the
entry of `k`; and when the puts `body` erase no entry of `k` and the put after them, of a value
with the key `k`, does, then exactly one tuple for `k` is pushed in all these puts, by the
last one: one for each life of an entry, and none twice. -/
theorem concat_put_pushes_iff_erases {V : Type} (n : Nat) (dv : Nat → V) (index : V → Int)
    (now i : Nat) (v : V) (c : ConcatImpl V) (k : Int) (calls : List (Nat × Nat × V)) :
    (ConcatImpl.put (Concat n dv index) now i v c).output_queue_
        = c.output_queue_ ++ ConcatImpl.pushed (Concat n dv index) now i v c
    ∧ (ConcatImpl.pushed (Concat n dv index) now i v c = []
        ∨ ConcatImpl.pushed (Concat n dv index) now i v c
            = [(ConcatImpl.entry_after_put (Concat n dv index) now i v c).values])
    ∧ ((ConcatImpl.pushed (Concat n dv index) now i v c).length = 1
        ↔ ConcatImpl.data_find (index v)
            (ConcatImpl.put (Concat n dv index) now i v c).data_ = none)
    ∧ (ConcatImpl.pushed (Concat n dv index) now i v c = []
        ↔ ConcatImpl.data_find (index v) (ConcatImpl.put (Concat n dv index) now i v c).data_
            = some (ConcatImpl.entry_after_put (Concat n dv index) now i v c))
    ∧ (ConcatImpl.pushed_for (Concat n dv index) k calls c).length
        = ConcatImpl.erasures_for (Concat n dv index) k calls c
    ∧ (index v = k →
        ConcatImpl.erasures_for (Concat n dv index) k calls c = 0 →
        ConcatImpl.data_find k (ConcatImpl.put (Concat n dv index) now i v
          (ConcatImpl.puts (Concat n dv index) calls c)).data_ = none →
        ConcatImpl.pushed_for (Concat n dv index) k (calls ++ [(now, i, v)]) c
          = [(ConcatImpl.entry_after_put (Concat n dv index) now i v
              (ConcatImpl.puts (Concat n dv index) calls c)).values]) := by
  refine ⟨?_, ?_, ?_, ?_, ConcatImpl.pushed_for_length n dv index k calls c, ?_⟩
  · rcases ConcatImpl.put_cases n dv index now i v c with ⟨_, hq, _⟩ | ⟨_, hq, _⟩
    · unfold ConcatImpl.pushed
      rw [hq]
      simp
    · unfold ConcatImpl.pushed
      rw [hq]
      simp
  · rcases ConcatImpl.pushed_cases n dv index now i v c with ⟨hp, _⟩ | ⟨hp, _⟩
    · exact Or.inr hp
    · exact Or.inl hp
  · rcases ConcatImpl.pushed_cases n dv index now i v c with ⟨hp, hf⟩ | ⟨hp, hf⟩
    · rw [hp, hf]
      simp
    · rw [hp, hf]
      simp
  · rcases ConcatImpl.pushed_cases n dv index now i v c with ⟨hp, hf⟩ | ⟨hp, hf⟩
    · rw [hp, hf]
      simp
    · rw [hp, hf]
      simp
  · intro hk hnone hgone
    have hbody : ConcatImpl.pushed_for (Concat n dv index) k calls c = [] := by
      apply List.eq_nil_of_length_eq_zero
      rw [ConcatImpl.pushed_for_length, hnone]
    rw [ConcatImpl.pushed_for_append, hbody, List.nil_append]
    simp only [ConcatImpl.pushed_for, Concat_index_function, hk, if_true, List.append_nil]
    rcases ConcatImpl.pushed_cases n dv index now i v
        (ConcatImpl.puts (Concat n dv index) calls c) with ⟨hp, _⟩ | ⟨_, hf⟩
    · exact hp
    · rw [hk, hgone] at hf
      exact absurd hf (by simp)

/-! ## Values of several keys, interleaved -/

theorem ConcatImpl.data_find_store_ne {V : Type} (k k' : Int) (e : ConcatEntry V)
    (m : List (Int × ConcatEntry V)) (h : k ≠ k') :
    ConcatImpl.data_find k' (ConcatImpl.data_store k e m) = ConcatImpl.data_find k' m := by
  induction m with
  | nil => simp [ConcatImpl.data_store, ConcatImpl.data_find, h]
  | cons x r ih =>
    obtain ⟨a, b⟩ := x
    by_cases ha : a = k
    · subst ha
      simp [ConcatImpl.data_store, ConcatImpl.data_find, h]
    · by_cases ha' : a = k'
      · subst ha'
        simp [ConcatImpl.data_store, ConcatImpl.data_find, ha]
      · simp [ConcatImpl.data_store, ConcatImpl.data_find, ha, ha', ih]

theorem ConcatImpl.data_find_erase_ne {V : Type} (k k' : Int)
    (m : List (Int × ConcatEntry V)) (h : k ≠ k') :
    ConcatImpl.data_find k' (ConcatImpl.data_erase k m) = ConcatImpl.data_find k' m := by
  induction m with
  | nil => simp [ConcatImpl.data_erase, ConcatImpl.data_find]
  | cons x r ih =>
    obtain ⟨a, b⟩ := x
    by_cases ha : a = k
    · subst ha
      simp [ConcatImpl.data_erase, ConcatImpl.data_find, h, ih]
    · by_cases ha' : a = k'
      · subst ha'
        simp [ConcatImpl.data_erase, ConcatImpl.data_find, ha]
      · simp [ConcatImpl.data_erase, ConcatImpl.data_find, ha, ha', ih]

/-- A `put` of a value with another key leaves the entry of a key as it is. -/
theorem ConcatImpl.data_find_put_ne {V : Type} (n : Nat) (dv : Nat → V) (index : V → Int)
    (now i : Nat) (v : V) (c : ConcatImpl V) (k' : Int) (h : index v ≠ k') :
    ConcatImpl.data_find k' (ConcatImpl.put (Concat n dv index) now i v c).data_
      = ConcatImpl.data_find k' c.data_ := by
  rcases ConcatImpl.put_cases n dv index now i v c with ⟨_, _, hd⟩ | ⟨_, _, hd⟩
  · rw [hd]
    exact ConcatImpl.data_find_erase_ne _ _ _ h
  · rw [hd]
    exact ConcatImpl.data_find_store_ne _ _ _ _ h

theorem mem_slots_of (k : Int) (i : Nat) (hist : List (Int × Nat)) :
    i ∈ slots_of k hist ↔ (k, i) ∈ hist := by
  unfold slots_of
  simp only [List.mem_map, List.mem_filter, decide_eq_true_eq]
  constructor
  · rintro ⟨⟨a, b⟩, ⟨hm, ha⟩, hb⟩
    simp only at ha hb
    subst ha
    subst hb
    exact hm
  · intro h
    exact ⟨(k, i), ⟨h, rfl⟩, rfl⟩

theorem slots_of_cons_self (k : Int) (i : Nat) (hist : List (Int × Nat)) :
    slots_of k ((k, i) :: hist) = i :: slots_of k hist := by
  simp [slots_of]

theorem slots_of_cons_ne (k k' : Int) (i : Nat) (hist : List (Int × Nat)) (h : k ≠ k') :
    slots_of k' ((k, i) :: hist) = slots_of k' hist := by
  simp [slots_of, h]

theorem slots_of_nodup (k : Int) (hist : List (Int × Nat)) (h : hist.Nodup) :
    (slots_of k hist).Nodup := by
  induction hist with
  | nil => simp [slots_of]
  | cons q r ih =>
    obtain ⟨a, b⟩ := q
    obtain ⟨hq, hr⟩ := List.nodup_cons.1 h
    by_cases ha : a = k
    · subst ha
      rw [slots_of_cons_self]
      exact List.nodup_cons.2 ⟨fun hb => hq ((mem_slots_of a b r).1 hb), ih hr⟩
    · rw [slots_of_cons_ne a k b r ha]
      exact ih hr

theorem slots_of_perm (k : Int) (l₁ l₂ : List (Int × Nat)) (h : l₁.Perm l₂) :
    (slots_of k l₁).Perm (slots_of k l₂) :=
  (h.filter _).map _

/-- Distinct numbers below `n` are at most `n`, and when they are `n` they are all of them. -/
theorem nodup_below (n : Nat) (l : List Nat) (hnd : l.Nodup) (hlt : ∀ j ∈ l, j < n) :
    l.length ≤ n ∧ (l.length = n → ∀ j, j < n → j ∈ l) := by
  have hsub : l ⊆ List.range n := fun j hj => List.mem_range.2 (hlt j hj)
  have hsp : l.Subperm (List.range n) := List.subperm_of_subset hnd hsub
  have hle : l.length ≤ n := by simpa using hsp.length_le
  refine ⟨hle, ?_⟩
  intro hlen j hj
  have hperm : l.Perm (List.range n) := hsp.perm_of_length_le (by simp [hlen])
  exact hperm.mem_iff.2 (List.mem_range.2 hj)

/-- One `put` of a new value of one of the keys keeps the state `joining`. -/
theorem ConcatImpl.joining_put {V : Type} (n : Nat) (dv : Nat → V) (index : V → Int)
    (keys : List Int) (queue : List (List V)) (value : Int → Nat → V)
    (hist : List (Int × Nat)) (c : ConcatImpl V) (k : Int) (i now : Nat)
    (hn : n < 18446744073709551616)
    (hk : ∀ k i, index (value k i) = k)
    (hinv : ConcatImpl.joining (Concat n dv index) keys queue value hist c)
    (hnd : ((k, i) :: hist).Nodup) (hlt : ∀ q ∈ (k, i) :: hist, q.2 < n) (hkey : k ∈ keys) :
    ConcatImpl.joining (Concat n dv index) keys queue value ((k, i) :: hist)
      (ConcatImpl.put (Concat n dv index) now i (value k i) c) := by
  obtain ⟨hq, hkeys⟩ := hinv
  simp only [Concat_narguments] at hq hkeys
  obtain ⟨hnew, hhist⟩ := List.nodup_cons.1 hnd
  have hi : i ∉ slots_of k hist := fun h => hnew ((mem_slots_of k i hist).1 h)
  have hin : i < n := hlt (k, i) (by simp)
  have hdn : (slots_of k hist).Nodup := slots_of_nodup k hist hhist
  have hdl : ∀ j ∈ slots_of k hist, j < n := fun j hj =>
    hlt (k, j) (List.mem_cons_of_mem _ ((mem_slots_of k j hist).1 hj))
  have hfull := nodup_below n (i :: slots_of k hist) (List.nodup_cons.2 ⟨hi, hdn⟩)
    (by
      intro j hj
      rcases List.mem_cons.1 hj with rfl | hj'
      · exact hin
      · exact hdl j hj')
  have hle : (slots_of k hist).length + 1 ≤ n := by simpa using hfull.1
  have hstep := ConcatImpl.put_slot n dv index k c.output_queue_ (value k) (slots_of k hist) i
    now c hn ((hkeys k hkey).1 (by omega)) hi hin hdn hdl hle (hk k i)
  have hother : ∀ k', k' ≠ k →
      ConcatImpl.data_find k' (ConcatImpl.put (Concat n dv index) now i (value k i) c).data_
        = ConcatImpl.data_find k' c.data_ := by
    intro k' hne
    apply ConcatImpl.data_find_put_ne
    rw [hk k i]
    exact fun h => hne h.symm
  by_cases hlast : (slots_of k hist).length + 1 = n
  · -- the last value of the key
    obtain ⟨hqueue, hgone⟩ := hstep.2 hlast
    have hvalues : slot_values n dv (value k) (i :: slots_of k hist)
        = (List.range n).map (value k) := by
      unfold slot_values
      apply List.map_congr_left
      intro j hj
      rw [if_pos (hfull.2 (by simpa using hlast) j (List.mem_range.1 hj))]
    refine ⟨?_, ?_⟩
    · simp only [Concat_narguments, completions, hlast, if_true, List.map_append,
        List.map_cons, List.map_nil]
      rw [hqueue, hq, hvalues, List.append_assoc]
    · intro k' hk'
      simp only [Concat_narguments]
      by_cases hkk : k' = k
      · subst hkk
        rw [slots_of_cons_self]
        refine ⟨?_, fun _ => hgone⟩
        intro hless
        simp only [List.length_cons] at hless
        omega
      · rw [slots_of_cons_ne k k' i hist (fun h => hkk h.symm)]
        refine ⟨?_, ?_⟩
        · intro hless
          obtain ⟨_, he⟩ := (hkeys k' hk').1 hless
          refine ⟨rfl, ?_⟩
          intro now'
          rw [hother k' hkk]
          exact he now'
        · intro hall
          rw [hother k' hkk]
          exact (hkeys k' hk').2 hall
  · -- values of the key are still missing
    obtain ⟨hqueue, he⟩ := hstep.1 (by omega)
    refine ⟨?_, ?_⟩
    · simp only [Concat_narguments, completions, hlast, if_false, List.append_nil]
      rw [hqueue, hq]
    · intro k' hk'
      simp only [Concat_narguments]
      by_cases hkk : k' = k
      · subst hkk
        rw [slots_of_cons_self]
        refine ⟨fun _ => ⟨rfl, he⟩, ?_⟩
        intro hall
        simp only [List.length_cons] at hall
        omega
      · rw [slots_of_cons_ne k k' i hist (fun h => hkk h.symm)]
        refine ⟨?_, ?_⟩
        · intro hless
          obtain ⟨_, he'⟩ := (hkeys k' hk').1 hless
          refine ⟨rfl, ?_⟩
          intro now'
          rw [hother k' hkk]
          exact he' now'
        · intro hall
          rw [hother k' hkk]
          exact (hkeys k' hk').2 hall

/-- A sequence of puts of new values of the keys keeps the state `joining`. -/
theorem ConcatImpl.puts_joining {V : Type} (n : Nat) (dv : Nat → V) (index : V → Int)
    (keys : List Int) (queue : List (List V)) (value : Int → Nat → V)
    (now : Int × Nat → Nat) (hn : n < 18446744073709551616)
    (hk : ∀ k i, index (value k i) = k) :
    ∀ (rest hist : List (Int × Nat)) (c : ConcatImpl V),
      ConcatImpl.joining (Concat n dv index) keys queue value hist c →
      (rest.reverse ++ hist).Nodup →
      (∀ q ∈ rest.reverse ++ hist, q.2 < n ∧ q.1 ∈ keys) →
      ConcatImpl.joining (Concat n dv index) keys queue value (rest.reverse ++ hist)
        (ConcatImpl.puts (Concat n dv index)
          (rest.map (fun q => (now q, q.2, value q.1 q.2))) c) := by
  intro rest
  induction rest with
  | nil =>
    intro hist c hinv _ _
    simpa [ConcatImpl.puts] using hinv
  | cons q rest ih =>
    intro hist c hinv hnd hlt
    obtain ⟨k, i⟩ := q
    have heq : (((k, i) :: rest).reverse ++ hist) = rest.reverse ++ ((k, i) :: hist) := by
      simp
    rw [heq] at hnd hlt ⊢
    have hnd' : ((k, i) :: hist).Nodup := (List.nodup_append.1 hnd).2.1
    have hlt' : ∀ q ∈ (k, i) :: hist, q.2 < n := fun q hq =>
      (hlt q (List.mem_append_right _ hq)).1
    have hkey : k ∈ keys := (hlt (k, i) (List.mem_append_right _ (by simp))).2
    have hstep := ConcatImpl.joining_put n dv index keys queue value hist c k i (now (k, i))
      hn hk hinv hnd' hlt' hkey
    have := ih ((k, i) :: hist) _ hstep hnd hlt
    simpa [ConcatImpl.puts] using this

theorem count_completions (n : Nat) (hn : 0 < n) (k : Int) (hist : List (Int × Nat)) :
    (completions n hist).count k = if n ≤ (slots_of k hist).length then 1 else 0 := by
  induction hist with
  | nil =>
    have : ¬ n ≤ 0 := by omega
    simp [completions, slots_of, this]
  | cons q older ih =>
    obtain ⟨a, b⟩ := q
    simp only [completions, List.count_append, ih]
    by_cases ha : a = k
    · subst ha
      rw [slots_of_cons_self]
      by_cases h1 : (slots_of a older).length + 1 = n
      · have h2 : ¬ n ≤ (slots_of a older).length := by omega
        have h3 : n ≤ (slots_of a older).length + 1 := by omega
        simp [h1, h2]
      · by_cases h2 : n ≤ (slots_of a older).length
        · have h3 : n ≤ (slots_of a older).length + 1 := by omega
          simp [h1, h2, h3]
        · have h3 : ¬ n ≤ (slots_of a older).length + 1 := by omega
          simp [h1, h2, h3]
    · rw [slots_of_cons_ne a k b older ha]
      by_cases h1 : (slots_of a older).length + 1 = n
      · simp [h1, List.count_cons, ha]
      · simp [h1]

theorem slots_of_map_mk (k a : Int) (l : List Nat) :
    slots_of k (l.map (fun b => (a, b))) = if a = k then l else [] := by
  unfold slots_of
  by_cases h : a = k
  · subst h
    simp [List.filter_map, Function.comp_def]
  · simp [List.filter_map, Function.comp_def, h]

theorem slots_of_append (k : Int) (l₁ l₂ : List (Int × Nat)) :
    slots_of k (l₁ ++ l₂) = slots_of k l₁ ++ slots_of k l₂ := by
  simp [slots_of]

theorem slots_of_product (k : Int) (l : List Nat) (keys : List Int) (hkeys : keys.Nodup) :
    slots_of k (List.product keys l) = if k ∈ keys then l else [] := by
  induction keys with
  | nil => simp [slots_of]
  | cons a r ih =>
    obtain ⟨ha, hr⟩ := List.nodup_cons.1 hkeys
    have hp : List.product (a :: r) l = l.map (fun b => (a, b)) ++ List.product r l :=
      List.product_cons a r l
    rw [hp, slots_of_append, slots_of_map_mk, ih hr]
    by_cases hak : a = k
    · subst hak
      simp [ha]
    · have : ¬ k = a := fun h => hak h.symm
      simp [hak, this]

/-- The keys that got all `n` values when every key of `keys` got one value for every slot,
in any order: every key once. -/
theorem completions_perm (n : Nat) (hn : 0 < n) (keys : List Int) (hkeys : keys.Nodup)
    (hist : List (Int × Nat)) (hhist : hist.Perm (List.product keys (List.range n))) :
    (completions n hist).Perm keys := by
  rw [List.perm_iff_count]
  intro k
  rw [count_completions n hn k hist]
  have hlen : (slots_of k hist).length = if k ∈ keys then n else 0 := by
    rw [(slots_of_perm k _ _ hhist).length_eq, slots_of_product k _ keys hkeys]
    by_cases hk : k ∈ keys
    · simp [hk]
    · simp [hk]
  rw [hlen]
  by_cases hk : k ∈ keys
  · simp [hk, List.count_eq_one_of_mem hkeys hk]
  · have : ¬ n ≤ 0 := by omega
    simp [hk, this, List.count_eq_zero_of_not_mem hk]

/-- Values of several keys, one for every slot of every key, put in any order into a
concatenator without entries for the keys: the output queue gets one tuple for every key,
made of the values of the key, and the entries of the keys are gone. -/
theorem ConcatImpl.puts_interleaved {V : Type} (n : Nat) (dv : Nat → V) (index : V → Int)
    (keys : List Int) (value : Int → Nat → V) (now : Int × Nat → Nat)
    (order : List (Int × Nat)) (c : ConcatImpl V)
    (hpos : 0 < n) (hn : n < 18446744073709551616)
    (hk : ∀ k i, index (value k i) = k) (hkeys : keys.Nodup)
    (horder : order.Perm (List.product keys (List.range n)))
    (hfresh : ∀ k ∈ keys, ConcatImpl.data_find k c.data_ = none) :
    (ConcatImpl.puts (Concat n dv index)
        (order.map (fun q => (now q, q.2, value q.1 q.2))) c).output_queue_
      = c.output_queue_ ++ (completions n order.reverse).map
          (fun k => (List.range n).map (value k))
    ∧ (completions n order.reverse).Perm keys
    ∧ ∀ k ∈ keys, ConcatImpl.data_find k (ConcatImpl.puts (Concat n dv index)
        (order.map (fun q => (now q, q.2, value q.1 q.2))) c).data_ = none := by
  have hinit : ConcatImpl.joining (Concat n dv index) keys c.output_queue_ value [] c := by
    refine ⟨by simp [completions], ?_⟩
    intro k hkk
    exact ⟨fun _ => ConcatImpl.collecting_fresh _ k (value k) c (hfresh k hkk),
      fun _ => hfresh k hkk⟩
  have hnd : order.Nodup :=
    horder.nodup_iff.2 (List.Nodup.product hkeys (List.nodup_range n))
  have hmem : ∀ q ∈ order, q.2 < n ∧ q.1 ∈ keys := by
    intro q hq
    have := horder.mem_iff.1 hq
    obtain ⟨a, b⟩ := q
    have h2 : a ∈ keys ∧ b ∈ List.range n := List.mem_product.1 this
    exact ⟨List.mem_range.1 h2.2, h2.1⟩
  have hfinal := ConcatImpl.puts_joining n dv index keys c.output_queue_ value now hn hk
    order [] c hinit (by simpa using hnd) (by
      intro q hq
      apply hmem q
      simpa using hq)
  rw [List.append_nil] at hfinal
  have hrev : order.reverse.Perm (List.product keys (List.range n)) :=
    (List.reverse_perm order).trans horder
  obtain ⟨hq, hkeys'⟩ := hfinal
  simp only [Concat_narguments] at hq hkeys'
  refine ⟨hq, completions_perm n hpos keys hkeys _ hrev, ?_⟩
  intro k hkk
  apply (hkeys' k hkk).2
  rw [(slots_of_perm k _ _ hrev).length_eq, slots_of_product k _ keys hkeys]
  simp [hkk]

/-- C22: on a new `Concat<A, A, B, C>`, let every key of a finite set of keys get exactly one
value in each of the four slots, the `id` of every value being its key, the puts coming in any
serialized order.  Then the tuples in the output queue are, for every key exactly one, the
tuple of the four values of that key (in the order in which the keys got their last value),
so every tuple has the same `id` in all four elements; and no entry of a key is left. -/
theorem concat_interleaved_one_tuple_per_key (keys : List Int) (order : List (Int × Nat))
    (now : Int × Nat → Nat) (hkeys : keys.Nodup)
    (horder : order.Perm (List.product keys (List.range 4))) :
    (ConcatImpl.puts (Concat 4 Item.default_value Item.index)
        (order.map (fun q => (now q, q.2, test_item q.1 q.2))) ConcatImpl.init).output_queue_
      = (completions 4 order.reverse).map
          (fun k => [⟨"A", k⟩, ⟨"A", k⟩, ⟨"B", k⟩, ⟨"C", k⟩])
    ∧ (completions 4 order.reverse).Perm keys
    ∧ ((ConcatImpl.puts (Concat 4 Item.default_value Item.index)
        (order.map (fun q => (now q, q.2, test_item q.1 q.2))) ConcatImpl.init).output_queue_).Perm
        (keys.map (fun k => [⟨"A", k⟩, ⟨"A", k⟩, ⟨"B", k⟩, ⟨"C", k⟩]))
    ∧ (∀ t ∈ (ConcatImpl.puts (Concat 4 Item.default_value Item.index)
        (order.map (fun q => (now q, q.2, test_item q.1 q.2))) ConcatImpl.init).output_queue_,
        ∃ k ∈ keys, t = [⟨"A", k⟩, ⟨"A", k⟩, ⟨"B", k⟩, ⟨"C", k⟩]
          ∧ ∀ x ∈ t, x.id = k)
    ∧ ∀ k ∈ keys, ConcatImpl.data_find k (ConcatImpl.puts (Concat 4 Item.default_value
        Item.index) (order.map (fun q => (now q, q.2, test_item q.1 q.2)))
        ConcatImpl.init).data_ = none := by
  obtain ⟨hq, hperm, hgone⟩ := ConcatImpl.puts_interleaved 4 Item.default_value Item.index keys
    test_item now order ConcatImpl.init (by decide) (by decide) (fun _ _ => rfl) hkeys horder
    (fun _ _ => rfl)
  have htuple : (fun k => (List.range 4).map (test_item k))
      = (fun k => ([⟨"A", k⟩, ⟨"A", k⟩, ⟨"B", k⟩, ⟨"C", k⟩] : List Item)) := by
    funext k
    rfl
  have hq' : (ConcatImpl.puts (Concat 4 Item.default_value Item.index)
        (order.map (fun q => (now q, q.2, test_item q.1 q.2))) ConcatImpl.init).output_queue_
      = (completions 4 order.reverse).map
          (fun k => ([⟨"A", k⟩, ⟨"A", k⟩, ⟨"B", k⟩, ⟨"C", k⟩] : List Item)) := by
    rw [hq, htuple]
    rfl
  refine ⟨hq', hperm, ?_, ?_, hgone⟩
  · rw [hq']
    exact hperm.map _
  · intro t ht
    rw [hq'] at ht
    obtain ⟨k, hk, rfl⟩ := List.mem_map.1 ht
    refine ⟨k, hperm.mem_iff.1 hk, rfl, ?_⟩
    intro x hx
    simp only [List.mem_cons, List.mem_singleton, List.not_mem_nil, or_false] at hx
    rcases hx with rfl | rfl | rfl | rfl <;> rfl

/-- C22 at two keys: the values of the keys 7 and 8 come interleaved, those of 8 complete
first; the output queue holds the tuple of 8 and then the tuple of 7. -/
theorem concat_interleaved_one_tuple_per_key_witness :
    ([7, 8] : List Int).Nodup
    ∧ ([(7, 0), (8, 3), (8, 0), (7, 2), (8, 1), (8, 2), (7, 3), (7, 1)] : List (Int × Nat)).Perm
        (List.product [7, 8] (List.range 4))
    ∧ (ConcatImpl.puts (Concat 4 Item.default_value Item.index)
        (([(7, 0), (8, 3), (8, 0), (7, 2), (8, 1), (8, 2), (7, 3), (7, 1)] :
            List (Int × Nat)).map (fun q => (0, q.2, test_item q.1 q.2)))
        ConcatImpl.init).output_queue_
      = (completions 4
          ([(7, 0), (8, 3), (8, 0), (7, 2), (8, 1), (8, 2), (7, 3), (7, 1)] :
            List (Int × Nat)).reverse).map
          (fun k => [⟨"A", k⟩, ⟨"A", k⟩, ⟨"B", k⟩, ⟨"C", k⟩])
    ∧ (ConcatImpl.puts (Concat 4 Item.default_value Item.index)
        (([(7, 0), (8, 3), (8, 0), (7, 2), (8, 1), (8, 2), (7, 3), (7, 1)] :
            List (Int × Nat)).map (fun q => (0, q.2, test_item q.1 q.2)))
        ConcatImpl.init).output_queue_
      = [[⟨"A", 8⟩, ⟨"A", 8⟩, ⟨"B", 8⟩, ⟨"C", 8⟩], [⟨"A", 7⟩, ⟨"A", 7⟩, ⟨"B", 7⟩, ⟨"C", 7⟩]] :=
  ⟨by decide, by decide,
    (concat_interleaved_one_tuple_per_key [7, 8]
      [(7, 0), (8, 3), (8, 0), (7, 2), (8, 1), (8, 2), (7, 3), (7, 1)] (fun _ => 0)
      (by decide) (by decide)).1,
    by decide⟩

/-! ## The entries in the store -/

theorem foldl_add_nonneg (l : List Int) (h : ∀ x ∈ l, 0 ≤ x) :
    0 ≤ l.foldl (fun acc c => acc + c) 0 := by
  induction l with
  | nil => simp
  | cons y r ih =>
    simp only [List.foldl_cons]
    rw [foldl_add_init r (0 + y)]
    have h1 := h y (by simp)
    have h2 := ih (fun x hx => h x (List.mem_cons_of_mem _ hx))
    omega

theorem getD_le_foldl_add (l : List Int) (h : ∀ x ∈ l, 0 ≤ x) :
    ∀ i : Nat, l.getD i 0 ≤ l.foldl (fun acc c => acc + c) 0 := by
  induction l with
  | nil => intro i; simp
  | cons y r ih =>
    intro i
    have h1 := h y (by simp)
    have hr : ∀ x ∈ r, 0 ≤ x := fun x hx => h x (List.mem_cons_of_mem _ hx)
    have h2 := foldl_add_nonneg r hr
    simp only [List.foldl_cons]
    rw [foldl_add_init r (0 + y)]
    cases i with
    | zero =>
      simp only [List.getD_cons_zero]
      omega
    | succ j =>
      simp only [List.getD_cons_succ]
      have := ih hr j
      omega

theorem ConcatImpl.mem_data_store {V : Type} (k : Int) (e : ConcatEntry V)
    (m : List (Int × ConcatEntry V)) :
    ∀ x ∈ ConcatImpl.data_store k e m, x ∈ m ∨ x = (k, e) := by
  induction m with
  | nil =>
    intro x hx
    simp only [ConcatImpl.data_store, List.mem_singleton] at hx
    exact Or.inr hx
  | cons y r ih =>
    obtain ⟨a, b⟩ := y
    intro x hx
    by_cases ha : a = k
    · subst ha
      simp only [ConcatImpl.data_store, if_true, List.mem_cons] at hx
      rcases hx with rfl | hx
      · exact Or.inr rfl
      · exact Or.inl (List.mem_cons_of_mem _ hx)
    · simp only [ConcatImpl.data_store, ha, if_false, List.mem_cons] at hx
      rcases hx with rfl | hx
      · exact Or.inl (List.mem_cons_self _ _)
      · rcases ih x hx with h | h
        · exact Or.inl (List.mem_cons_of_mem _ h)
        · exact Or.inr h

theorem ConcatImpl.mem_data_erase {V : Type} (k : Int) (m : List (Int × ConcatEntry V)) :
    ∀ x ∈ ConcatImpl.data_erase k m, x ∈ m := by
  induction m with
  | nil => intro x hx; simp [ConcatImpl.data_erase] at hx
  | cons y r ih =>
    obtain ⟨a, b⟩ := y
    intro x hx
    by_cases ha : a = k
    · subst ha
      simp only [ConcatImpl.data_erase, if_true] at hx
      exact List.mem_cons_of_mem _ (ih x hx)
    · simp only [ConcatImpl.data_erase, ha, if_false, List.mem_cons] at hx
      rcases hx with rfl | hx
      · exact List.mem_cons_self _ _
      · exact List.mem_cons_of_mem _ (ih x hx)

theorem ConcatImpl.mem_of_data_find {V : Type} (k : Int) (e : ConcatEntry V)
    (m : List (Int × ConcatEntry V)) (h : ConcatImpl.data_find k m = some e) : (k, e) ∈ m := by
  induction m with
  | nil => simp [ConcatImpl.data_find] at h
  | cons y r ih =>
    obtain ⟨a, b⟩ := y
    by_cases ha : a = k
    · subst ha
      simp only [ConcatImpl.data_find, if_true, Option.some.injEq] at h
      subst h
      exact List.mem_cons_self _ _
    · simp only [ConcatImpl.data_find, ha, if_false] at h
      exact List.mem_cons_of_mem _ (ih h)

theorem ConcatImpl.keys_data_store {V : Type} (k : Int) (e : ConcatEntry V)
    (m : List (Int × ConcatEntry V)) :
    (ConcatImpl.data_store k e m).map Prod.fst
      = if k ∈ m.map Prod.fst then m.map Prod.fst else m.map Prod.fst ++ [k] := by
  induction m with
  | nil => simp [ConcatImpl.data_store]
  | cons y r ih =>
    obtain ⟨a, b⟩ := y
    by_cases ha : a = k
    · subst ha
      simp [ConcatImpl.data_store]
    · have hka : ¬ k = a := fun h => ha h.symm
      simp only [ConcatImpl.data_store, ha, if_false, List.map_cons, ih, List.mem_cons, hka,
        false_or]
      by_cases hmem : k ∈ r.map Prod.fst
      · simp only [hmem, if_true]
      · simp only [hmem, if_false, List.cons_append]

theorem ConcatImpl.keys_data_erase {V : Type} (k : Int) (m : List (Int × ConcatEntry V)) :
    (ConcatImpl.data_erase k m).map Prod.fst
      = (m.map Prod.fst).filter (fun a => decide (a ≠ k)) := by
  induction m with
  | nil => simp [ConcatImpl.data_erase]
  | cons y r ih =>
    obtain ⟨a, b⟩ := y
    by_cases ha : a = k
    · subst ha
      simp [ConcatImpl.data_erase, ih]
    · simp [ConcatImpl.data_erase, ha, ih]

/-- The entry that a `put` works on, in a concatenator of at most 32767 slots whose entries
are in flight: its count of the slot goes up by one without wrapping, so does the sum, and the
completion predicate holds exactly when the sum reaches the number of slots. -/
theorem ConcatImpl.entry_after_put_sum {V : Type} (n : Nat) (dv : Nat → V) (index : V → Int)
    (now i : Nat) (v : V) (c : ConcatImpl V) (hn : n ≤ 32767) (hi : i < n)
    (hinv : ∀ ke ∈ c.data_, ConcatEntry.in_progress n ke.2) :
    (ConcatImpl.entry_after_put (Concat n dv index) now i v c).counts.length = n
    ∧ (∀ x ∈ (ConcatImpl.entry_after_put (Concat n dv index) now i v c).counts, 0 ≤ x)
    ∧ 1 ≤ (ConcatImpl.entry_after_put (Concat n dv index) now i v c).counts_sum
    ∧ (ConcatImpl.entry_after_put (Concat n dv index) now i v c).counts_sum ≤ n
    ∧ (DefaultCompleteCondition n (ConcatImpl.entry_after_put (Concat n dv index) now i v c)
        = decide ((ConcatImpl.entry_after_put (Concat n dv index) now i v c).counts_sum
            = (n : Int))) := by
  have hfound : ∀ found : ConcatEntry V,
      found = (ConcatImpl.data_find (index v) c.data_).getD
        (ConcatImpl.new_entry (Concat n dv index) now) →
      found.counts.length = n ∧ (∀ x ∈ found.counts, 0 ≤ x) ∧ 0 ≤ found.counts_sum
        ∧ found.counts_sum + 1 ≤ n := by
    intro found hf
    cases hd : ConcatImpl.data_find (index v) c.data_ with
    | none =>
      rw [hd] at hf
      simp only [Option.getD_none] at hf
      subst hf
      have hsum : (List.replicate n (0 : Int)).foldl (fun acc c => acc + c) 0 = 0 := by
        have : ∀ m : Nat, (List.replicate m (0 : Int)).foldl (fun acc c => acc + c) 0 = 0 := by
          intro m
          induction m with
          | zero => rfl
          | succ m ih => simpa [List.replicate_succ] using ih
        exact this n
      refine ⟨by simp [ConcatImpl.new_entry, Concat_narguments], ?_, ?_, ?_⟩
      · intro x hx
        simp only [ConcatImpl.new_entry, Concat_narguments] at hx
        rw [(List.mem_replicate.1 hx).2]
      · simp only [ConcatEntry.counts_sum, ConcatImpl.new_entry, Concat_narguments, hsum]
        exact le_refl 0
      · simp only [ConcatEntry.counts_sum, ConcatImpl.new_entry, Concat_narguments, hsum]
        omega
    | some e =>
      rw [hd] at hf
      simp only [Option.getD_some] at hf
      subst hf
      obtain ⟨h1, h2, h3, h4⟩ := hinv _ (ConcatImpl.mem_of_data_find _ _ _ hd)
      exact ⟨h1, h2, le_trans (by decide) h3, h4⟩
  obtain ⟨hlen, hnonneg, hsum0, hsum1⟩ := hfound _ rfl
  have hget := getD_le_foldl_add _ hnonneg i
  have hget0 : 0 ≤ ((ConcatImpl.data_find (index v) c.data_).getD
      (ConcatImpl.new_entry (Concat n dv index) now)).counts.getD i 0 := by
    rw [List.getD_eq_getElem _ 0 (by omega)]
    exact hnonneg _ (List.getElem_mem _)
  simp only [ConcatEntry.counts_sum] at hsum0 hsum1
  have hinc : increment_short (((ConcatImpl.data_find (index v) c.data_).getD
      (ConcatImpl.new_entry (Concat n dv index) now)).counts.getD i 0)
      = ((ConcatImpl.data_find (index v) c.data_).getD
          (ConcatImpl.new_entry (Concat n dv index) now)).counts.getD i 0 + 1 := by
    unfold increment_short
    rw [if_neg (by omega)]
  have hcounts : (ConcatImpl.entry_after_put (Concat n dv index) now i v c).counts
      = ((ConcatImpl.data_find (index v) c.data_).getD
          (ConcatImpl.new_entry (Concat n dv index) now)).counts.set i
          (((ConcatImpl.data_find (index v) c.data_).getD
            (ConcatImpl.new_entry (Concat n dv index) now)).counts.getD i 0 + 1) := by
    simp only [ConcatImpl.entry_after_put, Concat_index_function]
    rw [hinc]
  have hsum : (ConcatImpl.entry_after_put (Concat n dv index) now i v c).counts_sum
      = ((ConcatImpl.data_find (index v) c.data_).getD
          (ConcatImpl.new_entry (Concat n dv index) now)).counts.foldl
            (fun acc c => acc + c) 0 + 1 := by
    unfold ConcatEntry.counts_sum
    rw [hcounts, foldl_add_set _ i _ (by omega)]
    omega
  refine ⟨?_, ?_, ?_, ?_, ?_⟩
  · rw [hcounts, List.length_set, hlen]
  · intro x hx
    rw [hcounts] at hx
    rcases List.mem_or_eq_of_mem_set hx with h | h
    · exact hnonneg x h
    · omega
  · rw [hsum]
    omega
  · rw [hsum]
    omega
  · have hs1 : 1 ≤ (ConcatImpl.entry_after_put (Concat n dv index) now i v c).counts_sum := by
      rw [hsum]; omega
    have hs2 : (ConcatImpl.entry_after_put (Concat n dv index) now i v c).counts_sum ≤ n := by
      rw [hsum]; omega
    unfold DefaultCompleteCondition
    unfold ConcatEntry.counts_sum at hs1 hs2 ⊢
    have hmod : ((ConcatImpl.entry_after_put (Concat n dv index) now i v c).counts.foldl
        (fun acc c => acc + c) 0) % 18446744073709551616
        = (ConcatImpl.entry_after_put (Concat n dv index) now i v c).counts.foldl
          (fun acc c => acc + c) 0 :=
      Int.emod_eq_of_lt (by omega) (by omega)
    rw [hmod]

/-- One `put` into a concatenator of at most 32767 slots whose entries are in flight: the
entries are in flight afterwards, and the keys of the store are those before, with the key
of the put added when nothing was pushed and taken out when a tuple was pushed. -/
theorem ConcatImpl.put_in_progress {V : Type} (n : Nat) (dv : Nat → V) (index : V → Int)
    (now i : Nat) (v : V) (c : ConcatImpl V) (hn : n ≤ 32767) (hi : i < n)
    (hinv : ∀ ke ∈ c.data_, ConcatEntry.in_progress n ke.2) :
    (∀ ke ∈ (ConcatImpl.put (Concat n dv index) now i v c).data_,
        ConcatEntry.in_progress n ke.2)
    ∧ (ConcatImpl.put (Concat n dv index) now i v c).data_.map Prod.fst
        = (if (ConcatImpl.pushed (Concat n dv index) now i v c).length = 0 then
            (if index v ∈ c.data_.map Prod.fst then c.data_.map Prod.fst
              else c.data_.map Prod.fst ++ [index v])
          else (c.data_.map Prod.fst).filter (fun k => decide (k ≠ index v))) := by
  obtain ⟨hlen, hnonneg, hs1, hs2, hcomplete⟩ :=
    ConcatImpl.entry_after_put_sum n dv index now i v c hn hi hinv
  rcases ConcatImpl.put_cases n dv index now i v c with ⟨hc, hq, hd⟩ | ⟨hc, hq, hd⟩
  · have hp : (ConcatImpl.pushed (Concat n dv index) now i v c).length = 1 := by
      unfold ConcatImpl.pushed
      rw [hq]
      simp
    refine ⟨?_, ?_⟩
    · intro ke hke
      rw [hd] at hke
      exact hinv ke (ConcatImpl.mem_data_erase _ _ ke hke)
    · rw [hd, ConcatImpl.keys_data_erase, hp]
      simp
  · have hp : (ConcatImpl.pushed (Concat n dv index) now i v c).length = 0 := by
      unfold ConcatImpl.pushed
      rw [hq]
      simp
    refine ⟨?_, ?_⟩
    · intro ke hke
      rw [hd] at hke
      rcases ConcatImpl.mem_data_store _ _ _ ke hke with h | h
      · exact hinv ke h
      · subst h
        rw [hcomplete] at hc
        have hne : ¬ (ConcatImpl.entry_after_put (Concat n dv index) now i v c).counts_sum
            = (n : Int) := by simpa using hc
        refine ⟨hlen, hnonneg, hs1, ?_⟩
        show (ConcatImpl.entry_after_put (Concat n dv index) now i v c).counts_sum + 1 ≤ n
        omega
    · rw [hd, ConcatImpl.keys_data_store, hp]
      simp

theorem in_flight_nodup (keys : List Int) (k : Int) (p : Prop) [Decidable p]
    (h : keys.Nodup) :
    (if p then (if k ∈ keys then keys else keys ++ [k])
      else keys.filter (fun a => decide (a ≠ k))).Nodup := by
  by_cases hp : p
  · simp only [hp, if_true]
    by_cases hk : k ∈ keys
    · simpa [hk] using h
    · simp only [hk, if_false]
      exact List.Nodup.append h (List.nodup_singleton k) (by simpa using hk)
  · simp only [hp, if_false]
    exact h.filter _

/-- A sequence of puts into a concatenator of at most 32767 slots whose entries are in
flight. -/
theorem ConcatImpl.puts_in_progress {V : Type} (n : Nat) (dv : Nat → V) (index : V → Int)
    (hn : n ≤ 32767) :
    ∀ (calls : List (Nat × Nat × V)) (c : ConcatImpl V),
      (∀ ke ∈ c.data_, ConcatEntry.in_progress n ke.2) →
      (c.data_.map Prod.fst).Nodup →
      (∀ call ∈ calls, call.2.1 < n) →
      (∀ ke ∈ (ConcatImpl.puts (Concat n dv index) calls c).data_,
          ConcatEntry.in_progress n ke.2)
      ∧ (ConcatImpl.puts (Concat n dv index) calls c).data_.map Prod.fst
          = ConcatImpl.in_flight (Concat n dv index) calls c (c.data_.map Prod.fst)
      ∧ ((ConcatImpl.puts (Concat n dv index) calls c).data_.map Prod.fst).Nodup := by
  intro calls
  induction calls with
  | nil =>
    intro c hinv hnd _
    exact ⟨hinv, rfl, hnd⟩
  | cons call rest ih =>
    intro c hinv hnd hidx
    obtain ⟨now, i, v⟩ := call
    have hi : i < n := hidx (now, i, v) (by simp)
    obtain ⟨hinv', hkeys⟩ := ConcatImpl.put_in_progress n dv index now i v c hn hi hinv
    have hnd' : ((ConcatImpl.put (Concat n dv index) now i v c).data_.map Prod.fst).Nodup := by
      rw [hkeys]
      exact in_flight_nodup (c.data_.map Prod.fst) (index v) _ hnd
    have := ih (ConcatImpl.put (Concat n dv index) now i v c) hinv' hnd'
      (fun call hcall => hidx call (List.mem_cons_of_mem _ hcall))
    simp only [ConcatImpl.puts, ConcatImpl.in_flight, Concat_index_function]
    rw [← hkeys]
    exact this

/-- C23: in every state reached from a new concatenator by puts (each into one of the
slots), every entry of the store has counts that are not negative and at most the sum of the
counts, a sum of at least 1 and at most `n - 1`, and does not satisfy the completion
predicate; the keys of the store are, each once, the keys that got a put since their last
emission, and `size()` is their number.  The slots of a `Concat` are its template arguments
and the counts are of the type `short`: the number `n` of slots is at most 32767. -/
theorem concat_size_counts_in_flight {V : Type} (n : Nat) (dv : Nat → V) (index : V → Int)
    (calls : List (Nat × Nat × V)) (hn : n ≤ 32767) (hidx : ∀ call ∈ calls, call.2.1 < n) :
    (∀ ke ∈ (ConcatImpl.puts (Concat n dv index) calls ConcatImpl.init).data_,
        1 ≤ ke.2.counts_sum ∧ ke.2.counts_sum ≤ (n : Int) - 1
        ∧ (∀ x ∈ ke.2.counts, 0 ≤ x ∧ x ≤ ke.2.counts_sum)
        ∧ DefaultCompleteCondition n ke.2 = false)
    ∧ (ConcatImpl.puts (Concat n dv index) calls ConcatImpl.init).data_.map Prod.fst
        = ConcatImpl.in_flight (Concat n dv index) calls ConcatImpl.init []
    ∧ (ConcatImpl.in_flight (Concat n dv index) calls ConcatImpl.init []).Nodup
    ∧ (ConcatImpl.puts (Concat n dv index) calls ConcatImpl.init).size
        = (ConcatImpl.in_flight (Concat n dv index) calls ConcatImpl.init []).length := by
  obtain ⟨hinv, hkeys, hnd⟩ := ConcatImpl.puts_in_progress n dv index hn calls ConcatImpl.init
    (by intro ke hke; simp [ConcatImpl.init] at hke) (by simp [ConcatImpl.init]) hidx
  have hkeys' : (ConcatImpl.puts (Concat n dv index) calls ConcatImpl.init).data_.map Prod.fst
      = ConcatImpl.in_flight (Concat n dv index) calls ConcatImpl.init [] := hkeys
  refine ⟨?_, hkeys', ?_, ?_⟩
  · intro ke hke
    obtain ⟨h1, h2, h3, h4⟩ := hinv ke hke
    refine ⟨h3, by omega, ?_, ?_⟩
    · intro x hx
      refine ⟨h2 x hx, ?_⟩
      obtain ⟨j, hj, rfl⟩ := List.getElem_of_mem hx
      have := getD_le_foldl_add _ h2 j
      rw [List.getD_eq_getElem _ 0 hj] at this
      exact this
    · unfold DefaultCompleteCondition
      unfold ConcatEntry.counts_sum at h3 h4
      have hmod : (ke.2.counts.foldl (fun acc c => acc + c) 0) % 18446744073709551616
          = ke.2.counts.foldl (fun acc c => acc + c) 0 :=
        Int.emod_eq_of_lt (by omega) (by omega)
      rw [hmod]
      simp only [decide_eq_false_iff_not]
      omega
  · rw [← hkeys']
    exact hnd
  · unfold ConcatImpl.size
    rw [← hkeys', List.length_map]

/-- C23 on a `Concat<A, A, B, C>`: the key 1 gets three values, the key 2 one, then
the key 1 its fourth (the tuple of 1 is pushed), then the key 3 two values for the slot 0.  The
store holds the keys 2 and 3, and `size()` is 2. -/
theorem concat_size_counts_in_flight_witness :
    (4 ≤ 32767
      ∧ ∀ call ∈ ([(0, 0, ⟨"A", 1⟩), (0, 1, ⟨"A", 1⟩), (0, 2, ⟨"B", 1⟩), (0, 2, ⟨"B", 2⟩),
          (0, 3, ⟨"C", 1⟩), (0, 0, ⟨"A", 3⟩), (0, 0, ⟨"A", 3⟩)] : List (Nat × Nat × Item)),
          call.2.1 < 4)
    ∧ (ConcatImpl.puts (Concat 4 Item.default_value Item.index)
          [(0, 0, ⟨"A", 1⟩), (0, 1, ⟨"A", 1⟩), (0, 2, ⟨"B", 1⟩), (0, 2, ⟨"B", 2⟩),
            (0, 3, ⟨"C", 1⟩), (0, 0, ⟨"A", 3⟩), (0, 0, ⟨"A", 3⟩)] ConcatImpl.init).size
        = (ConcatImpl.in_flight (Concat 4 Item.default_value Item.index)
            [(0, 0, ⟨"A", 1⟩), (0, 1, ⟨"A", 1⟩), (0, 2, ⟨"B", 1⟩), (0, 2, ⟨"B", 2⟩),
              (0, 3, ⟨"C", 1⟩), (0, 0, ⟨"A", 3⟩), (0, 0, ⟨"A", 3⟩)] ConcatImpl.init []).length
    ∧ ConcatImpl.in_flight (Concat 4 Item.default_value Item.index)
          [(0, 0, ⟨"A", 1⟩), (0, 1, ⟨"A", 1⟩), (0, 2, ⟨"B", 1⟩), (0, 2, ⟨"B", 2⟩),
            (0, 3, ⟨"C", 1⟩), (0, 0, ⟨"A", 3⟩), (0, 0, ⟨"A", 3⟩)] ConcatImpl.init []
        = [2, 3]
    ∧ (ConcatImpl.puts (Concat 4 Item.default_value Item.index)
          [(0, 0, ⟨"A", 1⟩), (0, 1, ⟨"A", 1⟩), (0, 2, ⟨"B", 1⟩), (0, 2, ⟨"B", 2⟩),
            (0, 3, ⟨"C", 1⟩), (0, 0, ⟨"A", 3⟩), (0, 0, ⟨"A", 3⟩)] ConcatImpl.init).data_.map
          (fun ke => (ke.1, ke.2.counts))
        = [(2, [0, 0, 1, 0]), (3, [2, 0, 0, 0])]
    ∧ (ConcatImpl.puts (Concat 4 Item.default_value Item.index)
          [(0, 0, ⟨"A", 1⟩), (0, 1, ⟨"A", 1⟩), (0, 2, ⟨"B", 1⟩), (0, 2, ⟨"B", 2⟩),
            (0, 3, ⟨"C", 1⟩), (0, 0, ⟨"A", 3⟩), (0, 0, ⟨"A", 3⟩)] ConcatImpl.init).output_queue_
        = [[⟨"A", 1⟩, ⟨"A", 1⟩, ⟨"B", 1⟩, ⟨"C", 1⟩]] :=
  ⟨⟨by decide, by decide⟩,
    (concat_size_counts_in_flight 4 Item.default_value Item.index
      [(0, 0, ⟨"A", 1⟩), (0, 1, ⟨"A", 1⟩), (0, 2, ⟨"B", 1⟩), (0, 2, ⟨"B", 2⟩),
        (0, 3, ⟨"C", 1⟩), (0, 0, ⟨"A", 3⟩), (0, 0, ⟨"A", 3⟩)] (by decide) (by decide)).2.2.2,
    by decide, by decide, by decide⟩

/-! ## Deferred configuration -/

theorem WorkerBaseT.set_configuration_free (w : WorkerBaseT) (C : Value)
    (h : w.configuration_mtx_ = false) :
    w.set_configuration C
      = { w with configuration_storage_ := C, applied := w.applied ++ [C] } := by
  simp [WorkerBaseT.set_configuration, h]

theorem WorkerBaseT.set_configuration_held (w : WorkerBaseT) (C : Value)
    (h : w.configuration_mtx_ = true) :
    w.set_configuration C
      = { w with configuration_storage_ := C, configuration_changed_ := true } := by
  simp [WorkerBaseT.set_configuration, h]

theorem ContextBaseT.context_set_configuration_free {Cfg : Type} (s : ContextBaseT Cfg) (C : Cfg)
    (h : s.configuration_mtx_ = false) :
    s.set_configuration C
      = { s with configuration_storage_ := C, applied := s.applied ++ [C] } := by
  simp [ContextBaseT.set_configuration, h]

theorem ContextBaseT.context_set_configuration_held {Cfg : Type} (s : ContextBaseT Cfg) (C : Cfg)
    (h : s.configuration_mtx_ = true) :
    s.set_configuration C
      = { s with configuration_storage_ := C, configuration_changed_ := true } := by
  simp [ContextBaseT.set_configuration, h]

theorem WorkerBaseT.set_configurations_free (Cs : List Value) :
    ∀ w : WorkerBaseT, w.configuration_mtx_ = false →
      (w.set_configurations Cs).applied = w.applied ++ Cs
      ∧ (w.set_configurations Cs).configuration_changed_ = w.configuration_changed_
      ∧ (w.set_configurations Cs).configuration_mtx_ = false
      ∧ (w.set_configurations Cs).set_connections = w.set_connections := by
  induction Cs with
  | nil => intro w h; simp [WorkerBaseT.set_configurations, h]
  | cons C rest ih =>
    intro w h
    have hstep := WorkerBaseT.set_configuration_free w C h
    obtain ⟨h1, h2, h3, h4⟩ := ih (w.set_configuration C) (by rw [hstep]; exact h)
    simp only [WorkerBaseT.set_configurations]
    rw [h1, h2, h3, h4, hstep]
    simp

theorem ContextBaseT.context_set_configurations_free {Cfg : Type} (Cs : List Cfg) :
    ∀ s : ContextBaseT Cfg, s.configuration_mtx_ = false →
      (s.set_configurations Cs).applied = s.applied ++ Cs
      ∧ (s.set_configurations Cs).configuration_changed_ = s.configuration_changed_
      ∧ (s.set_configurations Cs).configuration_mtx_ = false := by
  induction Cs with
  | nil => intro s h; simp [ContextBaseT.set_configurations, h]
  | cons C rest ih =>
    intro s h
    have hstep := ContextBaseT.context_set_configuration_free s C h
    obtain ⟨h1, h2, h3⟩ := ih (s.set_configuration C) (by rw [hstep]; exact h)
    simp only [ContextBaseT.set_configurations]
    rw [h1, h2, h3, hstep]
    simp

theorem WorkerBaseT.deliver_free (log : List Invocation) :
    ∀ w : WorkerBaseT, w.configuration_mtx_ = false →
      (∀ inv ∈ log, inv.1 ∈ w.set_connections ∧ inv.2.length = 1) →
      (w.deliver log).applied = w.applied ++ log.flatMap Prod.snd
      ∧ (w.deliver log).configuration_changed_ = w.configuration_changed_
      ∧ (w.deliver log).configuration_mtx_ = false := by
  induction log with
  | nil => intro w h _; simp [WorkerBaseT.deliver, h]
  | cons inv rest ih =>
    intro w h hlog
    obtain ⟨connection, args⟩ := inv
    obtain ⟨hc, hargs⟩ := hlog (connection, args) (by simp)
    simp only at hc hargs
    obtain ⟨C, rfl⟩ : ∃ C, args = [C] := by
      match args, hargs with
      | [C], _ => exact ⟨C, rfl⟩
    have hstep := WorkerBaseT.set_configuration_free w C h
    obtain ⟨h1, h2, h3⟩ := ih (w.set_configuration C) (by rw [hstep]; exact h) (by
      intro inv hinv
      rw [hstep]
      exact hlog inv (List.mem_cons_of_mem _ hinv))
    simp only [WorkerBaseT.deliver, hc, if_true]
    rw [h1, h2, h3, hstep]
    simp

/-- C24: while `configuration_mtx_` is free, `WorkerBaseT::set_configuration(C)` and
`ContextBaseT::set_configuration(C)` write `C` to the staging slot, call the hook
`set_configuration_` once, with `C`, and leave the flag `configuration_changed_` and
everything else as it was.  So `k` such calls of a worker or a context make exactly the `k`
hook calls with their configurations, in their order, also when the calls of the worker are
made by invocations of the subscriber of its service `configuration.set.<name>`, or some
directly and some so. -/
theorem set_configuration_idle (w : WorkerBaseT) {Cfg : Type} (s : ContextBaseT Cfg)
    (C : Value) (D : Cfg) (Cs : List Value) (Ds : List Cfg) (log : List Invocation)
    (hw : w.configuration_mtx_ = false) (hs : s.configuration_mtx_ = false)
    (hlog : ∀ inv ∈ log, inv.1 ∈ w.set_connections ∧ inv.2.length = 1) :
    w.set_configuration C
        = { w with configuration_storage_ := C, applied := w.applied ++ [C] }
    ∧ s.set_configuration D
        = { s with configuration_storage_ := D, applied := s.applied ++ [D] }
    ∧ ((w.set_configurations Cs).applied = w.applied ++ Cs
      ∧ (w.set_configurations Cs).configuration_changed_ = w.configuration_changed_)
    ∧ ((s.set_configurations Ds).applied = s.applied ++ Ds
      ∧ (s.set_configurations Ds).configuration_changed_ = s.configuration_changed_)
    ∧ ((w.deliver log).applied = w.applied ++ log.flatMap Prod.snd
      ∧ (w.deliver log).configuration_changed_ = w.configuration_changed_)
    ∧ (((w.set_configurations Cs).deliver log).applied
          = w.applied ++ Cs ++ log.flatMap Prod.snd
      ∧ ((w.set_configurations Cs).deliver log).configuration_changed_
          = w.configuration_changed_) := by
  obtain ⟨h1, h2, h3, h4⟩ := WorkerBaseT.set_configurations_free Cs w hw
  obtain ⟨k1, k2, _⟩ := ContextBaseT.context_set_configurations_free Ds s hs
  obtain ⟨l1, l2, _⟩ := WorkerBaseT.deliver_free log w hw hlog
  obtain ⟨m1, m2, _⟩ := WorkerBaseT.deliver_free log (w.set_configurations Cs) h3 (by
    rw [h4]
    exact hlog)
  refine ⟨WorkerBaseT.set_configuration_free w C hw, ContextBaseT.context_set_configuration_free s D hs,
    ⟨h1, h2⟩, ⟨k1, k2⟩, ⟨l1, l2⟩, ?_, ?_⟩
  · rw [m1, h1]
  · rw [m2, h2]

/-- C24 at the worker of the tests, named `"a"`, on a new broker: `set_configuration("Test")`
is called on the worker and then `call<void, std::string>("configuration.set.a", "Test")` on
the broker, which invokes the subscriber of the worker once; the hook is called twice, with
`"Test"` and `"Test"`. -/
theorem set_configuration_idle_witness :
    ((test_worker false).1.configuration_mtx_ = false
      ∧ (ContextBaseT.init "").configuration_mtx_ = false
      ∧ ∀ inv ∈ (ServiceBroker.call_void false (test_worker false).2.1
            "configuration.set.a".toList ⟨"void", ["std::string"]⟩ [Value.str "Test"]
            (test_worker false).2.2).2,
          inv.1 ∈ (test_worker false).1.set_connections ∧ inv.2.length = 1)
    ∧ (((test_worker false).1.set_configurations [Value.str "Test"]).deliver
          (ServiceBroker.call_void false (test_worker false).2.1
            "configuration.set.a".toList ⟨"void", ["std::string"]⟩ [Value.str "Test"]
            (test_worker false).2.2).2).applied
        = (test_worker false).1.applied ++ [Value.str "Test"]
          ++ (ServiceBroker.call_void false (test_worker false).2.1
            "configuration.set.a".toList ⟨"void", ["std::string"]⟩ [Value.str "Test"]
            (test_worker false).2.2).2.flatMap Prod.snd
    ∧ (ServiceBroker.call_void false (test_worker false).2.1
          "configuration.set.a".toList ⟨"void", ["std::string"]⟩ [Value.str "Test"]
          (test_worker false).2.2)
        = (Ending.returned (), [(0, [Value.str "Test"])])
    ∧ (((test_worker false).1.set_configurations [Value.str "Test"]).deliver
          (ServiceBroker.call_void false (test_worker false).2.1
            "configuration.set.a".toList ⟨"void", ["std::string"]⟩ [Value.str "Test"]
            (test_worker false).2.2).2).applied
        = [Value.str "Test", Value.str "Test"] :=
  ⟨⟨by decide, by decide, by decide⟩,
    (set_configuration_idle (test_worker false).1 (ContextBaseT.init "") (Value.str "Test")
      "Test" [Value.str "Test"] ["Test"]
      (ServiceBroker.call_void false (test_worker false).2.1
        "configuration.set.a".toList ⟨"void", ["std::string"]⟩ [Value.str "Test"]
        (test_worker false).2.2).2 (by decide) (by decide) (by decide)).2.2.2.2.2.1,
    by decide, by decide⟩

/-- Tasks that start and end leave the staging slot, the flag and the hook calls of a worker
as they are. -/
theorem WorkerBaseT.run_locks (events : List WorkerEvent) :
    ∀ w w' : WorkerBaseT,
      (∀ e ∈ events, e = WorkerEvent.lock ∨ e = WorkerEvent.unlock) →
      WorkerBaseT.run w events = some w' →
      w'.configuration_storage_ = w.configuration_storage_
      ∧ w'.configuration_changed_ = w.configuration_changed_
      ∧ w'.applied = w.applied := by
  induction events with
  | nil =>
    intro w w' _ h
    simp only [WorkerBaseT.run, Option.some.injEq] at h
    subst h
    exact ⟨rfl, rfl, rfl⟩
  | cons e rest ih =>
    intro w w' hev h
    have hrest : ∀ e ∈ rest, e = WorkerEvent.lock ∨ e = WorkerEvent.unlock :=
      fun e he => hev e (List.mem_cons_of_mem _ he)
    rcases hev e (by simp) with rfl | rfl
    · by_cases hm : w.configuration_mtx_ = true
      · simp [WorkerBaseT.run, WorkerBaseT.step, hm] at h
      · simp only [WorkerBaseT.run, WorkerBaseT.step, hm, if_false] at h
        have := ih _ w' hrest h
        simpa using this
    · by_cases hm : w.configuration_mtx_ = true
      · simp only [WorkerBaseT.run, WorkerBaseT.step, hm, if_true] at h
        have := ih _ w' hrest h
        simpa using this
      · simp [WorkerBaseT.run, WorkerBaseT.step, hm] at h

/-- Tasks that end leave the staging slot, the flag and the hook calls of a context as they
are. -/
theorem ContextBaseT.run_task_ends {Cfg : Type} (events : List (ContextEvent Cfg)) :
    ∀ s s' : ContextBaseT Cfg,
      (∀ e ∈ events, e = ContextEvent.task_end) →
      ContextBaseT.run s events = some s' →
      s'.configuration_storage_ = s.configuration_storage_
      ∧ s'.configuration_changed_ = s.configuration_changed_
      ∧ s'.applied = s.applied := by
  induction events with
  | nil =>
    intro s s' _ h
    simp only [ContextBaseT.run, Option.some.injEq] at h
    subst h
    exact ⟨rfl, rfl, rfl⟩
  | cons e rest ih =>
    intro s s' hev h
    have hrest : ∀ e ∈ rest, e = ContextEvent.task_end :=
      fun e he => hev e (List.mem_cons_of_mem _ he)
    have he : e = ContextEvent.task_end := hev e (by simp)
    subst he
    by_cases hm : s.configuration_mtx_ = true
    · simp only [ContextBaseT.run, ContextBaseT.step, hm, if_true] at h
      have := ih _ s' hrest h
      simpa [ContextBaseT.invoke_end] using this
    · simp [ContextBaseT.run, ContextBaseT.step, hm] at h

theorem WorkerBaseT.update_configuration_free (w : WorkerBaseT)
    (h : w.configuration_mtx_ = false) :
    w.update_configuration
      = some { w with applied := w.applied ++ [w.configuration_storage_]
                      configuration_changed_ := false } := by
  simp [WorkerBaseT.update_configuration, h]

/-- C25: after `set_configuration(C)` on a worker, in any state, either the hook was last
called with `C` (the mutex was free), or the flag `configuration_changed_` is set and the next
`update_configuration()`, after tasks ended and started but no other `set_configuration`,
returns once the mutex is free, calls the hook exactly once more, with `C`, and clears the
flag; and `get_configuration()` returns `C`.  The same holds for a context, whose
`operator()` commits before it starts the task. -/
theorem configuration_monotone (w : WorkerBaseT) (C : Value) {Cfg : Type}
    (s : ContextBaseT Cfg) (D : Cfg) :
    ((w.set_configuration C).applied.getLast? = some C
      ∨ ((w.set_configuration C).configuration_changed_ = true
        ∧ ∀ (events : List WorkerEvent) (w' : WorkerBaseT),
            (∀ e ∈ events, e = WorkerEvent.lock ∨ e = WorkerEvent.unlock) →
            WorkerBaseT.run (w.set_configuration C) events = some w' →
            w'.configuration_mtx_ = false →
            w'.update_configuration
              = some { w' with applied := w.applied ++ [C]
                               configuration_changed_ := false }))
    ∧ (w.configuration_mtx_ = false →
        (w.set_configuration C).applied = w.applied ++ [C]
        ∧ (w.set_configuration C).configuration_changed_ = w.configuration_changed_)
    ∧ (w.configuration_mtx_ = true →
        (w.set_configuration C).applied = w.applied
        ∧ (w.set_configuration C).configuration_changed_ = true)
    ∧ (w.set_configuration C).get_configuration = C
    ∧ ((s.set_configuration D).applied.getLast? = some D
      ∨ ((s.set_configuration D).configuration_changed_ = true
        ∧ ∀ (events : List (ContextEvent Cfg)) (s' : ContextBaseT Cfg),
            (∀ e ∈ events, e = ContextEvent.task_end) →
            ContextBaseT.run (s.set_configuration D) events = some s' →
            s'.configuration_mtx_ = false →
            s'.invoke_begin
              = some { s' with applied := s.applied ++ [D]
                               configuration_changed_ := false
                               configuration_mtx_ := true }))
    ∧ (s.set_configuration D).get_configuration = D := by
  refine ⟨?_, ?_, ?_, ?_, ?_, ?_⟩
  · cases hm : w.configuration_mtx_ with
    | false =>
      left
      rw [WorkerBaseT.set_configuration_free w C hm]
      simp
    | true =>
      right
      rw [WorkerBaseT.set_configuration_held w C hm]
      refine ⟨rfl, ?_⟩
      intro events w' hev hrun hfree
      obtain ⟨h1, h2, h3⟩ := WorkerBaseT.run_locks events _ w' hev hrun
      rw [WorkerBaseT.update_configuration_free w' hfree, h1, h3]
  · intro hm
    rw [WorkerBaseT.set_configuration_free w C hm]
    exact ⟨rfl, rfl⟩
  · intro hm
    rw [WorkerBaseT.set_configuration_held w C hm]
    exact ⟨rfl, rfl⟩
  · cases hm : w.configuration_mtx_ with
    | false => rw [WorkerBaseT.set_configuration_free w C hm]; rfl
    | true => rw [WorkerBaseT.set_configuration_held w C hm]; rfl
  · cases hm : s.configuration_mtx_ with
    | false =>
      left
      rw [ContextBaseT.context_set_configuration_free s D hm]
      simp
    | true =>
      right
      rw [ContextBaseT.context_set_configuration_held s D hm]
      refine ⟨rfl, ?_⟩
      intro events s' hev hrun hfree
      obtain ⟨h1, h2, h3⟩ := ContextBaseT.run_task_ends events _ s' hev hrun
      simp only at h1 h2 h3
      simp only [ContextBaseT.invoke_begin, hfree, ContextBaseT.commit, h2, if_true, h1, h3]
      simp
  · cases hm : s.configuration_mtx_ with
    | false => rw [ContextBaseT.context_set_configuration_free s D hm]; rfl
    | true => rw [ContextBaseT.context_set_configuration_held s D hm]; rfl

/-- C28: `set_configuration(C1)` and then `set_configuration(C2)` are called on a worker,
both while `configuration_mtx_` is held, tasks ending and starting between and after them.
Neither call calls the hook; the next `update_configuration()`, made when the mutex is free,
returns, calls the hook exactly once, with `C2`, and clears the flag: `C1` is not applied. -/
theorem pending_configuration_overwritten (w : WorkerBaseT) (C1 C2 : Value)
    (between after : List WorkerEvent) (w1 w2 : WorkerBaseT)
    (hheld : w.configuration_mtx_ = true)
    (hbetween : ∀ e ∈ between, e = WorkerEvent.lock ∨ e = WorkerEvent.unlock)
    (hrun1 : WorkerBaseT.run (w.set_configuration C1) between = some w1)
    (hheld1 : w1.configuration_mtx_ = true)
    (hafter : ∀ e ∈ after, e = WorkerEvent.lock ∨ e = WorkerEvent.unlock)
    (hrun2 : WorkerBaseT.run (w1.set_configuration C2) after = some w2)
    (hfree : w2.configuration_mtx_ = false) :
    (w.set_configuration C1).applied = w.applied
    ∧ w1.applied = w.applied
    ∧ (w1.set_configuration C2).applied = w.applied
    ∧ w2.applied = w.applied
    ∧ w2.configuration_changed_ = true
    ∧ w2.update_configuration
        = some { w2 with applied := w.applied ++ [C2], configuration_changed_ := false } := by
  have hs1 := WorkerBaseT.set_configuration_held w C1 hheld
  obtain ⟨a1, a2, a3⟩ := WorkerBaseT.run_locks between _ w1 hbetween hrun1
  have hs2 := WorkerBaseT.set_configuration_held w1 C2 hheld1
  obtain ⟨b1, b2, b3⟩ := WorkerBaseT.run_locks after _ w2 hafter hrun2
  rw [hs1] at a1 a2 a3
  rw [hs2] at b1 b2 b3
  simp only at a1 a2 a3 b1 b2 b3
  refine ⟨by rw [hs1], a3, by rw [hs2]; exact a3, by rw [b3, a3], b2, ?_⟩
  rw [WorkerBaseT.update_configuration_free w2 hfree, b1, b3, a3]

/-- C28 at a worker named `"a"` that runs a task: `set_configuration("X")` and
`set_configuration("Y")` come while the task runs; after the task the next
`update_configuration()` calls the hook once, with `"Y"`. -/
theorem pending_configuration_overwritten_witness :
    (busy_worker.configuration_mtx_ = true
      ∧ (∀ e ∈ ([] : List WorkerEvent), e = WorkerEvent.lock ∨ e = WorkerEvent.unlock)
      ∧ WorkerBaseT.run (busy_worker.set_configuration (Value.str "X")) []
          = some (busy_worker.set_configuration (Value.str "X"))
      ∧ (busy_worker.set_configuration (Value.str "X")).configuration_mtx_ = true
      ∧ (∀ e ∈ [WorkerEvent.unlock], e = WorkerEvent.lock ∨ e = WorkerEvent.unlock)
      ∧ WorkerBaseT.run ((busy_worker.set_configuration (Value.str "X")).set_configuration
            (Value.str "Y")) [WorkerEvent.unlock]
          = some ((WorkerBaseT.run
              ((busy_worker.set_configuration (Value.str "X")).set_configuration
                (Value.str "Y")) [WorkerEvent.unlock]).getD busy_worker)
      ∧ ((WorkerBaseT.run
              ((busy_worker.set_configuration (Value.str "X")).set_configuration
                (Value.str "Y")) [WorkerEvent.unlock]).getD busy_worker).configuration_mtx_
          = false)
    ∧ ((WorkerBaseT.run
              ((busy_worker.set_configuration (Value.str "X")).set_configuration
                (Value.str "Y")) [WorkerEvent.unlock]).getD busy_worker).update_configuration
        = some { ((WorkerBaseT.run
              ((busy_worker.set_configuration (Value.str "X")).set_configuration
                (Value.str "Y")) [WorkerEvent.unlock]).getD busy_worker) with
            applied := busy_worker.applied ++ [Value.str "Y"]
            configuration_changed_ := false }
    ∧ busy_worker.applied ++ [Value.str "Y"] = [Value.str "Y"] :=
  ⟨⟨by decide, by simp, by decide, by decide, by simp, by decide, by decide⟩,
    (pending_configuration_overwritten busy_worker (Value.str "X") (Value.str "Y") []
      [WorkerEvent.unlock] (busy_worker.set_configuration (Value.str "X"))
      ((WorkerBaseT.run ((busy_worker.set_configuration (Value.str "X")).set_configuration
        (Value.str "Y")) [WorkerEvent.unlock]).getD busy_worker)
      (by decide) (by simp) (by decide) (by decide) (by simp) (by decide)
      (by decide)).2.2.2.2.2,
    by decide⟩

/-- The service `configuration.get.a` of the worker of the tests reads the worker as it is
when the service is called: on the new worker `call<std::string>("configuration.get.a")`
returns the default-constructed configuration, and after `set_configuration("Test")` it
returns `"Test"`. -/
theorem WorkerBaseT.get_configuration_service_live (ndebug : Bool) :
    (ServiceBroker.call ndebug (test_worker ndebug).2.1 "configuration.get.a".toList
        ⟨"std::string", []⟩ []
        ((test_worker ndebug).1.live (test_worker ndebug).2.2)).1
      = Ending.returned [Value.str ""]
    ∧ (ServiceBroker.call ndebug (test_worker ndebug).2.1 "configuration.get.a".toList
        ⟨"std::string", []⟩ []
        (((test_worker ndebug).1.set_configuration (Value.str "Test")).live
          (test_worker ndebug).2.2)).1
      = Ending.returned [Value.str "Test"]
    ∧ (test_worker ndebug).1.get_connections = [1]
    ∧ (test_worker ndebug).1.set_connections = [0] := by
  cases ndebug <;> decide

/-! ## A running task and the configuration -/

theorem SingleThreadedEvent.last_set_append (pre post : List SingleThreadedEvent) :
    SingleThreadedEvent.last_set (pre ++ post)
      = match SingleThreadedEvent.last_set post with
        | some C => some C
        | none => SingleThreadedEvent.last_set pre := by
  induction pre with
  | nil => cases h : SingleThreadedEvent.last_set post <;> simp [h, SingleThreadedEvent.last_set]
  | cons e rest ih =>
    cases e with
    | set_configuration C' =>
      show some ((SingleThreadedEvent.last_set (rest ++ post)).getD C') = _
      rw [ih]
      cases h : SingleThreadedEvent.last_set post <;> simp [SingleThreadedEvent.last_set]
    | defer =>
      show SingleThreadedEvent.last_set (rest ++ post) = _
      rw [ih]
      rfl
    | push task =>
      show SingleThreadedEvent.last_set (rest ++ post) = _
      rw [ih]
      rfl
    | thread =>
      show SingleThreadedEvent.last_set (rest ++ post) = _
      rw [ih]
      rfl
    | terminate task =>
      show SingleThreadedEvent.last_set (rest ++ post) = _
      rw [ih]
      rfl

theorem ContextCall.context_last_set_append {Cfg : Type} (pre post : List (ContextCall Cfg)) :
    ContextCall.last_set (pre ++ post)
      = match ContextCall.last_set post with
        | some C => some C
        | none => ContextCall.last_set pre := by
  induction pre with
  | nil => cases h : ContextCall.last_set post <;> simp [h, ContextCall.last_set]
  | cons e rest ih =>
    cases e with
    | set_configuration C' =>
      show some ((ContextCall.last_set (rest ++ post)).getD C') = _
      rw [ih]
      cases h : ContextCall.last_set post <;> simp [ContextCall.last_set]
    | defer =>
      show ContextCall.last_set (rest ++ post) = _
      rw [ih]
      rfl
    | task_start =>
      show ContextCall.last_set (rest ++ post) = _
      rw [ih]
      rfl
    | task_end =>
      show ContextCall.last_set (rest ++ post) = _
      rw [ih]
      rfl

/-- A call of `set_configuration` whose `try_lock` fails, and its second step right after the
first, are together the whole call. -/
theorem WorkerSingleThreadedT.set_configuration_two_steps
    (run_task : List Value → Value → Value) (w : WorkerSingleThreadedT) (C : Value)
    (hheld : w.base.configuration_mtx_ = true) (hd : w.deferring = false) :
    WorkerSingleThreadedT.run run_task w
        [SingleThreadedEvent.set_configuration C, SingleThreadedEvent.defer]
      = some { w with base := w.base.set_configuration C } := by
  simp only [WorkerSingleThreadedT.run, WorkerSingleThreadedT.step, hd, hheld,
    WorkerBaseT.set_configuration_held w.base C hheld]
  simp [hd]

/-- No step calls the hook while `configuration_mtx_` is locked. -/
theorem WorkerSingleThreadedT.applied_while_locked (run_task : List Value → Value → Value)
    (w w' : WorkerSingleThreadedT) (e : SingleThreadedEvent)
    (hheld : w.base.configuration_mtx_ = true)
    (hstep : WorkerSingleThreadedT.step run_task w e = some w') :
    w'.base.applied = w.base.applied := by
  cases e with
  | set_configuration C =>
    simp only [WorkerSingleThreadedT.step, hheld] at hstep
    by_cases hd : w.deferring = true
    · simp [hd] at hstep
    · simp [hd] at hstep
      subst hstep
      rfl
  | defer =>
    simp only [WorkerSingleThreadedT.step] at hstep
    by_cases hd : w.deferring = true
    · simp [hd] at hstep
      subst hstep
      rfl
    · simp [hd] at hstep
  | push task =>
    simp only [WorkerSingleThreadedT.step, Option.some.injEq] at hstep
    subst hstep
    rfl
  | terminate task =>
    simp only [WorkerSingleThreadedT.step, Option.some.injEq] at hstep
    subst hstep
    rfl
  | thread =>
    simp only [WorkerSingleThreadedT.step, WorkerSingleThreadedT.thread_step] at hstep
    cases hp : w.position with
    | top =>
      rw [hp] at hstep
      simp only at hstep
      by_cases ht : w.terminate_ = true
      · simp only [ht, if_true, Option.some.injEq] at hstep
        subst hstep
        rfl
      · simp only [ht, Bool.false_eq_true, if_false] at hstep
        by_cases hc : w.base.configuration_changed_ = true
        · simp only [hc, if_true, WorkerBaseT.update_configuration, hheld] at hstep
          by_cases hd : w.deferring = true
          · simp [hd] at hstep
          · simp [hd] at hstep
        · simp only [hc, Bool.false_eq_true, if_false, Option.some.injEq] at hstep
          subst hstep
          rfl
    | pull =>
      rw [hp] at hstep
      simp only at hstep
      cases hq : w.task_queue_ with
      | nil =>
        rw [hq] at hstep
        simp at hstep
      | cons task rest =>
        rw [hq] at hstep
        simp only at hstep
        by_cases ht : w.terminate_ = true
        · simp only [ht, if_true, Option.some.injEq] at hstep
          subst hstep
          rfl
        · simp [ht, hheld] at hstep
    | running task =>
      rw [hp] at hstep
      simp only [Option.some.injEq] at hstep
      subst hstep
      rfl
    | exited =>
      rw [hp] at hstep
      simp at hstep

/-- One step keeps a single-threaded worker consistent with the steps so far. -/
theorem WorkerSingleThreadedT.consistent_step (run_task : List Value → Value → Value)
    (pre : List SingleThreadedEvent) (w w' : WorkerSingleThreadedT) (e : SingleThreadedEvent)
    (hinv : WorkerSingleThreadedT.consistent pre w)
    (hstep : WorkerSingleThreadedT.step run_task w e = some w') :
    WorkerSingleThreadedT.consistent (pre ++ [e]) w' := by
  obtain ⟨h1, h3, h4⟩ := hinv
  cases e with
  | set_configuration C =>
    have hlast : SingleThreadedEvent.last_set (pre ++ [SingleThreadedEvent.set_configuration C])
        = some C := by
      rw [SingleThreadedEvent.last_set_append]
      simp [SingleThreadedEvent.last_set]
    simp only [WorkerSingleThreadedT.step] at hstep
    by_cases hd : w.deferring = true
    · simp [hd] at hstep
    · have hd' : w.deferring = false := by simpa using hd
      cases hm : w.base.configuration_mtx_ with
      | false =>
        simp only [hd', hm, Bool.false_eq_true, if_false, if_true, Option.some.injEq] at hstep
        subst hstep
        rw [WorkerBaseT.set_configuration_free w.base C hm]
        refine ⟨?_, ?_, ?_⟩
        · simpa [hm] using h1
        · intro C' hC'
          rw [hlast] at hC'
          simp only [Option.some.injEq] at hC'
          simp [hC']
        · intro _ _ C' hC'
          rw [hlast] at hC'
          simp only [Option.some.injEq] at hC'
          simp [hC']
      | true =>
        simp only [hd', hm, Bool.false_eq_true, if_false, Bool.true_eq_false,
          Option.some.injEq] at hstep
        subst hstep
        refine ⟨?_, ?_, ?_⟩
        · simpa [hm] using h1
        · intro C' hC'
          rw [hlast] at hC'
          simp only [Option.some.injEq] at hC'
          simp [hC']
        · intro _ hdef
          simp at hdef
  | defer =>
    have hlast : SingleThreadedEvent.last_set (pre ++ [SingleThreadedEvent.defer])
        = SingleThreadedEvent.last_set pre := by
      rw [SingleThreadedEvent.last_set_append]
      simp [SingleThreadedEvent.last_set]
    rw [WorkerSingleThreadedT.consistent, hlast]
    simp only [WorkerSingleThreadedT.step] at hstep
    by_cases hd : w.deferring = true
    · simp only [hd, if_true, Option.some.injEq] at hstep
      subst hstep
      refine ⟨?_, h3, ?_⟩
      · simpa using h1
      · intro hc
        simp at hc
    · simp [hd] at hstep
  | push task =>
    simp only [WorkerSingleThreadedT.step, Option.some.injEq] at hstep
    subst hstep
    have hlast : SingleThreadedEvent.last_set (pre ++ [SingleThreadedEvent.push task])
        = SingleThreadedEvent.last_set pre := by
      rw [SingleThreadedEvent.last_set_append]
      simp [SingleThreadedEvent.last_set]
    rw [WorkerSingleThreadedT.consistent, hlast]
    exact ⟨h1, h3, h4⟩
  | terminate task =>
    simp only [WorkerSingleThreadedT.step, Option.some.injEq] at hstep
    subst hstep
    have hlast : SingleThreadedEvent.last_set (pre ++ [SingleThreadedEvent.terminate task])
        = SingleThreadedEvent.last_set pre := by
      rw [SingleThreadedEvent.last_set_append]
      simp [SingleThreadedEvent.last_set]
    rw [WorkerSingleThreadedT.consistent, hlast]
    exact ⟨h1, h3, h4⟩
  | thread =>
    have hlast : SingleThreadedEvent.last_set (pre ++ [SingleThreadedEvent.thread])
        = SingleThreadedEvent.last_set pre := by
      rw [SingleThreadedEvent.last_set_append]
      simp [SingleThreadedEvent.last_set]
    rw [WorkerSingleThreadedT.consistent, hlast]
    simp only [WorkerSingleThreadedT.step, WorkerSingleThreadedT.thread_step] at hstep
    cases hp : w.position with
    | top =>
      have hfree : w.base.configuration_mtx_ = false := by
        cases hm : w.base.configuration_mtx_ with
        | false => rfl
        | true =>
          obtain ⟨task, htask⟩ := h1.1 hm
          rw [hp] at htask
          exact absurd htask (by simp)
      rw [hp] at hstep
      simp only at hstep
      by_cases ht : w.terminate_ = true
      · simp only [ht, if_true, Option.some.injEq] at hstep
        subst hstep
        refine ⟨?_, h3, h4⟩
        simp [hfree]
      · simp only [ht, Bool.false_eq_true, if_false] at hstep
        by_cases hc : w.base.configuration_changed_ = true
        · by_cases hd : w.deferring = true
          · simp [hc, hd] at hstep
          · have hd' : w.deferring = false := by simpa using hd
            simp only [hc, hd', if_true, Bool.false_eq_true, if_false,
              WorkerBaseT.update_configuration_free w.base hfree, Option.some.injEq] at hstep
            subst hstep
            refine ⟨?_, h3, ?_⟩
            · simp [hfree]
            · intro _ _ C hC
              simp [h3 C hC]
        · simp only [hc, Bool.false_eq_true, if_false, Option.some.injEq] at hstep
          subst hstep
          refine ⟨?_, h3, h4⟩
          simp [hfree]
    | pull =>
      have hfree : w.base.configuration_mtx_ = false := by
        cases hm : w.base.configuration_mtx_ with
        | false => rfl
        | true =>
          obtain ⟨task, htask⟩ := h1.1 hm
          rw [hp] at htask
          exact absurd htask (by simp)
      rw [hp] at hstep
      simp only at hstep
      cases hq : w.task_queue_ with
      | nil =>
        rw [hq] at hstep
        simp at hstep
      | cons task rest =>
        rw [hq] at hstep
        simp only at hstep
        by_cases ht : w.terminate_ = true
        · simp only [ht, if_true, Option.some.injEq] at hstep
          subst hstep
          refine ⟨?_, h3, h4⟩
          simp [hfree]
        · simp only [ht, if_false, hfree, Bool.false_eq_true, Option.some.injEq] at hstep
          subst hstep
          refine ⟨?_, h3, h4⟩
          simp
    | running task =>
      rw [hp] at hstep
      simp only [Option.some.injEq] at hstep
      subst hstep
      refine ⟨?_, h3, h4⟩
      simp
    | exited =>
      rw [hp] at hstep
      simp at hstep

/-- A sequence of steps keeps a single-threaded worker consistent with the steps so far. -/
theorem WorkerSingleThreadedT.consistent_run (run_task : List Value → Value → Value)
    (events : List SingleThreadedEvent) :
    ∀ (pre : List SingleThreadedEvent) (w w' : WorkerSingleThreadedT),
      WorkerSingleThreadedT.consistent pre w →
      WorkerSingleThreadedT.run run_task w events = some w' →
      WorkerSingleThreadedT.consistent (pre ++ events) w' := by
  induction events with
  | nil =>
    intro pre w w' hinv hrun
    simp only [WorkerSingleThreadedT.run, Option.some.injEq] at hrun
    subst hrun
    simpa using hinv
  | cons e rest ih =>
    intro pre w w' hinv hrun
    simp only [WorkerSingleThreadedT.run] at hrun
    cases hs : WorkerSingleThreadedT.step run_task w e with
    | none => rw [hs] at hrun; simp at hrun
    | some w1 =>
      rw [hs] at hrun
      simp only at hrun
      have := ih (pre ++ [e]) w1 w'
        (WorkerSingleThreadedT.consistent_step run_task pre w w1 e hinv hs) hrun
      simpa using this

/-- The worker thread passes the head of its loop, starts a task and ends it: in every state
that a single-threaded worker reaches from its construction, `configuration_mtx_` is locked
exactly while a task runs; when the thread passes the head of the loop while no call of
`set_configuration` is deferring, the flag is clear afterwards and the hook was last called
with the configuration set last; a task that starts while the flag is clear and no call is
deferring runs under the configuration set last; and the result passed on at the end of a
task is `run` under the hook calls made before the task started. -/
theorem WorkerSingleThreadedT.task_under_last_configuration
    (run_task : List Value → Value → Value) (base : WorkerBaseT)
    (events : List SingleThreadedEvent) (w : WorkerSingleThreadedT)
    (hmtx : base.configuration_mtx_ = false)
    (hw : WorkerSingleThreadedT.run run_task (WorkerSingleThreadedT.init base) events = some w) :
    (w.base.configuration_mtx_ = true ↔ ∃ task, w.position = LoopPosition.running task)
    ∧ (∀ w' : WorkerSingleThreadedT,
        w.position = LoopPosition.top → w.terminate_ = false → w.deferring = false →
        WorkerSingleThreadedT.step run_task w SingleThreadedEvent.thread = some w' →
        w'.position = LoopPosition.pull
        ∧ w'.base.configuration_changed_ = false
        ∧ ∀ C, SingleThreadedEvent.last_set events = some C →
            w'.base.applied.getLast? = some C)
    ∧ (∀ (w' : WorkerSingleThreadedT) (task : Value),
        WorkerSingleThreadedT.step run_task w SingleThreadedEvent.thread = some w' →
        w'.position = LoopPosition.running task →
        w'.base.configuration_mtx_ = true
        ∧ w'.base.applied = w.base.applied
        ∧ (w.base.configuration_changed_ = false → w.deferring = false →
            ∀ C, SingleThreadedEvent.last_set events = some C →
              w'.base.applied.getLast? = some C ∧ w'.base.configuration_storage_ = C))
    ∧ (∀ (w' : WorkerSingleThreadedT) (task : Value),
        w.position = LoopPosition.running task →
        WorkerSingleThreadedT.step run_task w SingleThreadedEvent.thread = some w' →
        w'.results = w.results ++ [run_task w.base.applied task]
        ∧ w'.base.configuration_mtx_ = false) := by
  have hinit : WorkerSingleThreadedT.consistent [] (WorkerSingleThreadedT.init base) := by
    refine ⟨?_, ?_, ?_⟩
    · simp [WorkerSingleThreadedT.init, hmtx]
    · intro C h; simp [SingleThreadedEvent.last_set] at h
    · intro _ _ C h; simp [SingleThreadedEvent.last_set] at h
  have hcons := WorkerSingleThreadedT.consistent_run run_task events [] _ w hinit hw
  rw [List.nil_append] at hcons
  obtain ⟨h1, h3, h4⟩ := hcons
  refine ⟨h1, ?_, ?_, ?_⟩
  · intro w' hp ht hd hstep
    have hfree : w.base.configuration_mtx_ = false := by
      cases hm : w.base.configuration_mtx_ with
      | false => rfl
      | true =>
        obtain ⟨task, htask⟩ := h1.1 hm
        rw [hp] at htask
        exact absurd htask (by simp)
    simp only [WorkerSingleThreadedT.step, WorkerSingleThreadedT.thread_step, hp, ht, hd,
      Bool.false_eq_true, if_false] at hstep
    by_cases hc : w.base.configuration_changed_ = true
    · simp only [hc, if_true, WorkerBaseT.update_configuration_free w.base hfree,
        Option.some.injEq] at hstep
      subst hstep
      refine ⟨rfl, rfl, ?_⟩
      intro C hC
      simp [h3 C hC]
    · have hc' : w.base.configuration_changed_ = false := by simpa using hc
      simp only [hc', Bool.false_eq_true, if_false, Option.some.injEq] at hstep
      subst hstep
      exact ⟨rfl, hc', h4 hc' hd⟩
  · intro w' task hstep hpos
    simp only [WorkerSingleThreadedT.step, WorkerSingleThreadedT.thread_step] at hstep
    cases hp : w.position with
    | top =>
      rw [hp] at hstep
      simp only at hstep
      by_cases ht : w.terminate_ = true
      · simp only [ht, if_true, Option.some.injEq] at hstep
        subst hstep
        simp at hpos
      · simp only [ht, Bool.false_eq_true, if_false] at hstep
        by_cases hc : w.base.configuration_changed_ = true
        · by_cases hd : w.deferring = true
          · simp [hc, hd] at hstep
          · simp only [hc, hd, if_true, Bool.false_eq_true, if_false] at hstep
            cases hu : w.base.update_configuration with
            | none => rw [hu] at hstep; simp at hstep
            | some b =>
              rw [hu] at hstep
              simp only [Option.some.injEq] at hstep
              subst hstep
              simp at hpos
        · simp only [hc, Bool.false_eq_true, if_false, Option.some.injEq] at hstep
          subst hstep
          simp at hpos
    | pull =>
      rw [hp] at hstep
      simp only at hstep
      cases hq : w.task_queue_ with
      | nil =>
        rw [hq] at hstep
        simp at hstep
      | cons t rest =>
        rw [hq] at hstep
        simp only at hstep
        by_cases ht : w.terminate_ = true
        · simp only [ht, if_true, Option.some.injEq] at hstep
          subst hstep
          simp at hpos
        · by_cases hm : w.base.configuration_mtx_ = true
          · simp [ht, hm] at hstep
          · simp only [ht, hm, Bool.false_eq_true, if_false, Option.some.injEq] at hstep
            subst hstep
            refine ⟨rfl, rfl, ?_⟩
            intro hc hd C hC
            exact ⟨h4 hc hd C hC, h3 C hC⟩
    | running t =>
      rw [hp] at hstep
      simp only [Option.some.injEq] at hstep
      subst hstep
      simp at hpos
    | exited =>
      rw [hp] at hstep
      simp at hstep
  · intro w' task hp hstep
    simp only [WorkerSingleThreadedT.step, WorkerSingleThreadedT.thread_step, hp,
      Option.some.injEq] at hstep
    subst hstep
    exact ⟨rfl, rfl⟩

/-- A call of `set_configuration` on a context whose `try_lock` fails, and its second step
right after the first, are together the whole call. -/
theorem ContextCalls.context_set_configuration_two_steps {Cfg : Type} (s : ContextCalls Cfg)
    (C : Cfg) (hheld : s.context.configuration_mtx_ = true) (hd : s.deferring = false) :
    ContextCalls.run s [ContextCall.set_configuration C, ContextCall.defer]
      = some { s with context := s.context.set_configuration C } := by
  simp only [ContextCalls.run, ContextCalls.step, hd, hheld,
    ContextBaseT.context_set_configuration_held s.context C hheld]
  simp [hd]

/-- No step calls the hook of a context while `configuration_mtx_` is locked. -/
theorem ContextCalls.context_applied_while_locked {Cfg : Type} (s s' : ContextCalls Cfg)
    (e : ContextCall Cfg) (hheld : s.context.configuration_mtx_ = true)
    (hstep : ContextCalls.step s e = some s') :
    s'.context.applied = s.context.applied := by
  cases e with
  | set_configuration C =>
    simp only [ContextCalls.step, hheld] at hstep
    by_cases hd : s.deferring = true
    · simp [hd] at hstep
    · simp [hd] at hstep
      subst hstep
      rfl
  | defer =>
    simp only [ContextCalls.step] at hstep
    by_cases hd : s.deferring = true
    · simp [hd] at hstep
      subst hstep
      rfl
    · simp [hd] at hstep
  | task_start =>
    simp only [ContextCalls.step, ContextBaseT.invoke_begin, hheld, if_true] at hstep
    split at hstep <;> simp at hstep
  | task_end =>
    simp only [ContextCalls.step, hheld, if_true, Option.some.injEq] at hstep
    subst hstep
    rfl

/-- One step keeps a context consistent with the steps so far. -/
theorem ContextCalls.context_consistent_step {Cfg : Type} (pre : List (ContextCall Cfg))
    (s s' : ContextCalls Cfg) (e : ContextCall Cfg)
    (hinv : ContextCalls.consistent pre s) (hstep : ContextCalls.step s e = some s') :
    ContextCalls.consistent (pre ++ [e]) s' := by
  obtain ⟨h3, h4⟩ := hinv
  cases e with
  | set_configuration C =>
    have hlast : ContextCall.last_set (pre ++ [ContextCall.set_configuration C])
        = some C := by
      rw [ContextCall.context_last_set_append]
      simp [ContextCall.last_set]
    simp only [ContextCalls.step] at hstep
    by_cases hd : s.deferring = true
    · simp [hd] at hstep
    · have hd' : s.deferring = false := by simpa using hd
      cases hm : s.context.configuration_mtx_ with
      | false =>
        simp only [hd', hm, Bool.false_eq_true, if_false, if_true, Option.some.injEq] at hstep
        subst hstep
        rw [ContextBaseT.context_set_configuration_free s.context C hm]
        refine ⟨?_, ?_⟩
        · intro C' hC'
          rw [hlast] at hC'
          simp only [Option.some.injEq] at hC'
          simp [hC']
        · intro _ _ C' hC'
          rw [hlast] at hC'
          simp only [Option.some.injEq] at hC'
          simp [hC']
      | true =>
        simp only [hd', hm, Bool.false_eq_true, if_false, Bool.true_eq_false,
          Option.some.injEq] at hstep
        subst hstep
        refine ⟨?_, ?_⟩
        · intro C' hC'
          rw [hlast] at hC'
          simp only [Option.some.injEq] at hC'
          simp [hC']
        · intro _ hdef
          simp at hdef
  | defer =>
    have hlast : ContextCall.last_set (pre ++ [ContextCall.defer])
        = ContextCall.last_set pre := by
      rw [ContextCall.context_last_set_append]
      simp [ContextCall.last_set]
    rw [ContextCalls.consistent, hlast]
    simp only [ContextCalls.step] at hstep
    by_cases hd : s.deferring = true
    · simp only [hd, if_true, Option.some.injEq] at hstep
      subst hstep
      refine ⟨h3, ?_⟩
      intro hc
      simp at hc
    · simp [hd] at hstep
  | task_start =>
    have hlast : ContextCall.last_set (pre ++ [ContextCall.task_start])
        = ContextCall.last_set pre := by
      rw [ContextCall.context_last_set_append]
      simp [ContextCall.last_set]
    rw [ContextCalls.consistent, hlast]
    simp only [ContextCalls.step, ContextBaseT.invoke_begin] at hstep
    by_cases hw : s.context.configuration_changed_ = true ∧ s.deferring = true
    · simp [hw] at hstep
    · simp only [hw, if_false] at hstep
      by_cases hm : s.context.configuration_mtx_ = true
      · simp [hm] at hstep
      · simp only [hm, Bool.false_eq_true, if_false, Option.some.injEq] at hstep
        subst hstep
        by_cases hc : s.context.configuration_changed_ = true
        · have hd : s.deferring = false := by
            cases hdd : s.deferring with
            | false => rfl
            | true => exact absurd ⟨hc, hdd⟩ hw
          simp only [ContextBaseT.commit, hc, if_true]
          refine ⟨h3, ?_⟩
          intro _ _ C hC
          simp [h3 C hC]
        · have hc' : s.context.configuration_changed_ = false := by simpa using hc
          simp only [ContextBaseT.commit, hc', Bool.false_eq_true, if_false]
          exact ⟨h3, fun _ hd => h4 hc' hd⟩
  | task_end =>
    have hlast : ContextCall.last_set (pre ++ [ContextCall.task_end])
        = ContextCall.last_set pre := by
      rw [ContextCall.context_last_set_append]
      simp [ContextCall.last_set]
    rw [ContextCalls.consistent, hlast]
    simp only [ContextCalls.step] at hstep
    by_cases hm : s.context.configuration_mtx_ = true
    · simp only [hm, if_true, Option.some.injEq] at hstep
      subst hstep
      exact ⟨h3, h4⟩
    · simp [hm] at hstep

/-- A sequence of steps keeps a context consistent with the steps so far. -/
theorem ContextCalls.context_consistent_run {Cfg : Type} (steps : List (ContextCall Cfg)) :
    ∀ (pre : List (ContextCall Cfg)) (s s' : ContextCalls Cfg),
      ContextCalls.consistent pre s →
      ContextCalls.run s steps = some s' →
      ContextCalls.consistent (pre ++ steps) s' := by
  induction steps with
  | nil =>
    intro pre s s' hinv hrun
    simp only [ContextCalls.run, Option.some.injEq] at hrun
    subst hrun
    simpa using hinv
  | cons e rest ih =>
    intro pre s s' hinv hrun
    simp only [ContextCalls.run] at hrun
    cases hs : ContextCalls.step s e with
    | none => rw [hs] at hrun; simp at hrun
    | some s1 =>
      rw [hs] at hrun
      simp only at hrun
      have := ih (pre ++ [e]) s1 s' (ContextCalls.context_consistent_step pre s s1 e hinv hs) hrun
      simpa using this

/-- A call of `operator()` on a context: in every state that a context reaches from its
construction, a call of `operator()` that starts its task while no call of
`set_configuration` is deferring has the flag clear and the hook last called with the
configuration set last when `run` starts. -/
theorem ContextCalls.context_task_under_last_configuration {Cfg : Type} (d : Cfg)
    (steps : List (ContextCall Cfg)) (s : ContextCalls Cfg)
    (hs : ContextCalls.run (ContextCalls.init d) steps = some s) :
    ∀ s' : ContextCalls Cfg, s.deferring = false →
      ContextCalls.step s ContextCall.task_start = some s' →
      s'.context.configuration_mtx_ = true
      ∧ s'.context.configuration_changed_ = false
      ∧ ∀ D, ContextCall.last_set steps = some D →
          s'.context.applied.getLast? = some D ∧ s'.context.configuration_storage_ = D := by
  have hinit : ContextCalls.consistent ([] : List (ContextCall Cfg)) (ContextCalls.init d) := by
    refine ⟨?_, ?_⟩
    · intro C h; simp [ContextCall.last_set] at h
    · intro _ _ C h; simp [ContextCall.last_set] at h
  have hcons := ContextCalls.context_consistent_run steps [] _ s hinit hs
  rw [List.nil_append] at hcons
  obtain ⟨k3, k4⟩ := hcons
  intro s' hd hstep
  simp only [ContextCalls.step, ContextBaseT.invoke_begin, hd, Bool.false_eq_true, and_false,
    if_false] at hstep
  by_cases hm : s.context.configuration_mtx_ = true
  · simp [hm] at hstep
  · simp only [hm, Bool.false_eq_true, if_false, Option.some.injEq] at hstep
    subst hstep
    by_cases hc : s.context.configuration_changed_ = true
    · simp only [ContextBaseT.commit, hc, if_true]
      refine ⟨trivial, trivial, ?_⟩
      intro D hD
      exact ⟨by simp [k3 D hD], k3 D hD⟩
    · have hc' : s.context.configuration_changed_ = false := by simpa using hc
      simp only [ContextBaseT.commit, hc', Bool.false_eq_true, if_false]
      refine ⟨trivial, trivial, ?_⟩
      intro D hD
      exact ⟨k4 hc' hd D hD, k3 D hD⟩

/-- C26: on the worker of the tests a task `"t1"` runs when a call of
`set_configuration("X")` comes: its `try_lock` fails and it writes the staging slot.  Before
the call sets `configuration_changed_`, the task ends and the worker thread reads the flag,
still clear, at the head of its loop and goes to `pull_front`.  Then the call sets the flag
and returns.  The task `"t2"`, pushed after that, starts with the hook never called: it runs
without `"X"`, which the hook gets only at the head of the loop after `"t2"`.  On a context
the same happens when the next call of `operator()` reads the flag before the call of
`set_configuration` sets it.  When the call of `set_configuration` returns before the running
task ends, the next task starts with the flag clear and the hook last called with `"X"`. -/
theorem deferred_configuration_missed_by_next_task :
    (WorkerSingleThreadedT.run run_last_applied
        (WorkerSingleThreadedT.init (test_worker false).1) missed_events = some missed_worker
      ∧ SingleThreadedEvent.last_set missed_events = some (Value.str "X")
      ∧ (WorkerSingleThreadedT.run run_last_applied
            (WorkerSingleThreadedT.init (test_worker false).1) (missed_events.take 4)).map
          (fun w => (w.position, w.base.configuration_mtx_, w.base.configuration_storage_,
            w.base.applied, w.base.configuration_changed_, w.deferring))
        = some (LoopPosition.running (Value.str "t1"), true, Value.str "X", [], false, true)
      ∧ (WorkerSingleThreadedT.run run_last_applied
            (WorkerSingleThreadedT.init (test_worker false).1) (missed_events.take 6)).map
          (fun w => (w.position, w.base.configuration_mtx_, w.base.configuration_storage_,
            w.base.applied, w.base.configuration_changed_, w.deferring))
        = some (LoopPosition.pull, false, Value.str "X", [], false, true)
      ∧ (missed_worker.position, missed_worker.base.configuration_mtx_,
            missed_worker.base.configuration_storage_, missed_worker.base.applied,
            missed_worker.base.configuration_changed_, missed_worker.deferring)
        = (LoopPosition.pull, false, Value.str "X", [], true, false)
      ∧ (missed_worker.task_queue_, missed_worker.results)
        = ([Value.str "t2"], [Value.str "t1"])
      ∧ (WorkerSingleThreadedT.run run_last_applied missed_worker
            [SingleThreadedEvent.thread]).map
          (fun w => (w.position, w.base.applied, w.base.configuration_changed_))
        = some (LoopPosition.running (Value.str "t2"), [], true)
      ∧ (WorkerSingleThreadedT.run run_last_applied missed_worker
            [SingleThreadedEvent.thread, SingleThreadedEvent.thread]).map
          (fun w => (w.position, w.base.applied, w.results))
        = some (LoopPosition.top, [], [Value.str "t1", Value.str "t2"])
      ∧ (WorkerSingleThreadedT.run run_last_applied missed_worker
            [SingleThreadedEvent.thread, SingleThreadedEvent.thread,
              SingleThreadedEvent.thread]).map
          (fun w => (w.position, w.base.applied, w.base.configuration_changed_))
        = some (LoopPosition.pull, [Value.str "X"], false))
    ∧ (ContextCalls.run (ContextCalls.init "") missed_context_steps = some missed_context
      ∧ ContextCall.last_set missed_context_steps = some "X"
      ∧ (ContextCalls.run (ContextCalls.init "") (missed_context_steps.take 2)).map
          (fun s => (s.context.configuration_mtx_, s.context.configuration_storage_,
            s.context.applied, s.context.configuration_changed_, s.deferring))
        = some (true, "X", [], false, true)
      ∧ (ContextCalls.run (ContextCalls.init "") (missed_context_steps.take 4)).map
          (fun s => (s.context.configuration_mtx_, s.context.configuration_storage_,
            s.context.applied, s.context.configuration_changed_, s.deferring))
        = some (true, "X", [], false, true)
      ∧ (missed_context.context.configuration_mtx_,
            missed_context.context.configuration_storage_, missed_context.context.applied,
            missed_context.context.configuration_changed_, missed_context.deferring)
        = (true, "X", [], true, false)
      ∧ (ContextCalls.run missed_context [ContextCall.task_end, ContextCall.task_start]).map
          (fun s => (s.context.applied, s.context.configuration_changed_))
        = some (["X"], false))
    ∧ (WorkerSingleThreadedT.run run_last_applied
          (WorkerSingleThreadedT.init (test_worker false).1) deferred_events
        = some deferred_worker
      ∧ (WorkerSingleThreadedT.run run_last_applied deferred_worker
            [SingleThreadedEvent.thread]).map
          (fun w => (w.position, w.base.applied, w.base.configuration_changed_))
        = some (LoopPosition.running (Value.str "t2"), [Value.str "X"], false)
      ∧ ContextCalls.run (ContextCalls.init "") deferred_context_steps = some deferred_context
      ∧ (ContextCalls.run deferred_context [ContextCall.task_start]).map
          (fun s => (s.context.applied, s.context.configuration_changed_))
        = some (["X"], false)) := by
  refine ⟨⟨?_, ?_, ?_, ?_, ?_, ?_, ?_, ?_, ?_⟩, ⟨?_, ?_, ?_, ?_, ?_, ?_⟩, ⟨?_, ?_, ?_, ?_⟩⟩ <;>
    decide

/-! ## Workers and brokers on names that `sanitize_name` changes -/

/-- C27: on a new broker none of the names `log.a.`, `error.a.`, `configuration.set.a.` and
`configuration.get.a.` exists, yet the constructor of a worker named `"a."` does not return:
it adds the four services, which the broker lists as `log.a` and so on, and then
`register_callback("configuration.set.a.", ...)` ends in the failed assertion on
`services_.find("configuration.set.a")`, with no callback subscribed.  For the worker named
`"a"` the constructor returns with four services added and two callbacks subscribed, and the
destructor removes the four services again. -/
theorem worker_constructor_fails_on_dotted_name (ndebug : Bool) :
    (ServiceDirectory.node_type ServiceBroker.init.service_directory_ "log.a.".toList = none
      ∧ ServiceDirectory.node_type ServiceBroker.init.service_directory_ "error.a.".toList
          = none
      ∧ ServiceDirectory.node_type ServiceBroker.init.service_directory_
          "configuration.set.a.".toList = none
      ∧ ServiceDirectory.node_type ServiceBroker.init.service_directory_
          "configuration.get.a.".toList = none)
    ∧ (WorkerBaseT.construct ndebug "std::string" (Value.str "") "a.".toList ServiceBroker.init
        Heap.init).1.map (fun _ => ()) = assert_failure ndebug
    ∧ ServiceBroker.list_services (WorkerBaseT.construct ndebug "std::string" (Value.str "")
        "a.".toList ServiceBroker.init Heap.init).2.1 []
      = ["configuration.get.a".toList, "configuration.set.a".toList, "error.a".toList,
          "log.a".toList]
    ∧ (WorkerBaseT.construct ndebug "std::string" (Value.str "") "a.".toList ServiceBroker.init
        Heap.init).2.1.services_.map Prod.fst
      = ["log.a.".toList, "error.a.".toList, "configuration.set.a.".toList,
          "configuration.get.a.".toList]
    ∧ (WorkerBaseT.construct ndebug "std::string" (Value.str "") "a.".toList ServiceBroker.init
        Heap.init).2.2.1.signals.map List.length = [0, 0, 0, 0]
    ∧ ((WorkerBaseT.construct ndebug "std::string" (Value.str "") "a".toList ServiceBroker.init
        Heap.init).1.map (fun w => w.slots_) = Ending.returned [0, 1]
      ∧ ServiceBroker.list_services (test_worker ndebug).2.1 []
        = ["configuration.get.a".toList, "configuration.set.a".toList, "error.a".toList,
            "log.a".toList]
      ∧ (test_worker ndebug).2.2.signals.map List.length = [0, 0, 1, 1]
      ∧ (WorkerBaseT.destruct ndebug (test_worker ndebug).1 (test_worker ndebug).2.1
          (test_worker ndebug).2.2).1 = Ending.returned ()
      ∧ ServiceBroker.list_services (WorkerBaseT.destruct ndebug (test_worker ndebug).1
          (test_worker ndebug).2.1 (test_worker ndebug).2.2).2.1 [] = []
      ∧ (WorkerBaseT.destruct ndebug (test_worker ndebug).1 (test_worker ndebug).2.1
          (test_worker ndebug).2.2).2.1.services_.map Prod.fst = []
      ∧ (WorkerBaseT.destruct ndebug (test_worker ndebug).1 (test_worker ndebug).2.1
          (test_worker ndebug).2.2).2.2.signals.map List.length = [0, 0, 0, 0]) := by
  cases ndebug <;> decide

/-- C29: from a new broker, `add_service` of a service named `"a."` and of one named `"b"`
return, and the state reached lists the name `a`, which is no key of `services_` (the keys are
`a.` and `b`): the assertion fails in `remove_service("")`, in `register_callback("", fn)`,
in `call<void>("")` and in `call<int>("")`.  The same happens with the one service
`".a"`. -/
theorem broker_lookup_assertion_fails (ndebug : Bool) :
    ServiceBroker.list_services (dotted_services ndebug).1 [] = ["a".toList, "b".toList]
    ∧ (dotted_services ndebug).1.services_.map Prod.fst = ["a.".toList, "b".toList]
    ∧ ServiceBroker.map_find "a".toList (dotted_services ndebug).1.services_ = none
    ∧ (ServiceBroker.remove_service ndebug (dotted_services ndebug).1 []).1
        = assert_failure ndebug
    ∧ (ServiceBroker.register_callback ndebug (dotted_services ndebug).1 [] void_callback
        (dotted_services ndebug).2).1 = assert_failure ndebug
    ∧ (ServiceBroker.call_void ndebug (dotted_services ndebug).1 [] void_signature []
        (dotted_services ndebug).2).1 = assert_failure ndebug
    ∧ (ServiceBroker.call ndebug (dotted_services ndebug).1 [] int_signature []
        (dotted_services ndebug).2).1 = assert_failure ndebug
    ∧ ServiceBroker.list_services (ServiceBroker.add_service ndebug ServiceBroker.init
        (Heap.init.new_service ".a".toList int_signature).1).2 ".a".toList = ["a".toList]
    ∧ (ServiceBroker.call ndebug (ServiceBroker.add_service ndebug ServiceBroker.init
        (Heap.init.new_service ".a".toList int_signature).1).2 ".a".toList int_signature []
        (Heap.init.new_service ".a".toList int_signature).2).1 = assert_failure ndebug := by
  cases ndebug <;> decide

theorem ServiceBroker.register_names_cons_returned (ndebug : Bool) (b : ServiceBroker)
    (callback : Callback) (name : Str) (rest : List Str) (connections : List Nat) (h : Heap)
    (s : Service) (hs : ServiceBroker.map_find name b.services_ = some s)
    (hsig : s.signature = callback.signature) :
    ServiceBroker.register_names ndebug b callback (name :: rest) connections h
      = ServiceBroker.register_names ndebug b callback rest
          (connections ++ [(h.connect s.service callback.fn).1])
          (h.connect s.service callback.fn).2 := by
  simp [ServiceBroker.register_names, ServiceBroker.register_callback_, hs, hsig]

/-- The loop of `register_callback` over leaves that are stored in `services_`: it stops at
the first leaf whose signature is not that of the callback and throws the `broker_error` that
names it; the callback was connected to the leaves before it, one after the other, and to no
other. -/
theorem ServiceBroker.register_names_stop (ndebug : Bool) (b : ServiceBroker)
    (callback : Callback) (l : Str × Service) (post : List (Str × Service))
    (hl : ServiceBroker.map_find l.1 b.services_ = some l.2)
    (hdiffers : l.2.signature ≠ callback.signature) :
    ∀ (pre : List (Str × Service)) (connections : List Nat) (h : Heap),
      (∀ x ∈ pre, ServiceBroker.map_find x.1 b.services_ = some x.2
        ∧ x.2.signature = callback.signature) →
      ServiceBroker.register_names ndebug b callback ((pre ++ l :: post).map Prod.fst)
          connections h
        = (Ending.broker_error
            ("Cannot register callback to service: " ++ String.mk l.1 ++ ". Type mismatch."),
            Heap.connect_each callback.fn (pre.map Prod.snd) h) := by
  intro pre
  induction pre with
  | nil =>
    intro connections h _
    simp [ServiceBroker.register_names, ServiceBroker.register_callback_, hl, hdiffers,
      Heap.connect_each, Ending.map]
  | cons x rest ih =>
    intro connections h hpre
    obtain ⟨hx, hsig⟩ := hpre x (by simp)
    rw [List.cons_append, List.map_cons,
      ServiceBroker.register_names_cons_returned ndebug b callback x.1 _ connections h x.2 hx
        hsig,
      ih _ _ (fun y hy => hpre y (List.mem_cons_of_mem _ hy))]
    rfl

/-- C30: with the services `".a"`, a `Service<void>`, and `"b"`, a `Service<int>`, the
leaves under `""` are `a` and `b`, and `b` is the first whose signature differs from that of
a callback `void()`; `register_callback("", fn)` throws no `broker_error` that names `b` and
has not subscribed `fn` to the leaf `a`: it ends in the failed assertion on
`services_.find("a")`.  With the services `"a"`, `"b"` and `"c"` (`void`, `int`, `void`)
it throws the `broker_error` that names `b`, `fn` stays connected to `a`, and `b` and `c` get
no subscriber. -/
theorem register_callback_stops_without_handle (ndebug : Bool) :
    ServiceBroker.list_services (ServiceBroker.add_service ndebug
        (ServiceBroker.add_service ndebug ServiceBroker.init
          (Heap.init.new_service ".a".toList void_signature).1).2
        ((Heap.init.new_service ".a".toList void_signature).2.new_service "b".toList
          int_signature).1).2 []
      = ["a".toList, "b".toList]
    ∧ ServiceBroker.map_find "a".toList (ServiceBroker.add_service ndebug
        (ServiceBroker.add_service ndebug ServiceBroker.init
          (Heap.init.new_service ".a".toList void_signature).1).2
        ((Heap.init.new_service ".a".toList void_signature).2.new_service "b".toList
          int_signature).1).2.services_ = none
    ∧ (ServiceBroker.register_callback ndebug (ServiceBroker.add_service ndebug
        (ServiceBroker.add_service ndebug ServiceBroker.init
          (Heap.init.new_service ".a".toList void_signature).1).2
        ((Heap.init.new_service ".a".toList void_signature).2.new_service "b".toList
          int_signature).1).2 [] void_callback
        ((Heap.init.new_service ".a".toList void_signature).2.new_service "b".toList
          int_signature).2).1
      = assert_failure ndebug
    ∧ (ServiceBroker.register_callback ndebug (ServiceBroker.add_service ndebug
        (ServiceBroker.add_service ndebug ServiceBroker.init
          (Heap.init.new_service ".a".toList void_signature).1).2
        ((Heap.init.new_service ".a".toList void_signature).2.new_service "b".toList
          int_signature).1).2 [] void_callback
        ((Heap.init.new_service ".a".toList void_signature).2.new_service "b".toList
          int_signature).2).2.signals.map List.length
      = [0, 0]
    ∧ ServiceBroker.list_services (three_services ndebug).1 []
      = ["a".toList, "b".toList, "c".toList]
    ∧ (ServiceBroker.register_callback ndebug (three_services ndebug).1 [] void_callback
        (three_services ndebug).2).1
      = Ending.broker_error "Cannot register callback to service: b. Type mismatch."
    ∧ (ServiceBroker.register_callback ndebug (three_services ndebug).1 [] void_callback
        (three_services ndebug).2).2.signals.map List.length
      = [1, 0, 0] := by
  cases ndebug <;> decide
